import Mathlib

/-!
# Persist: the JSON archive writer and reader

A shallow embedding of `ArchiveWriterJson` and `ArchiveReaderJson`
(src/ArchiveJson.cpp) together with the declarations of src/Archive.h they use.

* Instance memory is a tree of `Val`; a `Pointer` is the value found at a location and
  a store through a `Pointer` is the new value of that location.
* The text library (rapidjson) is represented by the event sequence handed to its
  writer (`Token`) and by the document tree its parser hands back (`Value`).
* Reflection, registry and numeric routines that live outside the archive sources are
  the fields of `Env`.
-/

namespace Persist

/-! ## Reflection metadata -/

/-- ScalarTypes: the width and signedness tag carried by a `ScalarTranslator`. -/
inductive ScalarType where
  | Boolean
  | Unsigned8
  | Unsigned16
  | Unsigned32
  | Unsigned64
  | Signed8
  | Signed16
  | Signed32
  | Signed64
  | Float32
  | Float64
  | String
  deriving DecidableEq, Repr

/-- ReflectionTypes: the translator categories the archive switches on. -/
inductive ReflectionType where
  | ScalarTranslator
  | EnumerationTranslator
  | PointerTranslator
  | TypeTranslator
  | StructureTranslator
  | SetTranslator
  | SequenceTranslator
  | AssociationTranslator
  deriving DecidableEq, Repr

/-- The classes that are a `ScalarTranslator` (the class itself and its three subclasses);
the archive casts all four to `ScalarTranslator*`. -/
inductive ScalarClass where
  | ScalarTranslator
  | EnumerationTranslator
  | PointerTranslator
  | TypeTranslator
  deriving DecidableEq, Repr

/-- Contents of a location in instance memory.
`ref cell cls` is an `ObjectPtr` slot: `cell` is the handle of the slot (its binding lives
in the session's cell table) and `cls` the class the slot is declared to point to. -/
inductive Val where
  | nil
  | bool (b : Bool)
  | int (v : Int)
  | float (bits : Nat)
  | str (s : String)
  | ref (cell : Nat) (cls : String)
  | struct (slots : List (String × List Val))
  | set (items : List Val)
  | seq (items : List Val)
  | assoc (entries : List (Val × Val))
  deriving Repr

instance : Inhabited Val := ⟨Val.nil⟩

mutual
/-- Translator: how one logical value is read from or written to a location. The
categories are the ones the archive handles; the default case of the writer's switch, an
unrecognized category, is a programming fault and has no constructor here. -/
inductive Translator where
  | scalar (cls : ScalarClass) (m_Type : ScalarType)
  | structure (s : Structure)
  | set (item : Translator)
  | sequence (item : Translator)
  | association (key : Translator) (value : Translator)
/-- Structure: name, optional base (single inheritance) and declared fields. -/
inductive Structure where
  | mk (m_Name : String) (m_Base : Option Structure) (m_Fields : List Field)
/-- Field: name, element count, translator and the per-instance predicate
`ShouldSerialize` (its argument is the instance memory). -/
inductive Field where
  | mk (m_Name : String) (m_Count : Nat) (m_Translator : Translator)
      (ShouldSerialize : Val → Bool)
end

/-- Name of a structure. -/
def Structure.m_Name : Structure → String
  | .mk n _ _ => n

/-- Base of a structure (`NULL` is `none`). -/
def Structure.m_Base : Structure → Option Structure
  | .mk _ b _ => b

/-- Declared fields of a structure, in declaration order. -/
def Structure.m_Fields : Structure → List Field
  | .mk _ _ fs => fs

/-- Name of a field. -/
def Field.m_Name : Field → String
  | .mk n _ _ _ => n

/-- Element count of a field. -/
def Field.m_Count : Field → Nat
  | .mk _ c _ _ => c

/-- Translator of a field. -/
def Field.m_Translator : Field → Translator
  | .mk _ _ t _ => t

/-- Per-instance predicate of a field. -/
def Field.ShouldSerialize : Field → Val → Bool
  | .mk _ _ _ p => p

/-- Exact reflection type of a translator (`GetReflectionType`). -/
def Translator.GetReflectionType : Translator → ReflectionType
  | .scalar .ScalarTranslator _ => .ScalarTranslator
  | .scalar .EnumerationTranslator _ => .EnumerationTranslator
  | .scalar .PointerTranslator _ => .PointerTranslator
  | .scalar .TypeTranslator _ => .TypeTranslator
  | .structure _ => .StructureTranslator
  | .set _ => .SetTranslator
  | .sequence _ => .SequenceTranslator
  | .association _ _ => .AssociationTranslator

/-- Whether the translator is of the given reflection type or of a class derived from it
(`HasReflectionType`); only the scalar class has derived classes here. -/
def Translator.HasReflectionType (t : Translator) (r : ReflectionType) : Bool :=
  match t, r with
  | .scalar _ _, .ScalarTranslator => true
  | t, r => decide (t.GetReflectionType = r)

mutual
/-- Number of nested calls the writer makes below `SerializeTranslator` for a translator,
the call itself included. -/
def Translator.depth : Translator → Nat
  | .scalar _ _ => 1
  | .structure s => s.depth + 1
  | .set i => i.depth + 1
  | .sequence i => i.depth + 1
  | .association k v => max k.depth v.depth + 1
/-- Number of nested calls below `SerializeInstance` for a structure, the call itself
included; the fields of the bases count like the declared ones. -/
def Structure.depth : Structure → Nat
  | .mk _ b fs => max (Structure.depthBase b) (Field.depthList fs + 1)
/-- Depth contributed by an optional base. -/
def Structure.depthBase : Option Structure → Nat
  | none => 1
  | some s => s.depth
/-- Largest depth among a list of fields. -/
def Field.depthList : List Field → Nat
  | [] => 0
  | f :: fs => max f.depth (Field.depthList fs)
/-- Number of nested calls below `SerializeField` for a field, the call itself included. -/
def Field.depth : Field → Nat
  | .mk _ _ t _ => t.depth + 1
end

/-- An object: its address (identity), its class and its instance memory. -/
structure Object where
  addr : Nat
  cls : Structure
  inst : Val

/-! ## Locations -/

/-- Read a location as `bool`. -/
def Val.asBool : Val → Bool
  | .bool b => b
  | _ => false

/-- Read a location as an integer of the width the translator names. -/
def Val.asInt : Val → Int
  | .int v => v
  | _ => 0

/-- Read a location as a floating-point bit pattern. -/
def Val.asFloat : Val → Nat
  | .float b => b
  | _ => 0

/-- Slots of the field named `name` in instance memory. -/
def Val.slots : Val → String → List Val
  | .struct ss, name =>
    match ss.find? (fun p => p.1 == name) with
    | some p => p.2
    | none => []
  | _, _ => []

/-- Location of element `i` of the field in the instance: `Pointer( field, instance, object, i )`. -/
def Pointer (field : Field) (inst : Val) (i : Nat) : Val :=
  (inst.slots field.m_Name).getD i Val.nil

/-- Replace the slots stored under `name`, adding the entry when it is missing. -/
def setSlots : List (String × List Val) → String → List Val → List (String × List Val)
  | [], name, vs => [(name, vs)]
  | p :: ps, name, vs => if p.1 == name then (name, vs) :: ps else p :: setSlots ps name vs

/-- Store `v` through `Pointer( field, instance, object, i )`. -/
def storeField (field : Field) (inst : Val) (i : Nat) (v : Val) : Val :=
  match inst with
  | .struct ss => .struct (setSlots ss field.m_Name ((inst.slots field.m_Name).set i v))
  | other => other

/-! ## Wire values and the text library -/

/-- A number held by a document value: an integer, or a double given by its bit pattern. -/
inductive Num where
  | int (v : Int)
  | double (bits : Nat)
  deriving DecidableEq, Repr

/-- Events accepted by the text writer `m_Writer`. -/
inductive Token where
  | StartObject
  | EndObject
  | StartArray
  | EndArray
  | String (s : String)
  | Bool (b : Bool)
  | Uint (v : Int)
  | Uint64 (v : Int)
  | Int (v : Int)
  | Int64 (v : Int)
  | Double (bits : Nat)
  deriving DecidableEq, Repr

/-- Document value handed back by the text parser; a member pairs a name with a value. -/
inductive Value where
  | null
  | bool (b : Bool)
  | number (n : Num)
  | string (s : String)
  | array (xs : List Value)
  | object (ms : List (Value × Value))
  deriving Repr

/-! ## Session state shared by writer and reader (src/Archive.h) -/

/-- ArchiveFlags. -/
def ArchiveFlags.Notify : Nat := 1 <<< 0

/-- ArchiveFlags: strings where sensible. -/
def ArchiveFlags.StringCrc : Nat := 1 <<< 1

/-- ArchiveFlags: sparse array populations. -/
def ArchiveFlags.SparseArray : Nat := 1 <<< 2

/-- ArchiveStates. -/
inductive ArchiveState where
  | Starting
  | PreProcessing
  | ArchiveStarting
  | ObjectProcessed
  | ArchiveComplete
  | PostProcessing
  | Complete
  deriving DecidableEq, Repr

/-- One raised `ArchiveStatus`: the state broadcast and the value of `m_Abort` the
listeners left in it. The progress percentage is computed in floating point and is
not part of the model. -/
structure ArchiveStatus where
  m_State : ArchiveState
  m_Abort : Bool
  deriving DecidableEq, Repr

/-- Calls of the lifecycle hooks of the object being processed; `none` is the `NULL`
field of the whole-instance calls. -/
inductive Hook where
  | PreSerialize (field : Option String)
  | PostSerialize (field : Option String)
  | PreDeserialize (field : Option String)
  | PostDeserialize (field : Option String)
  deriving DecidableEq, Repr

/-- Code outside the archive sources that the archive calls.
* `Crc32`, `GetClass`, `CreateInstance`, `Variable`: foundation hash, registry lookup and
  construction, construction of a temporary of a translator's type.
* `Print`: `ScalarTranslator::Print` of a string-typed scalar; it may call the writer's
  `Identify`, so it sees the session list and returns the objects appended to it.
* `InsertItem`, `SetItem`: insertion into a set (container, item) and into an association
  (container, key, value).
* `Resolver`: the resolver capability (identity, expected class, objects read so far).
* `GetDouble`, `RangeCastFloat32`, `RangeCastFloat64`, `widen`: floating-point routines
  on bit patterns.
* `listener`: the status listeners; given how many statuses were raised before and the
  state raised now, whether they set `m_Abort`.

`CreateInstance` and `Variable` are functions of the class and of the translator alone:
two instances of one class, or two temporaries of one translator, are not told apart by
their address or by the handles of their reference slots. -/
structure Env where
  Crc32 : String → Nat
  GetClass : Nat → Option Structure
  CreateInstance : Structure → Object
  Variable : Translator → Val
  Print : ScalarClass → Val → List Object → String × List Object
  InsertItem : Val → Val → Val
  SetItem : Val → Val → Val → Val
  Resolver : String → String → List (Option Object) → Option Nat
  GetDouble : Num → Nat
  RangeCastFloat32 : Nat → Nat
  RangeCastFloat64 : Nat → Nat
  widen : Nat → Nat
  listener : Nat → ArchiveState → Bool

/-! ## ArchiveWriterJson -/

/-- State of a write session: the session list `m_Objects`, the events given to
`m_Writer`, the hook calls and the statuses raised on `e_Status`, whether the stream
was flushed. -/
structure WriterState where
  m_Objects : List Object
  out : List Token
  hooks : List Hook
  status : List ArchiveStatus
  flushed : Bool

/-- A fresh writer. -/
def WriterState.init : WriterState :=
  { m_Objects := [], out := [], hooks := [], status := [], flushed := false }

/-- One call on `m_Writer`. -/
def WriterState.emit (st : WriterState) (t : Token) : WriterState :=
  { st with out := st.out ++ [t] }

/-- One hook call on the object. -/
def WriterState.hook (st : WriterState) (h : Hook) : WriterState :=
  { st with hooks := st.hooks ++ [h] }

/-- The value of `m_Abort` in the status raised last, `false` before the first raise. -/
def lastAbort (status : List ArchiveStatus) : Bool :=
  match status.getLast? with
  | some info => info.m_Abort
  | none => false

/-- Raise the status of `Write` on `e_Status`: `info.m_State = state; e_Status.Raise( info )`.
`Write` declares one `ArchiveStatus info` and raises that object every time, and nothing
clears its `m_Abort`: the flag a raise leaves in the status is the flag the raise before
left in it, or the one the listeners set now. -/
def WriterState.Raise (st : WriterState) (env : Env) (state : ArchiveState) : WriterState :=
  { st with status := st.status ++
      [⟨state, lastAbort st.status || env.listener st.status.length state⟩] }

mutual
/-- The first loop of `SerializeInstance`, `bases.Push( current )` for the structure and
then for its bases: one iteration with `current` a structure. -/
def pushBases : Structure → List Structure → List Structure
  | .mk n b fs, bases => pushBasesFrom b (bases ++ [.mk n b fs])
/-- The first loop of `SerializeInstance` from `current` on; it ends at `NULL`. -/
def pushBasesFrom : Option Structure → List Structure → List Structure
  | none, bases => bases
  | some s, bases => pushBases s bases
end

/-- The inner loop of `SerializeInstance`: push the fields that should serialize. -/
def pushFields (inst : Val) : List Field → List Field → List Field
  | [], fields => fields
  | f :: rest, fields =>
    pushFields inst rest (if f.ShouldSerialize inst then fields ++ [f] else fields)

/-- The second loop of `SerializeInstance`: pop the bases until the array is empty. -/
def popBases (inst : Val) : Nat → List Structure → List Field → List Field
  | 0, _, fields => fields
  | n + 1, bases, fields =>
    match bases.getLast? with
    | none => fields
    | some current => popBases inst n bases.dropLast (pushFields inst current.m_Fields fields)

/-- The `fields` array `SerializeInstance` builds before it emits anything. -/
def collectFields (inst : Val) (strct : Structure) : List Field :=
  let bases := pushBases strct []
  popBases inst bases.length bases []

/-- Run a loop body over the elements of an array, stopping at the first failure. -/
def forEach {α σ : Type} (body : σ → α → Option σ) : List α → σ → Option σ
  | [], st => some st
  | x :: xs, st =>
    match body st x with
    | none => none
    | some st1 => forEach body xs st1

/-- The scalar cases of `SerializeTranslator`. -/
def SerializeScalar (env : Env) (cls : ScalarClass) (type : ScalarType) (pointer : Val)
    (st : WriterState) : WriterState :=
  match type with
  | .Boolean => st.emit (.Bool pointer.asBool)
  | .Unsigned8 => st.emit (.Uint pointer.asInt)
  | .Unsigned16 => st.emit (.Uint pointer.asInt)
  | .Unsigned32 => st.emit (.Uint pointer.asInt)
  | .Unsigned64 => st.emit (.Uint64 pointer.asInt)
  | .Signed8 => st.emit (.Int pointer.asInt)
  | .Signed16 => st.emit (.Int pointer.asInt)
  | .Signed32 => st.emit (.Int pointer.asInt)
  | .Signed64 => st.emit (.Int64 pointer.asInt)
  | .Float32 => st.emit (.Double (env.widen pointer.asFloat))
  | .Float64 => st.emit (.Double pointer.asFloat)
  | .String =>
    let r := env.Print cls pointer st.m_Objects
    { st with m_Objects := st.m_Objects ++ r.2, out := st.out ++ [.String r.1] }

/-- Modelled from the spec: `GetItems( pointer, items )` of a set or a sequence, the ordered
list of the item locations. -/
def GetItems : Val → List Val
  | .set items => items
  | .seq items => items
  | _ => []

/-- Modelled from the spec: `GetItems( pointer, keys, values )` of an association, the
parallel lists of key and value locations, here as a list of pairs. -/
def GetEntries : Val → List (Val × Val)
  | .assoc es => es
  | _ => []

mutual
/-- ArchiveWriterJson::SerializeInstance. The first argument bounds the nesting depth. -/
def SerializeInstance (env : Env) :
    Nat → Val → Structure → WriterState → Option WriterState
  | 0, _, _, _ => none
  | fuel + 1, inst, strct, st =>
    let fields := collectFields inst strct
    let st1 := (st.emit .StartObject).hook (.PreSerialize none)
    match forEach (fun s field =>
        match SerializeField env fuel inst field (s.hook (.PreSerialize (some field.m_Name))) with
        | none => none
        | some s1 => some (s1.hook (.PostSerialize (some field.m_Name)))) fields st1 with
    | none => none
    | some st2 => some ((st2.hook (.PostSerialize none)).emit .EndObject)
/-- ArchiveWriterJson::SerializeField. -/
def SerializeField (env : Env) :
    Nat → Val → Field → WriterState → Option WriterState
  | 0, _, _, _ => none
  | fuel + 1, inst, field, st =>
    let st1 := st.emit (.String field.m_Name)
    if field.m_Count > 1 then
      match forEach (fun s i => SerializeTranslator env fuel (Pointer field inst i)
          field.m_Translator s) (List.range field.m_Count) (st1.emit .StartArray) with
      | none => none
      | some st2 => some (st2.emit .EndArray)
    else
      SerializeTranslator env fuel (Pointer field inst 0) field.m_Translator st1
/-- ArchiveWriterJson::SerializeTranslator. -/
def SerializeTranslator (env : Env) :
    Nat → Val → Translator → WriterState → Option WriterState
  | 0, _, _, _ => none
  | fuel + 1, pointer, translator, st =>
    match translator with
    | .scalar cls type => some (SerializeScalar env cls type pointer st)
    | .structure s => SerializeInstance env fuel pointer s st
    | .set itemTranslator =>
      match forEach (fun s item => SerializeTranslator env fuel item itemTranslator s)
          (GetItems pointer) (st.emit .StartArray) with
      | none => none
      | some st2 => some (st2.emit .EndArray)
    | .sequence itemTranslator =>
      match forEach (fun s item => SerializeTranslator env fuel item itemTranslator s)
          (GetItems pointer) (st.emit .StartArray) with
      | none => none
      | some st2 => some (st2.emit .EndArray)
    | .association keyTranslator valueTranslator =>
      match forEach (fun s kv =>
          match SerializeTranslator env fuel kv.1 keyTranslator s with
          | none => none
          | some s1 => SerializeTranslator env fuel kv.2 valueTranslator s1)
          (GetEntries pointer) (st.emit .StartObject) with
      | none => none
      | some st2 => some (st2.emit .EndObject)
end

/-- The loop of `ArchiveWriterJson::Write` over the growing session list, from `index`
on. `steps` bounds the number of iterations and `depth` the nesting of one object. -/
def WriteLoop (env : Env) (depth : Nat) : Nat → Nat → WriterState → Option WriterState
  | 0, index, st => if index < st.m_Objects.length then none else some st
  | steps + 1, index, st =>
    match st.m_Objects.get? index with
    | none => some st
    | some object =>
      let st1 := (st.emit .StartObject).emit (.String object.cls.m_Name)
      match SerializeInstance env depth object.inst object.cls st1 with
      | none => none
      | some st2 =>
        WriteLoop env depth steps (index + 1)
          ((st2.emit .EndObject).Raise env .ObjectProcessed)

/-- ArchiveWriterJson::Write on a fresh writer. -/
def Write (env : Env) (steps depth : Nat) (object : Object) : Option WriterState :=
  let st0 := WriterState.init.Raise env .Starting
  let st1 := { st0 with m_Objects := st0.m_Objects ++ [object] }
  match WriteLoop env depth steps 0 (st1.emit .StartArray) with
  | none => none
  | some st2 =>
    let st3 := (st2.emit .EndArray).Raise env .ObjectProcessed
    some ({ st3 with flushed := true }.Raise env .Complete)

/-! ## The document accessors and the range cast -/

/-- The 64-bit word in which a document number is stored. The text library checks the
flags of a number in its integer accessors by an assertion only, so with assertions
compiled out an accessor reads this word whatever the number is. -/
def Num.word : Num → Int
  | .int v => v % 2 ^ 64
  | .double bits => (bits : Int) % 2 ^ 64

/-- Two's complement reading of a `w`-bit word. -/
def toSigned (w : Nat) (u : Int) : Int :=
  if u < 2 ^ (w - 1) then u else u - 2 ^ w

/-- The accessor `value.GetUint()`: the low 32 bits of the word, unsigned. -/
def GetUint (n : Num) : Int := n.word % 2 ^ 32

/-- The accessor `value.GetInt()`: the low 32 bits of the word, signed. -/
def GetInt (n : Num) : Int := toSigned 32 (n.word % 2 ^ 32)

/-- The accessor `value.GetUint64()`: the word, unsigned. -/
def GetUint64 (n : Num) : Int := n.word

/-- The accessor `value.GetInt64()`: the word, signed. -/
def GetInt64 (n : Num) : Int := toSigned 64 n.word

/-- Modelled from the spec: `RangeCastInteger( source, dest, clamp )` (Foundation/Numeric.h
is not among the sources) with `clamp = true`, for a destination type whose limits are
`dmin` and `dmax`: a source outside the destination's range is clamped to the minimum or
the maximum. The result is the value stored in `dest`. -/
def RangeCastInteger (source dmin dmax : Int) : Int :=
  if source < dmin then dmin else if source > dmax then dmax else source

/-- Limits of the integer destination types. -/
def ScalarType.limits : ScalarType → Option (Int × Int)
  | .Unsigned8 => some (0, 2 ^ 8 - 1)
  | .Unsigned16 => some (0, 2 ^ 16 - 1)
  | .Unsigned32 => some (0, 2 ^ 32 - 1)
  | .Unsigned64 => some (0, 2 ^ 64 - 1)
  | .Signed8 => some (-(2 ^ 7), 2 ^ 7 - 1)
  | .Signed16 => some (-(2 ^ 15), 2 ^ 15 - 1)
  | .Signed32 => some (-(2 ^ 31), 2 ^ 31 - 1)
  | .Signed64 => some (-(2 ^ 63), 2 ^ 63 - 1)
  | _ => none

/-- The `switch ( scalar->m_Type )` of the number case of `DeserializeTranslator`: the
new contents of the location. -/
def DeserializeNumber (env : Env) (n : Num) (type : ScalarType) (pointer : Val) : Val :=
  match type with
  | .Unsigned8 => .int (RangeCastInteger (GetUint n) 0 (2 ^ 8 - 1))
  | .Unsigned16 => .int (RangeCastInteger (GetUint n) 0 (2 ^ 16 - 1))
  | .Unsigned32 => .int (RangeCastInteger (GetUint n) 0 (2 ^ 32 - 1))
  | .Unsigned64 => .int (RangeCastInteger (GetUint64 n) 0 (2 ^ 64 - 1))
  | .Signed8 => .int (RangeCastInteger (GetInt n) (-(2 ^ 7)) (2 ^ 7 - 1))
  | .Signed16 => .int (RangeCastInteger (GetInt n) (-(2 ^ 15)) (2 ^ 15 - 1))
  | .Signed32 => .int (RangeCastInteger (GetInt n) (-(2 ^ 31)) (2 ^ 31 - 1))
  | .Signed64 => .int (RangeCastInteger (GetInt64 n) (-(2 ^ 63)) (2 ^ 63 - 1))
  | .Float32 => .float (env.RangeCastFloat32 (env.GetDouble n))
  | .Float64 => .float (env.RangeCastFloat64 (env.GetDouble n))
  | .Boolean => pointer
  | .String => pointer

/-! ## ArchiveReaderJson -/

/-- ArchiveReader::Fixup: identity token, destination slot, expected class. -/
structure Fixup where
  m_Identity : String
  m_Pointer : Nat
  m_PointerClass : String
  deriving DecidableEq, Repr

/-- State of a read session. `cells` binds `ObjectPtr` slots to the address of their
target; `parses` lists the `Parse` calls with their notify argument; `resolved` lists
the calls of `ArchiveReader::Resolve`. -/
structure ReaderState where
  m_Objects : List (Option Object)
  m_Fixups : List Fixup
  m_Abort : Bool
  m_Next : Nat
  m_Flags : Nat
  cells : List (Nat × Nat)
  hooks : List Hook
  status : List ArchiveStatus
  parses : List (String × Bool)
  resolved : List Fixup

/-- A fresh reader with the given flags. -/
def ReaderState.init (flags : Nat) : ReaderState :=
  { m_Objects := [], m_Fixups := [], m_Abort := false, m_Next := 0, m_Flags := flags,
    cells := [], hooks := [], status := [], parses := [], resolved := [] }

/-- One hook call on the object. -/
def ReaderState.hook (st : ReaderState) (h : Hook) : ReaderState :=
  { st with hooks := st.hooks ++ [h] }

/-- Raise a newly declared status on `e_Status`: `ArchiveStatus info( *this, state );
e_Status.Raise( info )`. -/
def ReaderState.Raise (st : ReaderState) (env : Env) (state : ArchiveState) : ReaderState :=
  { st with status := st.status ++ [⟨state, env.listener st.status.length state⟩] }

/-- Raise the status raised last once more, in a new state: `info.m_State = state;
e_Status.Raise( info )`. The object keeps the `m_Abort` the listeners left in it. -/
def ReaderState.RaiseAgain (st : ReaderState) (env : Env) (state : ArchiveState) :
    ReaderState :=
  { st with status := st.status ++
      [⟨state, lastAbort st.status || env.listener st.status.length state⟩] }

/-- Target bound to an `ObjectPtr` slot, `none` while the slot is null. -/
def ReaderState.target (st : ReaderState) (cell : Nat) : Option Nat :=
  (st.cells.find? (fun p => p.1 == cell)).map (fun p => p.2)

/-- Modelled from the spec: `ArchiveReader::Resolve` (declared in src/Archive.h, defined
in Archive.cpp, which is not among the sources). It asks the resolver capability for the
target by identity token and expected class and binds it into the destination slot; an
unresolved reference leaves the slot at its previous value. The result tells whether
the slot was bound. -/
def ArchiveReader.Resolve (env : Env) (identity : String) (pointer : Nat)
    (pointerClass : String) (st : ReaderState) : Bool × ReaderState :=
  let st1 := { st with resolved := st.resolved ++ [⟨identity, pointer, pointerClass⟩] }
  match env.Resolver identity pointerClass st.m_Objects with
  | some target => (true, { st1 with cells := (pointer, target) :: st1.cells })
  | none => (false, st1)

/-- Modelled from the spec: `scalar->Parse( str, pointer, *this, notify )` for a
string-typed scalar (the translators and the recording of fixups are not among the
sources). An object reference is handed to `ArchiveReader::Resolve` and, when it cannot be
resolved immediately, recorded as a Fixup; every other string-typed scalar stores the
string. The result is the new contents of the location and the new session state. -/
def Parse (env : Env) (cls : ScalarClass) (str : String) (pointer : Val) (notify : Bool)
    (st : ReaderState) : Val × ReaderState :=
  let st1 := { st with parses := st.parses ++ [(str, notify)] }
  match cls, pointer with
  | .PointerTranslator, .ref cell pointerClass =>
    let r := ArchiveReader.Resolve env str cell pointerClass st1
    if r.1 then (pointer, r.2)
    else (pointer, { r.2 with m_Fixups := r.2.m_Fixups ++ [⟨str, cell, pointerClass⟩] })
  | _, _ => (.str str, st1)

mutual
/-- Modelled from the spec: `structure->FindFieldByName( crc )` (Reflect/Structure.h is not
among the sources): the first field of the structure or of one of its bases whose name
hashes to `crc`. -/
def FindFieldByName (env : Env) : Structure → Nat → Option Field
  | .mk _ b fs, crc =>
    match fs.find? (fun f => env.Crc32 f.m_Name == crc) with
    | some f => some f
    | none => FindFieldInBase env b crc
/-- The search of `FindFieldByName` continued in the base, if there is one. -/
def FindFieldInBase (env : Env) : Option Structure → Nat → Option Field
  | none, _ => none
  | some s, crc => FindFieldByName env s crc
end

/-- Modelled from the spec: `sequence->SetLength( pointer, length )`, the destination
container resized to the length of the wire container, new elements default-constructed. -/
def SetLength (env : Env) (itemTranslator : Translator) (pointer : Val) (length : Nat) : Val :=
  match pointer with
  | .seq items =>
    .seq (items.take length ++ List.replicate (length - items.length) (env.Variable itemTranslator))
  | other => other

/-- Modelled from the spec: `sequence->GetItem( pointer, i )`, the location of item `i`. -/
def GetItem (pointer : Val) (i : Nat) : Val :=
  match pointer with
  | .seq items => items.getD i Val.nil
  | _ => Val.nil

/-- Store through the `Pointer` that `GetItem( pointer, i )` returned. -/
def storeItem (pointer : Val) (i : Nat) (v : Val) : Val :=
  match pointer with
  | .seq items => .seq (items.set i v)
  | other => other

/-- The hash of a member name: zero unless the name is a string. -/
def nameCrc (env : Env) : Value → Nat
  | .string s => env.Crc32 s
  | _ => 0

mutual
/-- ArchiveReaderJson::DeserializeTranslator: the new contents of the location `pointer`
and the new session state. The Structure case is the body of `DeserializeInstance`. -/
def DeserializeTranslator (env : Env) :
    Value → Val → Translator → ReaderState → Val × ReaderState
  | .bool b, pointer, translator, st =>
    if translator.GetReflectionType = .ScalarTranslator then
      match translator with
      | .scalar _ .Boolean => (.bool b, st)
      | _ => (pointer, st)
    else (pointer, st)
  | .number n, pointer, translator, st =>
    if translator.GetReflectionType = .ScalarTranslator then
      match translator with
      | .scalar _ type => (DeserializeNumber env n type pointer, st)
      | _ => (pointer, st)
    else (pointer, st)
  | .string str, pointer, translator, st =>
    if translator.HasReflectionType .ScalarTranslator then
      match translator with
      | .scalar cls .String =>
        Parse env cls str pointer ((st.m_Flags ||| ArchiveFlags.Notify) != 0) st
      | _ => (pointer, st)
    else (pointer, st)
  | .array xs, pointer, translator, st =>
    match translator with
    | .set itemTranslator => DeserializeSetItems env xs pointer itemTranslator st
    | .sequence itemTranslator =>
      DeserializeSequenceItems env xs 0 (SetLength env itemTranslator pointer xs.length)
        itemTranslator st
    | _ => (pointer, st)
  | .object ms, pointer, translator, st =>
    match translator with
    | .structure s =>
      let r := DeserializeMembers env ms pointer s (st.hook (.PreDeserialize none))
      (r.1, r.2.hook (.PostDeserialize none))
    | .association keyTranslator valueTranslator =>
      DeserializeAssociation env ms (env.Variable keyTranslator) (env.Variable valueTranslator)
        pointer keyTranslator valueTranslator st
    | _ => (pointer, st)
  | .null, pointer, _, st => (pointer, st)
/-- The member loop of `DeserializeInstance`; the body run for a known field is the body
of `DeserializeField`, its non-array case written once per kind of value. -/
def DeserializeMembers (env : Env) :
    List (Value × Value) → Val → Structure → ReaderState → Val × ReaderState
  | [], inst, _, st => (inst, st)
  | (name, value) :: rest, inst, strct, st =>
    match FindFieldByName env strct (nameCrc env name) with
    | some field =>
      let st1 := st.hook (.PreDeserialize (some field.m_Name))
      let r :=
        if field.m_Count > 1 then
          match value with
          | .array xs => DeserializeElements env xs 0 inst field st1
          | .null =>
            let q := DeserializeTranslator env .null (Pointer field inst 0)
              field.m_Translator st1
            (storeField field inst 0 q.1, q.2)
          | .bool b =>
            let q := DeserializeTranslator env (.bool b) (Pointer field inst 0)
              field.m_Translator st1
            (storeField field inst 0 q.1, q.2)
          | .number n =>
            let q := DeserializeTranslator env (.number n) (Pointer field inst 0)
              field.m_Translator st1
            (storeField field inst 0 q.1, q.2)
          | .string str =>
            let q := DeserializeTranslator env (.string str) (Pointer field inst 0)
              field.m_Translator st1
            (storeField field inst 0 q.1, q.2)
          | .object ms =>
            let q := DeserializeTranslator env (.object ms) (Pointer field inst 0)
              field.m_Translator st1
            (storeField field inst 0 q.1, q.2)
        else
          let q := DeserializeTranslator env value (Pointer field inst 0) field.m_Translator st1
          (storeField field inst 0 q.1, q.2)
      DeserializeMembers env rest r.1 strct (r.2.hook (.PostDeserialize (some field.m_Name)))
    | none => DeserializeMembers env rest inst strct st
/-- The element loop of `DeserializeField` for a field with `m_Count > 1`; `i` is the index
of the first element of the list. -/
def DeserializeElements (env : Env) :
    List Value → Nat → Val → Field → ReaderState → Val × ReaderState
  | [], _, inst, _, st => (inst, st)
  | x :: xs, i, inst, field, st =>
    if i < field.m_Count then
      let q := DeserializeTranslator env x (Pointer field inst i) field.m_Translator st
      DeserializeElements env xs (i + 1) (storeField field inst i q.1) field q.2
    else DeserializeElements env xs (i + 1) inst field st
/-- The item loop of the Set case. -/
def DeserializeSetItems (env : Env) :
    List Value → Val → Translator → ReaderState → Val × ReaderState
  | [], pointer, _, st => (pointer, st)
  | x :: xs, pointer, itemTranslator, st =>
    let q := DeserializeTranslator env x (env.Variable itemTranslator) itemTranslator st
    DeserializeSetItems env xs (env.InsertItem pointer q.1) itemTranslator q.2
/-- The item loop of the Sequence case; `i` is the index of the first element of the list. -/
def DeserializeSequenceItems (env : Env) :
    List Value → Nat → Val → Translator → ReaderState → Val × ReaderState
  | [], _, pointer, _, st => (pointer, st)
  | x :: xs, i, pointer, itemTranslator, st =>
    let q := DeserializeTranslator env x (GetItem pointer i) itemTranslator st
    DeserializeSequenceItems env xs (i + 1) (storeItem pointer i q.1) itemTranslator q.2
/-- The member loop of the Association case; the key and value variables are declared
before the loop and keep their contents from one member to the next. -/
def DeserializeAssociation (env : Env) :
    List (Value × Value) → Val → Val → Val → Translator → Translator → ReaderState →
      Val × ReaderState
  | [], _, _, pointer, _, _, st => (pointer, st)
  | (name, value) :: rest, keyVariable, valueVariable, pointer, keyTranslator,
      valueTranslator, st =>
    let k := DeserializeTranslator env name keyVariable keyTranslator st
    let v := DeserializeTranslator env value valueVariable valueTranslator k.2
    DeserializeAssociation env rest k.1 v.1 (env.SetItem pointer k.1 v.1) keyTranslator
      valueTranslator v.2
end

/-- ArchiveReaderJson::DeserializeField: the new instance memory and session state. -/
def DeserializeField (env : Env) (value : Value) (inst : Val) (field : Field)
    (st : ReaderState) : Val × ReaderState :=
  if field.m_Count > 1 then
    match value with
    | .array xs => DeserializeElements env xs 0 inst field st
    | _ =>
      let q := DeserializeTranslator env value (Pointer field inst 0) field.m_Translator st
      (storeField field inst 0 q.1, q.2)
  else
    let q := DeserializeTranslator env value (Pointer field inst 0) field.m_Translator st
    (storeField field inst 0 q.1, q.2)

/-- ArchiveReaderJson::DeserializeInstance: the new instance memory and session state. -/
def DeserializeInstance (env : Env) (value : Value) (inst : Val) (strct : Structure)
    (st : ReaderState) : Val × ReaderState :=
  let st1 := st.hook (.PreDeserialize none)
  let r :=
    match value with
    | .object ms => DeserializeMembers env ms inst strct st1
    | _ => (inst, st1)
  (r.1, r.2.hook (.PostDeserialize none))

/-- Element `i` of the document: `m_Document[ i ]`. -/
def Value.at (doc : Value) (i : Nat) : Value :=
  match doc with
  | .array xs => xs.getD i .null
  | _ => .null

/-- ArchiveReaderJson::ReadNext: the object left in the caller's `ObjectPtr` and the new
session state. -/
def ReadNext (env : Env) (doc : Value) (object : Option Object) (st : ReaderState) :
    Option Object × ReaderState :=
  let value := doc.at st.m_Next
  let st1 := { st with m_Next := st.m_Next + 1 }
  match value with
  | .object ((name, mvalue) :: _) =>
    let objectClassCrc := nameCrc env name
    let objectClass := if objectClassCrc != 0 then env.GetClass objectClassCrc else none
    let object1 :=
      match object, objectClass with
      | none, some c => some (env.CreateInstance c)
      | o, _ => o
    match object1 with
    | some o =>
      let r := DeserializeInstance env mvalue o.inst o.cls st1
      (some { o with inst := r.1 }, r.2)
    | none => (none, st1)
  | _ => (object, st1)

/-- Outcomes that end a read early: the two typed failures with their message, and a
fault (an access outside an array), which is not a typed failure. -/
inductive Failure where
  | StreamException (msg : String)
  | Exception (msg : String)
  | Fault (what : String)
  deriving DecidableEq, Repr

/-- The input stream as the reader sees it: its size in bytes and what `ParseInsitu` makes
of its contents (a parse error with its text, or the document). -/
structure Stream where
  size : Nat
  parse : Except String Value

/-- ArchiveReaderJson::Start. -/
def Start (env : Env) (path : String) (stream : Stream) (st : ReaderState) :
    ReaderState × Except Failure Value :=
  let st1 := { st.Raise env .Starting with m_Abort := false }
  if stream.size == 0 then
    (st1, .error (.StreamException ("Input stream is empty (" ++ path ++ ")")))
  else
    match stream.parse with
    | .error e => (st1, .error (.Exception ("Error parsing JSON: " ++ e)))
    | .ok doc => (st1, .ok doc)

/-- The loop of `ArchiveReaderJson::Read` over the top-level records, from index `i` on;
the first argument counts the iterations left. The `ObjectPtr` handed to `ReadNext` is
the one declared in the loop body, which is null. -/
def ReadLoop (env : Env) (doc : Value) (length : Nat) : Nat → Nat → ReaderState → ReaderState
  | 0, _, st => st
  | n + 1, i, st =>
    if i < length then
      let r := ReadNext env doc none st
      let st1 := { r.2 with m_Objects := r.2.m_Objects ++ [r.1] }
      let st2 := st1.Raise env .ObjectProcessed
      let st3 := { st2 with m_Abort := st2.m_Abort || env.listener st1.status.length .ObjectProcessed }
      if st3.m_Abort then st3 else ReadLoop env doc length n (i + 1) st3
    else st

/-- The `if ( m_Document.IsArray() )` block of `ArchiveReaderJson::Read`: the loop over all
the elements of the document, from index 0. -/
def ReadRecords (env : Env) (doc : Value) (st : ReaderState) : ReaderState :=
  match doc with
  | .array xs => ReadLoop env doc xs.length xs.length 0 st
  | _ => st

/-- ArchiveReaderJson::Resolve: the resolution pass. The `Complete` status is the object
raised as `ObjectProcessed` before the pass, raised again. -/
def Resolve (env : Env) (st : ReaderState) : ReaderState :=
  let st1 := st.Raise env .ObjectProcessed
  let st2 := st1.m_Fixups.foldl
    (fun s f => (ArchiveReader.Resolve env f.m_Identity f.m_Pointer f.m_PointerClass s).2) st1
  st2.RaiseAgain env .Complete

/-- ArchiveReaderJson::Read: the final session state and either the object handed back or
the failure. The parameter is the caller's `ObjectPtr`; the loop body declares its own. -/
def Read (env : Env) (path : String) (stream : Stream) (_object : Option Object)
    (st : ReaderState) : ReaderState × Except Failure (Option Object) :=
  match Start env path stream st with
  | (st1, .error e) => (st1, .error e)
  | (st1, .ok doc) =>
    let st2 := ReadRecords env doc st1
    let st3 := Resolve env st2
    match st3.m_Objects with
    | [] => (st3, .error (.Fault "GetFirst on an empty array"))
    | first :: _ => (st3, .ok first)

/-! ## The text library between writer and reader -/

mutual
/-- The document value a JSON parser builds from the text printed for an event
sequence, and the events left over. The first argument bounds the number of steps. -/
def parseValue : Nat → List Token → Option (Value × List Token)
  | 0, _ => none
  | f + 1, .StartObject :: rest => parseMembers f rest []
  | f + 1, .StartArray :: rest => parseElements f rest []
  | _ + 1, .String s :: rest => some (.string s, rest)
  | _ + 1, .Bool b :: rest => some (.bool b, rest)
  | _ + 1, .Uint v :: rest => some (.number (.int v), rest)
  | _ + 1, .Uint64 v :: rest => some (.number (.int v), rest)
  | _ + 1, .Int v :: rest => some (.number (.int v), rest)
  | _ + 1, .Int64 v :: rest => some (.number (.int v), rest)
  | _ + 1, .Double bits :: rest => some (.number (.double bits), rest)
  | _ + 1, _ => none
/-- Elements of an array up to its end event. -/
def parseElements : Nat → List Token → List Value → Option (Value × List Token)
  | 0, _, _ => none
  | _ + 1, .EndArray :: rest, acc => some (.array acc, rest)
  | f + 1, toks, acc =>
    match parseValue f toks with
    | none => none
    | some (v, rest) => parseElements f rest (acc ++ [v])
/-- Members of an object up to its end event; the name of a member must be a string. -/
def parseMembers : Nat → List Token → List (Value × Value) → Option (Value × List Token)
  | 0, _, _ => none
  | _ + 1, .EndObject :: rest, acc => some (.object acc, rest)
  | f + 1, .String name :: rest, acc =>
    match parseValue f rest with
    | none => none
    | some (v, rest2) => parseMembers f rest2 (acc ++ [(.string name, v)])
  | _ + 1, _, _ => none
end

/-- What the parser makes of the text the writer printed for an event sequence. -/
def treeOf (toks : List Token) : Except String Value :=
  match parseValue (2 * toks.length + 1) toks with
  | some (v, []) => .ok v
  | _ => .error "not a JSON text"

/-- The stream a reader is given when it is opened on what the writer produced; every
event prints at least one byte. -/
def streamOf (toks : List Token) : Stream :=
  { size := toks.length, parse := treeOf toks }

/-! ## A small registry used by the examples -/

/-- A name hash for the examples: never zero. -/
def demoCrc32 (s : String) : Nat :=
  s.data.foldl (fun h c => h * 31 + c.toNat) 7

/-- Print of the examples: strings print themselves; an object reference prints its slot
handle as the identity and appends the object the heap holds for that handle, unless an
object with that address is already in the session list. -/
def demoPrint (heap : Nat → Option Object) (_cls : ScalarClass) (pointer : Val)
    (objects : List Object) : String × List Object :=
  match pointer with
  | .str s => (s, [])
  | .ref cell _ =>
    match heap cell with
    | some o => (toString cell, if objects.any (fun p => p.addr == o.addr) then [] else [o])
    | none => ("", [])
  | _ => ("", [])

mutual
/-- Default contents of a location of a translator's type, for the examples. -/
def Translator.defaultVal : Translator → Val
  | .scalar .PointerTranslator .String => .ref 0 ""
  | .scalar _ .Boolean => .bool false
  | .scalar _ .String => .str ""
  | .scalar _ .Float32 => .float 0
  | .scalar _ .Float64 => .float 0
  | .scalar _ _ => .int 0
  | .structure s => .struct s.defaultSlots
  | .set _ => .set []
  | .sequence _ => .seq []
  | .association _ _ => .assoc []
/-- Default instance memory of a structure, bases first. -/
def Structure.defaultSlots : Structure → List (String × List Val)
  | .mk _ b fs => Structure.defaultBaseSlots b ++ Field.defaultSlotsOf fs
/-- Default instance memory of the bases. -/
def Structure.defaultBaseSlots : Option Structure → List (String × List Val)
  | none => []
  | some s => s.defaultSlots
/-- Default slots of a list of fields. -/
def Field.defaultSlotsOf : List Field → List (String × List Val)
  | [] => []
  | f :: fs => f.defaultSlot :: Field.defaultSlotsOf fs
/-- Default slot of a field: `m_Count` default elements. -/
def Field.defaultSlot : Field → String × List Val
  | .mk n c t _ => (n, List.replicate c t.defaultVal)
end

/-- Environment of the examples, over a list of registered classes and a heap. -/
def demoEnv (classes : List Structure) (heap : Nat → Option Object)
    (listener : Nat → ArchiveState → Bool) : Env :=
  { Crc32 := demoCrc32
    GetClass := fun crc => classes.find? (fun c => demoCrc32 c.m_Name == crc)
    CreateInstance := fun c =>
      { addr := demoCrc32 c.m_Name, cls := c, inst := .struct c.defaultSlots }
    Variable := Translator.defaultVal
    Print := demoPrint heap
    InsertItem := fun c item =>
      match c with
      | .set items => .set (items ++ [item])
      | other => other
    SetItem := fun c k v =>
      match c with
      | .assoc es => .assoc (es ++ [(k, v)])
      | other => other
    Resolver := fun identity _ objects =>
      (objects.filterMap id).findSome? (fun o =>
        if o.cls.m_Name == identity then some o.addr else none)
    GetDouble := fun n => n.word.toNat
    RangeCastFloat32 := id
    RangeCastFloat64 := id
    widen := id
    listener := listener }

/-! ## The binary tags (src/MessagePack.h) -/

namespace MessagePackTypes

def FixNumPositive : Nat := 0x00
def FixNumNegative : Nat := 0xe0
def Nil : Nat := 0xc0
def False : Nat := 0xc2
def True : Nat := 0xc3
def Float32 : Nat := 0xca
def Float64 : Nat := 0xcb
def UInt8 : Nat := 0xcc
def UInt16 : Nat := 0xcd
def UInt32 : Nat := 0xce
def UInt64 : Nat := 0xcf
def Int8 : Nat := 0xd0
def Int16 : Nat := 0xd1
def Int32 : Nat := 0xd2
def Int64 : Nat := 0xd3
def FixRaw : Nat := 0xa0
def FixArray : Nat := 0x90
def FixMap : Nat := 0x80
def Raw16 : Nat := 0xda
def Raw32 : Nat := 0xdb
def Array16 : Nat := 0xdc
def Array32 : Nat := 0xdd
def Map16 : Nat := 0xde
def Map32 : Nat := 0xdf

end MessagePackTypes

namespace MessagePackMasks

def FixNumPositiveType : Nat := 0x80
def FixNumPositiveValue : Nat := 0x7f
def FixNumNegativeType : Nat := 0xe0
def FixNumNegativeValue : Nat := 0x1f
def FixRawType : Nat := 0xe0
def FixRawCount : Nat := 0x1f
def FixArrayType : Nat := 0xf0
def FixArrayCount : Nat := 0x0f
def FixMapType : Nat := 0xf0
def FixMapCount : Nat := 0x0f

end MessagePackMasks

/-! ## Notions used to state the properties -/

/-- Range of the accessor the number case uses for a destination type: `GetUint` and
`GetInt` are 32 bits wide, `GetUint64` and `GetInt64` 64 bits. -/
def ScalarType.accessorRange : ScalarType → Option (Int × Int)
  | .Unsigned8 => some (0, 2 ^ 32 - 1)
  | .Unsigned16 => some (0, 2 ^ 32 - 1)
  | .Unsigned32 => some (0, 2 ^ 32 - 1)
  | .Unsigned64 => some (0, 2 ^ 64 - 1)
  | .Signed8 => some (-(2 ^ 31), 2 ^ 31 - 1)
  | .Signed16 => some (-(2 ^ 31), 2 ^ 31 - 1)
  | .Signed32 => some (-(2 ^ 31), 2 ^ 31 - 1)
  | .Signed64 => some (-(2 ^ 63), 2 ^ 63 - 1)
  | _ => none

/-- The part of the session that only `Read` and `ReadNext` change: two states agree on
the object list, the statuses raised, the abort flag, the read position and the flags. -/
def ReaderState.sameSession (a b : ReaderState) : Prop :=
  a.m_Objects = b.m_Objects ∧ a.status = b.status ∧ a.m_Abort = b.m_Abort ∧
    a.m_Next = b.m_Next ∧ a.m_Flags = b.m_Flags

/-- One iteration of the loop of `Read`: `ReadNext` into a null `ObjectPtr`, push, raise
`ObjectProcessed`, merge the abort flag of the status into `m_Abort`. -/
def ReadBody (env : Env) (doc : Value) (st : ReaderState) : ReaderState :=
  let r := ReadNext env doc none st
  let st1 := { r.2 with m_Objects := r.2.m_Objects ++ [r.1] }
  let st2 := st1.Raise env .ObjectProcessed
  { st2 with m_Abort := st2.m_Abort || env.listener st1.status.length .ObjectProcessed }

/-- The loop of `Resolve` over the fixups. -/
def resolveFixups (env : Env) (fs : List Fixup) (st : ReaderState) : ReaderState :=
  fs.foldl
    (fun s f => (ArchiveReader.Resolve env f.m_Identity f.m_Pointer f.m_PointerClass s).2) st

/-- The session `Start` hands to the loop when `Read` is called on a fresh reader. -/
def startedReader (env : Env) (flags : Nat) : ReaderState :=
  { (ReaderState.init flags).Raise env .Starting with m_Abort := false }

mutual
/-- The inheritance chain of a structure as the specification orders it: from the
base-most type to the structure itself. -/
def baseChain : Structure → List Structure
  | .mk n b fs => baseChainFrom b ++ [.mk n b fs]
/-- The chain of an optional base. -/
def baseChainFrom : Option Structure → List Structure
  | none => []
  | some s => baseChain s
end

/-- The flattened field list of the specification: the fields of the chain from the
base-most type to the most-derived one, each list in declaration order. -/
def flattenedFields (strct : Structure) : List Field :=
  (baseChain strct).flatMap Structure.m_Fields

/-- Event sequences that make up exactly one value: one scalar event, or a start event,
a sequence of values and the matching end event. Inside an object the names are values
like the others, since `SerializeTranslator` emits the keys of an association through the
key translator. -/
inductive IsValue : List Token → Prop where
  | String (s : String) : IsValue [.String s]
  | Bool (b : Bool) : IsValue [.Bool b]
  | Uint (v : Int) : IsValue [.Uint v]
  | Uint64 (v : Int) : IsValue [.Uint64 v]
  | Int (v : Int) : IsValue [.Int v]
  | Int64 (v : Int) : IsValue [.Int64 v]
  | Double (bits : Nat) : IsValue [.Double bits]
  | array (vs : List (List Token)) (h : ∀ v, v ∈ vs → IsValue v) :
      IsValue (.StartArray :: (vs.flatten ++ [.EndArray]))
  | object (vs : List (List Token)) (h : ∀ v, v ∈ vs → IsValue v) :
      IsValue (.StartObject :: (vs.flatten ++ [.EndObject]))

/-- A property of the session list that every `Print` keeps, whatever it appends. -/
def PrintClosed (env : Env) (P : List Object → Prop) : Prop :=
  ∀ cls v objects, P objects → P (objects ++ (env.Print cls v objects).2)

/-- The writer went from `st` to `st1` by emitting `toks`: the output grew by `toks`, the
session list changed by appends of `Print` only, statuses and flush flag are untouched. -/
def WriterState.Ext (env : Env) (st st1 : WriterState) (toks : List Token) : Prop :=
  st1.out = st.out ++ toks
  ∧ (∀ P, PrintClosed env P → P st.m_Objects → P st1.m_Objects)
  ∧ st1.status = st.status ∧ st1.flushed = st.flushed

/-- Event sequences that are values one after the other. -/
def IsValues (toks : List Token) : Prop :=
  ∃ vs : List (List Token), toks = vs.flatten ∧ ∀ v, v ∈ vs → IsValue v

/-- What one emitted field looks like: its name, then one value. -/
def IsFieldChunk (f : Field) (c : List Token) : Prop :=
  ∃ v, c = .String f.m_Name :: v ∧ IsValue v

/-- The record `Write` emits for an object: an object whose single entry has the class
name as its key and, as its value, the object holding the chunks of the serialized fields. -/
def IsRecord (o : Object) (r : List Token) : Prop :=
  ∃ chunks : List (List Token),
    r = .StartObject :: .String o.cls.m_Name :: .StartObject ::
      (chunks.flatten ++ [.EndObject, .EndObject])
    ∧ List.Forall₂ IsFieldChunk (collectFields o.inst o.cls) chunks

/-- The pairs of a wire value and a translator whose kinds do not match: a boolean for
anything but a Boolean scalar, a number for a Boolean or String scalar or for a translator
that is no scalar, a string for anything but a String scalar, an array for anything but a
Set or a Sequence, an object for anything but a Structure or an Association, a nil for
anything. -/
def kindsMismatch : Value → Translator → Bool
  | .null, _ => true
  | .bool _, .scalar _ .Boolean => false
  | .bool _, _ => true
  | .number _, .scalar _ .Boolean => true
  | .number _, .scalar _ .String => true
  | .number _, .scalar _ _ => false
  | .number _, _ => true
  | .string _, .scalar _ .String => false
  | .string _, _ => true
  | .array _, .set _ => false
  | .array _, .sequence _ => false
  | .array _, _ => true
  | .object _, .structure _ => false
  | .object _, .association _ _ => false
  | .object _, _ => true

/-- The five tag classes that carry a value or a count inside the tag byte. -/
inductive TagClass where
  | FixNumPositive | FixNumNegative | FixRaw | FixArray | FixMap
  deriving DecidableEq, Repr

/-- The type mask of a tag class. -/
def TagClass.typeMask : TagClass → Nat
  | .FixNumPositive => MessagePackMasks.FixNumPositiveType
  | .FixNumNegative => MessagePackMasks.FixNumNegativeType
  | .FixRaw => MessagePackMasks.FixRawType
  | .FixArray => MessagePackMasks.FixArrayType
  | .FixMap => MessagePackMasks.FixMapType

/-- The value (or count) mask of a tag class. -/
def TagClass.valueMask : TagClass → Nat
  | .FixNumPositive => MessagePackMasks.FixNumPositiveValue
  | .FixNumNegative => MessagePackMasks.FixNumNegativeValue
  | .FixRaw => MessagePackMasks.FixRawCount
  | .FixArray => MessagePackMasks.FixArrayCount
  | .FixMap => MessagePackMasks.FixMapCount

/-- The tag of a tag class. -/
def TagClass.tag : TagClass → Nat
  | .FixNumPositive => MessagePackTypes.FixNumPositive
  | .FixNumNegative => MessagePackTypes.FixNumNegative
  | .FixRaw => MessagePackTypes.FixRaw
  | .FixArray => MessagePackTypes.FixArray
  | .FixMap => MessagePackTypes.FixMap

/-- A byte is in a tag class when its bits under the type mask of the class are the tag. -/
def TagClass.has (c : TagClass) (b : Nat) : Bool :=
  b &&& c.typeMask == c.tag

/-- The tag classes a byte is in. -/
def tagClasses (b : Nat) : List TagClass :=
  [TagClass.FixNumPositive, .FixNumNegative, .FixRaw, .FixArray, .FixMap].filter
    (fun c => c.has b)

/-- The tags that stand for themselves, with no value in the byte. -/
def singleTags : List Nat :=
  [MessagePackTypes.Nil, MessagePackTypes.False, MessagePackTypes.True,
   MessagePackTypes.Float32, MessagePackTypes.Float64,
   MessagePackTypes.UInt8, MessagePackTypes.UInt16, MessagePackTypes.UInt32,
   MessagePackTypes.UInt64,
   MessagePackTypes.Int8, MessagePackTypes.Int16, MessagePackTypes.Int32,
   MessagePackTypes.Int64,
   MessagePackTypes.Raw16, MessagePackTypes.Raw32, MessagePackTypes.Array16,
   MessagePackTypes.Array32, MessagePackTypes.Map16, MessagePackTypes.Map32]

/-- The byte that holds an 8-bit signed integer (two's complement). -/
def byteOfInt8 (i : Int) : Nat := (i % 256).toNat

/-- The two bytes of a 16-bit count, most significant first. -/
def bigEndian16 (n : Nat) : List Nat := [(n / 256) % 256, n % 256]

/-- A loop of the writer ran over `xs` from the state `st` to the state `st1`, the body
returning at every element, in list order, each run starting in the state the run before
it left and appending one chunk of events, which is exactly one value. -/
inductive Emits {α : Type} (body : WriterState → α → Option WriterState) :
    List α → WriterState → WriterState → List (List Token) → Prop where
  | nil (st : WriterState) : Emits body [] st st []
  | cons {x : α} {xs : List α} {st s1 st1 : WriterState} {c : List Token}
      {cs : List (List Token)} (hbody : body st x = some s1) (hout : s1.out = st.out ++ c)
      (hvalue : IsValue c) (hrest : Emits body xs s1 st1 cs) :
      Emits body (x :: xs) st st1 (c :: cs)

/-- Check the brackets of an event sequence against a stack of open brackets: every end
event closes the innermost open start event of its kind, and nothing stays open. -/
def matchedFrom : List Token → List Token → Bool
  | [], stack => stack.isEmpty
  | .StartObject :: ts, stack => matchedFrom ts (.StartObject :: stack)
  | .StartArray :: ts, stack => matchedFrom ts (.StartArray :: stack)
  | .EndObject :: ts, .StartObject :: stack => matchedFrom ts stack
  | .EndObject :: _, _ => false
  | .EndArray :: ts, .StartArray :: stack => matchedFrom ts stack
  | .EndArray :: _, _ => false
  | _ :: ts, stack => matchedFrom ts stack

/-- Whether a translator is of the Structure category or holds one among its item, key
or value translators. -/
def Translator.hasStructure : Translator → Bool
  | .scalar _ _ => false
  | .structure _ => true
  | .set i => i.hasStructure
  | .sequence i => i.hasStructure
  | .association k v => k.hasStructure || v.hasStructure

mutual
/-- The hook calls of one run of the instance routine: the whole-instance pre-hook, the
hook calls of the processed fields one field after the other, the whole-instance
post-hook. `pre` and `post` are the hooks of the direction. -/
inductive IsInstanceTrace (pre post : Option String → Hook) : List Hook → Prop where
  | mk (chunks : List (List Hook)) (h : ∀ c, c ∈ chunks → IsFieldTrace pre post c) :
      IsInstanceTrace pre post (pre none :: (chunks.flatten ++ [post none]))
/-- The hook calls of one processed field: the field pre-hook, the runs of the instance
routine for the nested instances the field step meets, the field post-hook. -/
inductive IsFieldTrace (pre post : Option String → Hook) : List Hook → Prop where
  | mk (name : String) (inner : List (List Hook))
      (h : ∀ t, t ∈ inner → IsInstanceTrace pre post t) :
      IsFieldTrace pre post (pre (some name) :: (inner.flatten ++ [post (some name)]))
end

/-- Hook calls that are runs of the instance routine one after the other. -/
def IsTraces (pre post : Option String → Hook) (hs : List Hook) : Prop :=
  ∃ inner : List (List Hook), hs = inner.flatten ∧ ∀ t, t ∈ inner → IsInstanceTrace pre post t

/-- The hook calls of the step of a translator: one run of the instance routine for every
nested instance of the Structure category, and none for a translator that holds no
Structure. -/
def StepHooks (pre post : Option String → Hook) (t : Translator) (hs : List Hook) : Prop :=
  IsTraces pre post hs ∧ (t.hasStructure = false → hs = [])

/-- The hook calls of the step of a translator on write: those of `StepHooks`, and for a
translator of the Structure category they include the whole-instance pre-hook of the run
for the nested instance. -/
def WriterStepHooks (t : Translator) (hs : List Hook) : Prop :=
  StepHooks Hook.PreSerialize Hook.PostSerialize t hs
    ∧ ∀ s, t = .structure s → Hook.PreSerialize none ∈ hs

/-- The hook calls around one processed field: the field pre-hook, the hook calls of the
field step, the field post-hook. -/
def FieldHooks (pre post : Option String → Hook) (f : Field) (c : List Hook) : Prop :=
  ∃ hs, c = pre (some f.m_Name) :: (hs ++ [post (some f.m_Name)])
    ∧ StepHooks pre post f.m_Translator hs

/-- The fields `DeserializeInstance` processes for a wire value: for an object, the fields
its member names resolve to, in member order; none for any other value. -/
def knownFields (env : Env) (strct : Structure) : Value → List Field
  | .object ms => ms.filterMap (fun m => FindFieldByName env strct (nameCrc env m.1))
  | _ => []

/-! ### The work queue of the specification -/

mutual
/-- Specification side of the work queue: the values handed to the identify capability
while one instance is serialized, that is the string-typed scalars (the object references
among them) reached from the collected fields, in traversal order. The first argument
bounds the nesting depth. -/
def referencesOfInstance : Nat → Val → Structure → List (ScalarClass × Val)
  | 0, _, _ => []
  | fuel + 1, inst, strct =>
    (collectFields inst strct).flatMap (fun field => referencesOfField fuel inst field)
/-- Specification side: the references reached from one field, element by element. -/
def referencesOfField : Nat → Val → Field → List (ScalarClass × Val)
  | 0, _, _ => []
  | fuel + 1, inst, field =>
    if field.m_Count > 1 then
      (List.range field.m_Count).flatMap
        (fun i => referencesOfTranslator fuel (Pointer field inst i) field.m_Translator)
    else referencesOfTranslator fuel (Pointer field inst 0) field.m_Translator
/-- Specification side: the references reached from one location. -/
def referencesOfTranslator : Nat → Val → Translator → List (ScalarClass × Val)
  | 0, _, _ => []
  | fuel + 1, pointer, translator =>
    match translator with
    | .scalar cls type =>
      match type with
      | .String => [(cls, pointer)]
      | _ => []
    | .structure s => referencesOfInstance fuel pointer s
    | .set item => (GetItems pointer).flatMap (fun x => referencesOfTranslator fuel x item)
    | .sequence item => (GetItems pointer).flatMap (fun x => referencesOfTranslator fuel x item)
    | .association k v =>
      (GetEntries pointer).flatMap
        (fun kv => referencesOfTranslator fuel kv.1 k ++ referencesOfTranslator fuel kv.2 v)
end

/-- Specification side: the session list after the identify capability was called on the
references one after the other; each call sees the list as the calls before left it and
appends what it discovers. -/
def identifyAll (env : Env) (refs : List (ScalarClass × Val)) (objects : List Object) :
    List Object :=
  refs.foldl (fun objs r => objs ++ (env.Print r.1 r.2 objs).2) objects

/-- Specification side: the work queue. The list is walked by index; the references of the
entry at the index are identified, which appends the newly discovered objects to the same
list, and the walk goes on until the index reaches the end of the grown list. `steps`
bounds the number of entries walked. -/
def specWorkQueue (env : Env) (depth : Nat) : Nat → Nat → List Object → List Object
  | 0, _, objects => objects
  | steps + 1, index, objects =>
    match objects.get? index with
    | none => objects
    | some object =>
      specWorkQueue env depth steps (index + 1)
        (identifyAll env (referencesOfInstance depth object.inst object.cls) objects)

/-! ## Classes and objects of the examples -/

/-- A base class of the examples: field "a", and field "b" whose predicate never holds. -/
def demoBase : Structure :=
  .mk "Base" none [.mk "a" 1 (.scalar .ScalarTranslator .Unsigned8) (fun _ => true),
    .mk "b" 1 (.scalar .ScalarTranslator .Unsigned8) (fun _ => false)]

/-- A class of the examples derived from `demoBase`, with field "c". -/
def demoDerived : Structure :=
  .mk "Derived" (some demoBase) [.mk "c" 1 (.scalar .ScalarTranslator .Boolean) (fun _ => true)]

/-- Instance memory of a `demoDerived` object. -/
def demoDerivedInst : Val :=
  .struct [("a", [.int 1]), ("b", [.int 2]), ("c", [.bool true])]

/-- An object of the examples, of class "B" with the field "x". -/
def demoB : Object :=
  { addr := 2
    cls := .mk "B" none [.mk "x" 1 (.scalar .ScalarTranslator .Unsigned8) (fun _ => true)]
    inst := .struct [("x", [.int 5])] }

/-- An object of the examples, of class "A", whose field "b" refers to `demoB` through
slot 0. -/
def demoA : Object :=
  { addr := 1
    cls := .mk "A" none [.mk "b" 1 (.scalar .PointerTranslator .String) (fun _ => true)]
    inst := .struct [("b", [.ref 0 "B"])] }

/-- The heap of the examples: slot 0 points to `demoB`. -/
def demoHeap (cell : Nat) : Option Object :=
  if cell = 0 then some demoB else none

/-- The class of the round-trip example: one Association field from unsigned 32-bit keys to
unsigned 32-bit values. -/
def demoMapClass : Structure :=
  .mk "M" none [.mk "m" 1 (.association (.scalar .ScalarTranslator .Unsigned32)
    (.scalar .ScalarTranslator .Unsigned32)) (fun _ => true)]

/-- An object of `demoMapClass` whose association holds the entry 1 to 2. -/
def demoMap : Object :=
  { addr := 1, cls := demoMapClass, inst := .struct [("m", [.assoc [(.int 1, .int 2)]])] }

/-- A field of the examples with three elements, unsigned 8-bit. -/
def demoTriple : Field :=
  .mk "v" 3 (.scalar .ScalarTranslator .Unsigned8) (fun _ => true)

/-- Instance memory holding the three elements of `demoTriple`. -/
def demoTripleInst : Val :=
  .struct [("v", [.int 10, .int 20, .int 30])]

/-- A structure of the examples held by value inside `demoOuter`. -/
def demoInner : Structure :=
  .mk "Inner" none [.mk "x" 1 (.scalar .ScalarTranslator .Unsigned8) (fun _ => true)]

/-- A class of the examples with the field "s" of the Structure category and the scalar
field "y". -/
def demoOuter : Structure :=
  .mk "Outer" none [.mk "s" 1 (.structure demoInner) (fun _ => true),
    .mk "y" 1 (.scalar .ScalarTranslator .Unsigned8) (fun _ => true)]

/-- An object of class `demoOuter`. -/
def demoOuterObject : Object :=
  { addr := 3, cls := demoOuter
    inst := .struct [("s", [.struct [("x", [.int 4])]]), ("y", [.int 6])] }

/-- The document holding the record of `demoOuterObject`. -/
def demoOuterDocument : Value :=
  .array [.object [(.string "Outer", .object [
    (.string "s", .object [(.string "x", .number (.int 4))]),
    (.string "y", .number (.int 6))])]]

/-! ## Clamping on read -/

theorem GetUint_of_range (v : Int) (h0 : 0 ≤ v) (h1 : v ≤ 2 ^ 32 - 1) :
    GetUint (.int v) = v := by
  simp only [GetUint, Num.word]
  norm_num at h1 ⊢
  omega

theorem GetInt_of_range (v : Int) (h0 : -(2 ^ 31) ≤ v) (h1 : v ≤ 2 ^ 31 - 1) :
    GetInt (.int v) = v := by
  simp only [GetInt, Num.word, toSigned]
  norm_num at h0 h1 ⊢
  split <;> omega

theorem GetUint64_of_range (v : Int) (h0 : 0 ≤ v) (h1 : v ≤ 2 ^ 64 - 1) :
    GetUint64 (.int v) = v := by
  simp only [GetUint64, Num.word]
  norm_num at h1 ⊢
  omega

theorem GetInt64_of_range (v : Int) (h0 : -(2 ^ 63) ≤ v) (h1 : v ≤ 2 ^ 63 - 1) :
    GetInt64 (.int v) = v := by
  simp only [GetInt64, Num.word, toSigned]
  norm_num at h0 h1 ⊢
  split <;> omega

/-- Within the range of the accessor, the number case stores the wire value clamped to
the limits of the destination type. -/
theorem DeserializeNumber_clamps (env : Env) (type : ScalarType) (v lo hi a b : Int)
    (pointer : Val) (hl : type.limits = some (lo, hi))
    (ha : type.accessorRange = some (a, b)) (h0 : a ≤ v) (h1 : v ≤ b) :
    DeserializeNumber env (.int v) type pointer = .int (RangeCastInteger v lo hi) := by
  cases type <;> simp only [ScalarType.limits, ScalarType.accessorRange, Option.some.injEq,
    Prod.mk.injEq, reduceCtorEq] at hl ha
  all_goals
    obtain ⟨rfl, rfl⟩ := hl
    obtain ⟨rfl, rfl⟩ := ha
    simp only [DeserializeNumber]
  · rw [GetUint_of_range v h0 h1]
  · rw [GetUint_of_range v h0 h1]
  · rw [GetUint_of_range v h0 h1]
  · rw [GetUint64_of_range v h0 h1]
  · rw [GetInt_of_range v h0 h1]
  · rw [GetInt_of_range v h0 h1]
  · rw [GetInt_of_range v h0 h1]
  · rw [GetInt64_of_range v h0 h1]

/-- C4, the code at the failing inputs: a wire number that does not fit the 32-bit accessor
is cut to its low 32 bits before the range cast. Read into an unsigned 8-bit destination,
4294967340 (2^32 + 44) stores 44 and not the maximum 255, and -1 stores 255 and not the
minimum 0; the wire value 300 of the specification does store 255. -/
theorem C4_number_is_truncated_before_the_clamp (env : Env) (pointer : Val) (st : ReaderState) :
    DeserializeTranslator env (.number (.int 4294967340)) pointer
        (.scalar .ScalarTranslator .Unsigned8) st = (.int 44, st)
    ∧ DeserializeTranslator env (.number (.int (-1))) pointer
        (.scalar .ScalarTranslator .Unsigned8) st = (.int 255, st)
    ∧ DeserializeTranslator env (.number (.int 300)) pointer
        (.scalar .ScalarTranslator .Unsigned8) st = (.int 255, st) := by
  refine ⟨?_, ?_, ?_⟩ <;>
    simp [DeserializeTranslator, Translator.GetReflectionType, DeserializeNumber, GetUint,
      Num.word, RangeCastInteger]

/-! ## Fatal input errors -/

/-- C9. `Read` fails with a `StreamException` carrying the message
"Input stream is empty (path)" when the stream has size 0, and with an `Exception`
carrying "Error parsing JSON: " and the parser's text when the contents do not parse.
In both cases the session is left as `Start` left it after raising `Starting`: no record
was processed, so the object list, the fixups, the hook calls and the read position are
those of the session before the call. A non-empty stream that parses raises neither of
the two failures. -/
theorem C9_fatal_input_errors (env : Env) (path : String) (stream : Stream)
    (object : Option Object) (st : ReaderState) :
    (stream.size = 0 →
      Read env path stream object st =
        ({ st.Raise env .Starting with m_Abort := false },
          .error (.StreamException ("Input stream is empty (" ++ path ++ ")"))))
    ∧ (∀ e, stream.size ≠ 0 → stream.parse = .error e →
      Read env path stream object st =
        ({ st.Raise env .Starting with m_Abort := false },
          .error (.Exception ("Error parsing JSON: " ++ e))))
    ∧ (stream.size = 0 ∨ (∃ e, stream.parse = .error e) →
      (Read env path stream object st).1.m_Objects = st.m_Objects
      ∧ (Read env path stream object st).1.m_Fixups = st.m_Fixups
      ∧ (Read env path stream object st).1.hooks = st.hooks
      ∧ (Read env path stream object st).1.m_Next = st.m_Next
      ∧ (Read env path stream object st).1.resolved = st.resolved)
    ∧ (∀ doc msg, stream.size ≠ 0 → stream.parse = .ok doc →
      (Read env path stream object st).2 ≠ .error (.StreamException msg)
      ∧ (Read env path stream object st).2 ≠ .error (.Exception msg)) := by
  refine ⟨?_, ?_, ?_, ?_⟩
  · intro h
    simp [Read, Start, h]
  · intro e h he
    simp [Read, Start, h, he]
  · intro h
    rcases h with h | ⟨e, he⟩
    · simp [Read, Start, h, ReaderState.Raise]
    · by_cases h : stream.size = 0
      · simp [Read, Start, h, ReaderState.Raise]
      · simp [Read, Start, h, he, ReaderState.Raise]
  · intro doc msg h hd
    simp only [Read, Start, beq_iff_eq, h, if_false, hd]
    split <;> simp

/-- C9 at concrete inputs: an empty stream, and a stream whose text does not parse, read
by a fresh reader. -/
theorem C9_fatal_input_errors_witness :
    (Read (demoEnv [] (fun _ => none) (fun _ _ => false)) "a.json"
        { size := 0, parse := .error "" } none (ReaderState.init 0)).2 =
      .error (.StreamException "Input stream is empty (a.json)")
    ∧ (Read (demoEnv [] (fun _ => none) (fun _ _ => false)) "a.json"
        { size := 1, parse := .error "Expect either an object or array at root" } none
        (ReaderState.init 0)).1.m_Objects = [] :=
  ⟨congrArg Prod.snd ((C9_fatal_input_errors _ "a.json" { size := 0, parse := .error "" }
      none (ReaderState.init 0)).1 rfl),
    ((C9_fatal_input_errors _ "a.json"
      { size := 1, parse := .error "Expect either an object or array at root" }
      none (ReaderState.init 0)).2.2.1 (Or.inr ⟨_, rfl⟩)).1⟩

/-! ## Unknown fields on read -/

theorem DeserializeMembers_nil (env : Env) (inst : Val) (strct : Structure)
    (st : ReaderState) : DeserializeMembers env [] inst strct st = (inst, st) := rfl

/-- One iteration of the member loop, with the body run for a known field written as the
call of `DeserializeField` it is. -/
theorem DeserializeMembers_cons (env : Env) (name value : Value)
    (rest : List (Value × Value)) (inst : Val) (strct : Structure) (st : ReaderState) :
    DeserializeMembers env ((name, value) :: rest) inst strct st =
      match FindFieldByName env strct (nameCrc env name) with
      | some field =>
        DeserializeMembers env rest
          (DeserializeField env value inst field
            (st.hook (.PreDeserialize (some field.m_Name)))).1 strct
          ((DeserializeField env value inst field
            (st.hook (.PreDeserialize (some field.m_Name)))).2.hook
              (.PostDeserialize (some field.m_Name)))
      | none => DeserializeMembers env rest inst strct st := by
  cases value <;> rfl

/-- A member whose name resolves to a field: hooks around `DeserializeField`, then the
rest of the members. -/
theorem DeserializeMembers_known (env : Env) (name value : Value)
    (rest : List (Value × Value)) (inst : Val) (strct : Structure) (st : ReaderState)
    (field : Field) (h : FindFieldByName env strct (nameCrc env name) = some field) :
    DeserializeMembers env ((name, value) :: rest) inst strct st =
      DeserializeMembers env rest
        (DeserializeField env value inst field
          (st.hook (.PreDeserialize (some field.m_Name)))).1 strct
        ((DeserializeField env value inst field
          (st.hook (.PreDeserialize (some field.m_Name)))).2.hook
            (.PostDeserialize (some field.m_Name))) := by
  rw [DeserializeMembers_cons, h]

/-- A member whose name resolves to no field is skipped. -/
theorem DeserializeMembers_unknown (env : Env) (name value : Value)
    (rest : List (Value × Value)) (inst : Val) (strct : Structure) (st : ReaderState)
    (h : FindFieldByName env strct (nameCrc env name) = none) :
    DeserializeMembers env ((name, value) :: rest) inst strct st =
      DeserializeMembers env rest inst strct st := by
  rw [DeserializeMembers_cons, h]

/-- The member loop sees only the members whose name resolves to a field. -/
theorem DeserializeMembers_filter (env : Env) (strct : Structure)
    (ms : List (Value × Value)) :
    ∀ (inst : Val) (st : ReaderState),
      DeserializeMembers env ms inst strct st =
        DeserializeMembers env
          (ms.filter (fun m => (FindFieldByName env strct (nameCrc env m.1)).isSome))
          inst strct st := by
  induction ms with
  | nil => intro inst st; rfl
  | cons m rest ih =>
    intro inst st
    obtain ⟨name, value⟩ := m
    cases h : FindFieldByName env strct (nameCrc env name) with
    | none =>
      rw [DeserializeMembers_unknown env name value rest inst strct st h, ih]
      simp [List.filter, h]
    | some field =>
      rw [DeserializeMembers_known env name value rest inst strct st field h, ih]
      simp only [List.filter, h, Option.isSome_some]
      rw [DeserializeMembers_known env name value _ inst strct st field h]

/-- C6. In `DeserializeInstance` a member whose name resolves to a field of the structure
is deserialized into that field (between the field hooks) and a member whose name does
not resolve is ignored; the result, instance memory and session state alike, is the one
obtained from the record with every unknown member removed, wherever the unknown
members stand. -/
theorem C6_unknown_members_are_ignored (env : Env) (strct : Structure) (inst : Val)
    (st : ReaderState) (ms : List (Value × Value)) :
    (∀ name value field, FindFieldByName env strct (nameCrc env name) = some field →
      DeserializeInstance env (.object ((name, value) :: ms)) inst strct st =
        ((DeserializeMembers env ms
          (DeserializeField env value inst field
            ((st.hook (.PreDeserialize none)).hook (.PreDeserialize (some field.m_Name)))).1
          strct
          ((DeserializeField env value inst field
            ((st.hook (.PreDeserialize none)).hook (.PreDeserialize (some field.m_Name)))).2.hook
              (.PostDeserialize (some field.m_Name)))).1,
         (DeserializeMembers env ms
          (DeserializeField env value inst field
            ((st.hook (.PreDeserialize none)).hook (.PreDeserialize (some field.m_Name)))).1
          strct
          ((DeserializeField env value inst field
            ((st.hook (.PreDeserialize none)).hook (.PreDeserialize (some field.m_Name)))).2.hook
              (.PostDeserialize (some field.m_Name)))).2.hook (.PostDeserialize none)))
    ∧ (∀ name value, FindFieldByName env strct (nameCrc env name) = none →
      DeserializeInstance env (.object ((name, value) :: ms)) inst strct st =
        DeserializeInstance env (.object ms) inst strct st)
    ∧ DeserializeInstance env (.object ms) inst strct st =
        DeserializeInstance env
          (.object (ms.filter (fun m => (FindFieldByName env strct (nameCrc env m.1)).isSome)))
          inst strct st := by
  refine ⟨?_, ?_, ?_⟩
  · intro name value field h
    simp only [DeserializeInstance]
    rw [DeserializeMembers_known env name value ms inst strct _ field h]
  · intro name value h
    simp only [DeserializeInstance]
    rw [DeserializeMembers_unknown env name value ms inst strct _ h]
  · simp only [DeserializeInstance]
    rw [DeserializeMembers_filter]

/-- C6 at a concrete record: a known member between two members with unknown names gives
the result of the record that holds the known member alone. -/
theorem C6_unknown_members_are_ignored_witness :
    DeserializeInstance (demoEnv [] (fun _ => none) (fun _ _ => false))
        (.object [(.string "zz", .number (.int 1)), (.string "x", .number (.int 5)),
          (.string "yy", .bool true)])
        (.struct [("x", [.int 0])])
        (.mk "A" none [.mk "x" 1 (.scalar .ScalarTranslator .Unsigned8) (fun _ => true)])
        (ReaderState.init 0) =
      DeserializeInstance (demoEnv [] (fun _ => none) (fun _ _ => false))
        (.object [(.string "x", .number (.int 5))])
        (.struct [("x", [.int 0])])
        (.mk "A" none [.mk "x" 1 (.scalar .ScalarTranslator .Unsigned8) (fun _ => true)])
        (ReaderState.init 0) :=
  (C6_unknown_members_are_ignored (demoEnv [] (fun _ => none) (fun _ _ => false))
    (.mk "A" none [.mk "x" 1 (.scalar .ScalarTranslator .Unsigned8) (fun _ => true)])
    (.struct [("x", [.int 0])]) (ReaderState.init 0)
    [(.string "zz", .number (.int 1)), (.string "x", .number (.int 5)),
      (.string "yy", .bool true)]).2.2

/-! ## What deserializing a value leaves alone -/

theorem sameSession_refl (a : ReaderState) : a.sameSession a :=
  ⟨rfl, rfl, rfl, rfl, rfl⟩

theorem sameSession_trans {a b c : ReaderState} (h1 : a.sameSession b)
    (h2 : b.sameSession c) : a.sameSession c :=
  ⟨h1.1.trans h2.1, h1.2.1.trans h2.2.1, h1.2.2.1.trans h2.2.2.1,
    h1.2.2.2.1.trans h2.2.2.2.1, h1.2.2.2.2.trans h2.2.2.2.2⟩

theorem sameSession_hook (a : ReaderState) (h : Hook) : (a.hook h).sameSession a :=
  ⟨rfl, rfl, rfl, rfl, rfl⟩

theorem Parse_sameSession (env : Env) (cls : ScalarClass) (str : String) (pointer : Val)
    (notify : Bool) (st : ReaderState) :
    (Parse env cls str pointer notify st).2.sameSession st := by
  unfold Parse ArchiveReader.Resolve
  split
  · dsimp only
    split <;> (split <;> exact ⟨rfl, rfl, rfl, rfl, rfl⟩)
  · exact ⟨rfl, rfl, rfl, rfl, rfl⟩

/-! ### Unfolding the reader -/

theorem DeserializeTranslator_array_set (env : Env) (xs : List Value) (pointer : Val)
    (item : Translator) (st : ReaderState) :
    DeserializeTranslator env (.array xs) pointer (.set item) st =
      DeserializeSetItems env xs pointer item st := rfl

theorem DeserializeTranslator_array_sequence (env : Env) (xs : List Value) (pointer : Val)
    (item : Translator) (st : ReaderState) :
    DeserializeTranslator env (.array xs) pointer (.sequence item) st =
      DeserializeSequenceItems env xs 0 (SetLength env item pointer xs.length) item st := rfl

/-- The Structure case of `DeserializeTranslator` is the call of `DeserializeInstance`. -/
theorem DeserializeTranslator_object_structure (env : Env) (ms : List (Value × Value))
    (pointer : Val) (s : Structure) (st : ReaderState) :
    DeserializeTranslator env (.object ms) pointer (.structure s) st =
      DeserializeInstance env (.object ms) pointer s st := rfl

theorem DeserializeTranslator_object_association (env : Env) (ms : List (Value × Value))
    (pointer : Val) (k v : Translator) (st : ReaderState) :
    DeserializeTranslator env (.object ms) pointer (.association k v) st =
      DeserializeAssociation env ms (env.Variable k) (env.Variable v) pointer k v st := rfl

theorem DeserializeElements_cons (env : Env) (x : Value) (xs : List Value) (i : Nat)
    (inst : Val) (field : Field) (st : ReaderState) :
    DeserializeElements env (x :: xs) i inst field st =
      if i < field.m_Count then
        DeserializeElements env xs (i + 1)
          (storeField field inst i
            (DeserializeTranslator env x (Pointer field inst i) field.m_Translator st).1)
          field (DeserializeTranslator env x (Pointer field inst i) field.m_Translator st).2
      else DeserializeElements env xs (i + 1) inst field st := rfl

theorem DeserializeSetItems_cons (env : Env) (x : Value) (xs : List Value) (pointer : Val)
    (item : Translator) (st : ReaderState) :
    DeserializeSetItems env (x :: xs) pointer item st =
      DeserializeSetItems env xs
        (env.InsertItem pointer (DeserializeTranslator env x (env.Variable item) item st).1)
        item (DeserializeTranslator env x (env.Variable item) item st).2 := rfl

theorem DeserializeSequenceItems_cons (env : Env) (x : Value) (xs : List Value) (i : Nat)
    (pointer : Val) (item : Translator) (st : ReaderState) :
    DeserializeSequenceItems env (x :: xs) i pointer item st =
      DeserializeSequenceItems env xs (i + 1)
        (storeItem pointer i (DeserializeTranslator env x (GetItem pointer i) item st).1)
        item (DeserializeTranslator env x (GetItem pointer i) item st).2 := rfl

theorem DeserializeAssociation_cons (env : Env) (name value : Value)
    (rest : List (Value × Value)) (kv vv pointer : Val) (k v : Translator)
    (st : ReaderState) :
    DeserializeAssociation env ((name, value) :: rest) kv vv pointer k v st =
      DeserializeAssociation env rest
        (DeserializeTranslator env name kv k st).1
        (DeserializeTranslator env value vv v (DeserializeTranslator env name kv k st).2).1
        (env.SetItem pointer (DeserializeTranslator env name kv k st).1
          (DeserializeTranslator env value vv v (DeserializeTranslator env name kv k st).2).1)
        k v
        (DeserializeTranslator env value vv v (DeserializeTranslator env name kv k st).2).2 :=
  rfl

/-- The state `DeserializeTranslator` returns for a value that is no array and no object:
the state it was given, or the state `Parse` returned. -/
theorem DeserializeTranslator_leaf_state (env : Env) (value : Value) (pointer : Val)
    (translator : Translator) (st : ReaderState)
    (harr : ∀ xs, value ≠ .array xs) (hobj : ∀ ms, value ≠ .object ms) :
    (DeserializeTranslator env value pointer translator st).2 = st
    ∨ ∃ cls str notify,
      (DeserializeTranslator env value pointer translator st).2 =
        (Parse env cls str pointer notify st).2 := by
  cases value with
  | null => exact Or.inl rfl
  | bool b =>
    left
    cases translator with
    | scalar cls type => cases cls <;> cases type <;> rfl
    | _ => rfl
  | number n =>
    left
    cases translator with
    | scalar cls type => cases cls <;> rfl
    | _ => rfl
  | string str =>
    cases translator with
    | scalar cls type =>
      cases type
      case String => exact Or.inr ⟨cls, str, _, rfl⟩
      all_goals exact Or.inl rfl
    | _ => exact Or.inl rfl
  | array xs => exact absurd rfl (harr xs)
  | object ms => exact absurd rfl (hobj ms)

/-- The routine `DeserializeField` relates the state it returns to the state it was given by `R` as
soon as the translator dispatch and the element loop do so for its value. -/
theorem DeserializeField_preserves_of (env : Env) (R : ReaderState → ReaderState → Prop)
    (value : Value) (inst : Val) (field : Field) (st : ReaderState)
    (hT : ∀ p t s, R (DeserializeTranslator env value p t s).2 s)
    (hE : ∀ xs, value = .array xs → ∀ i m s, R (DeserializeElements env xs i m field s).2 s) :
    R (DeserializeField env value inst field st).2 st := by
  unfold DeserializeField
  split
  · split
    · exact hE _ rfl _ _ _
    · exact hT _ _ _
  · exact hT _ _ _

mutual
/-- Every relation between session states that is reflexive and transitive and that the
hook calls and `Parse` respect relates the state `DeserializeTranslator` returns to the
state it was given. -/
theorem DeserializeTranslator_preserves (env : Env) (R : ReaderState → ReaderState → Prop)
    (hrefl : ∀ a, R a a) (htrans : ∀ a b c, R a b → R b c → R a c)
    (hhook : ∀ a h, R (a.hook h) a)
    (hparse : ∀ cls str p n a, R (Parse env cls str p n a).2 a) :
    ∀ (value : Value) (pointer : Val) (translator : Translator) (st : ReaderState),
      R (DeserializeTranslator env value pointer translator st).2 st
  | .null, _, _, st => hrefl st
  | .bool b, p, t, st => by
    rcases DeserializeTranslator_leaf_state env (.bool b) p t st (by intro xs h; cases h)
      (by intro ms h; cases h) with h | ⟨cls, str, n, h⟩
    · rw [h]; exact hrefl st
    · rw [h]; exact hparse _ _ _ _ _
  | .number n, p, t, st => by
    rcases DeserializeTranslator_leaf_state env (.number n) p t st (by intro xs h; cases h)
      (by intro ms h; cases h) with h | ⟨cls, str, n, h⟩
    · rw [h]; exact hrefl st
    · rw [h]; exact hparse _ _ _ _ _
  | .string str, p, t, st => by
    rcases DeserializeTranslator_leaf_state env (.string str) p t st (by intro xs h; cases h)
      (by intro ms h; cases h) with h | ⟨cls, str, n, h⟩
    · rw [h]; exact hrefl st
    · rw [h]; exact hparse _ _ _ _ _
  | .array xs, p, .set item, st =>
    DeserializeSetItems_preserves env R hrefl htrans hhook hparse xs p item st
  | .array xs, p, .sequence item, st =>
    DeserializeSequenceItems_preserves env R hrefl htrans hhook hparse xs 0 _ item st
  | .array _, _, .scalar _ _, st => hrefl st
  | .array _, _, .structure _, st => hrefl st
  | .array _, _, .association _ _, st => hrefl st
  | .object ms, p, .structure s, st =>
    htrans _ _ _ (hhook _ _)
      (htrans _ _ _
        (DeserializeMembers_preserves env R hrefl htrans hhook hparse ms p s _) (hhook st _))
  | .object ms, p, .association k v, st =>
    DeserializeAssociation_preserves env R hrefl htrans hhook hparse ms _ _ p k v st
  | .object _, _, .scalar _ _, st => hrefl st
  | .object _, _, .set _, st => hrefl st
  | .object _, _, .sequence _, st => hrefl st
/-- The member loop of `DeserializeInstance` respects such a relation. -/
theorem DeserializeMembers_preserves (env : Env) (R : ReaderState → ReaderState → Prop)
    (hrefl : ∀ a, R a a) (htrans : ∀ a b c, R a b → R b c → R a c)
    (hhook : ∀ a h, R (a.hook h) a)
    (hparse : ∀ cls str p n a, R (Parse env cls str p n a).2 a) :
    ∀ (ms : List (Value × Value)) (inst : Val) (strct : Structure) (st : ReaderState),
      R (DeserializeMembers env ms inst strct st).2 st
  | [], _, _, st => hrefl st
  | (name, .array xs) :: rest, inst, strct, st => by
    rw [DeserializeMembers_cons]
    split
    · exact htrans _ _ _
        (DeserializeMembers_preserves env R hrefl htrans hhook hparse rest _ strct _)
        (htrans _ _ _ (hhook _ _) (htrans _ _ _
          (DeserializeField_preserves_of env R _ inst _ _
            (fun p t s =>
              DeserializeTranslator_preserves env R hrefl htrans hhook hparse (.array xs) p t s)
            (fun ys h i m s => by
              cases h
              exact DeserializeElements_preserves env R hrefl htrans hhook hparse xs i m _ s))
          (hhook st _)))
    · exact DeserializeMembers_preserves env R hrefl htrans hhook hparse rest inst strct st
  | (name, .null) :: rest, inst, strct, st => by
    rw [DeserializeMembers_cons]
    split
    · exact htrans _ _ _
        (DeserializeMembers_preserves env R hrefl htrans hhook hparse rest _ strct _)
        (htrans _ _ _ (hhook _ _) (htrans _ _ _
          (DeserializeField_preserves_of env R _ inst _ _
            (fun p t s =>
              DeserializeTranslator_preserves env R hrefl htrans hhook hparse .null p t s)
            (fun ys h => by cases h))
          (hhook st _)))
    · exact DeserializeMembers_preserves env R hrefl htrans hhook hparse rest inst strct st
  | (name, .bool b) :: rest, inst, strct, st => by
    rw [DeserializeMembers_cons]
    split
    · exact htrans _ _ _
        (DeserializeMembers_preserves env R hrefl htrans hhook hparse rest _ strct _)
        (htrans _ _ _ (hhook _ _) (htrans _ _ _
          (DeserializeField_preserves_of env R _ inst _ _
            (fun p t s =>
              DeserializeTranslator_preserves env R hrefl htrans hhook hparse (.bool b) p t s)
            (fun ys h => by cases h))
          (hhook st _)))
    · exact DeserializeMembers_preserves env R hrefl htrans hhook hparse rest inst strct st
  | (name, .number n) :: rest, inst, strct, st => by
    rw [DeserializeMembers_cons]
    split
    · exact htrans _ _ _
        (DeserializeMembers_preserves env R hrefl htrans hhook hparse rest _ strct _)
        (htrans _ _ _ (hhook _ _) (htrans _ _ _
          (DeserializeField_preserves_of env R _ inst _ _
            (fun p t s =>
              DeserializeTranslator_preserves env R hrefl htrans hhook hparse (.number n) p t s)
            (fun ys h => by cases h))
          (hhook st _)))
    · exact DeserializeMembers_preserves env R hrefl htrans hhook hparse rest inst strct st
  | (name, .string str) :: rest, inst, strct, st => by
    rw [DeserializeMembers_cons]
    split
    · exact htrans _ _ _
        (DeserializeMembers_preserves env R hrefl htrans hhook hparse rest _ strct _)
        (htrans _ _ _ (hhook _ _) (htrans _ _ _
          (DeserializeField_preserves_of env R _ inst _ _
            (fun p t s =>
              DeserializeTranslator_preserves env R hrefl htrans hhook hparse (.string str) p t s)
            (fun ys h => by cases h))
          (hhook st _)))
    · exact DeserializeMembers_preserves env R hrefl htrans hhook hparse rest inst strct st
  | (name, .object ms) :: rest, inst, strct, st => by
    rw [DeserializeMembers_cons]
    split
    · exact htrans _ _ _
        (DeserializeMembers_preserves env R hrefl htrans hhook hparse rest _ strct _)
        (htrans _ _ _ (hhook _ _) (htrans _ _ _
          (DeserializeField_preserves_of env R _ inst _ _
            (fun p t s =>
              DeserializeTranslator_preserves env R hrefl htrans hhook hparse (.object ms) p t s)
            (fun ys h => by cases h))
          (hhook st _)))
    · exact DeserializeMembers_preserves env R hrefl htrans hhook hparse rest inst strct st
/-- The element loop of `DeserializeField` respects such a relation. -/
theorem DeserializeElements_preserves (env : Env) (R : ReaderState → ReaderState → Prop)
    (hrefl : ∀ a, R a a) (htrans : ∀ a b c, R a b → R b c → R a c)
    (hhook : ∀ a h, R (a.hook h) a)
    (hparse : ∀ cls str p n a, R (Parse env cls str p n a).2 a) :
    ∀ (xs : List Value) (i : Nat) (inst : Val) (field : Field) (st : ReaderState),
      R (DeserializeElements env xs i inst field st).2 st
  | [], _, _, _, st => hrefl st
  | x :: xs, i, inst, field, st => by
    rw [DeserializeElements_cons]
    split
    · exact htrans _ _ _
        (DeserializeElements_preserves env R hrefl htrans hhook hparse xs _ _ field _)
        (DeserializeTranslator_preserves env R hrefl htrans hhook hparse x _ _ st)
    · exact DeserializeElements_preserves env R hrefl htrans hhook hparse xs _ inst field st
/-- The item loop of the Set case respects such a relation. -/
theorem DeserializeSetItems_preserves (env : Env) (R : ReaderState → ReaderState → Prop)
    (hrefl : ∀ a, R a a) (htrans : ∀ a b c, R a b → R b c → R a c)
    (hhook : ∀ a h, R (a.hook h) a)
    (hparse : ∀ cls str p n a, R (Parse env cls str p n a).2 a) :
    ∀ (xs : List Value) (pointer : Val) (item : Translator) (st : ReaderState),
      R (DeserializeSetItems env xs pointer item st).2 st
  | [], _, _, st => hrefl st
  | x :: xs, pointer, item, st => by
    rw [DeserializeSetItems_cons]
    exact htrans _ _ _
      (DeserializeSetItems_preserves env R hrefl htrans hhook hparse xs _ item _)
      (DeserializeTranslator_preserves env R hrefl htrans hhook hparse x _ _ st)
/-- The item loop of the Sequence case respects such a relation. -/
theorem DeserializeSequenceItems_preserves (env : Env)
    (R : ReaderState → ReaderState → Prop)
    (hrefl : ∀ a, R a a) (htrans : ∀ a b c, R a b → R b c → R a c)
    (hhook : ∀ a h, R (a.hook h) a)
    (hparse : ∀ cls str p n a, R (Parse env cls str p n a).2 a) :
    ∀ (xs : List Value) (i : Nat) (pointer : Val) (item : Translator) (st : ReaderState),
      R (DeserializeSequenceItems env xs i pointer item st).2 st
  | [], _, _, _, st => hrefl st
  | x :: xs, i, pointer, item, st => by
    rw [DeserializeSequenceItems_cons]
    exact htrans _ _ _
      (DeserializeSequenceItems_preserves env R hrefl htrans hhook hparse xs _ _ item _)
      (DeserializeTranslator_preserves env R hrefl htrans hhook hparse x _ _ st)
/-- The member loop of the Association case respects such a relation. -/
theorem DeserializeAssociation_preserves (env : Env) (R : ReaderState → ReaderState → Prop)
    (hrefl : ∀ a, R a a) (htrans : ∀ a b c, R a b → R b c → R a c)
    (hhook : ∀ a h, R (a.hook h) a)
    (hparse : ∀ cls str p n a, R (Parse env cls str p n a).2 a) :
    ∀ (ms : List (Value × Value)) (kv vv pointer : Val) (k v : Translator)
      (st : ReaderState), R (DeserializeAssociation env ms kv vv pointer k v st).2 st
  | [], _, _, _, _, _, st => hrefl st
  | (name, value) :: rest, kv, vv, pointer, k, v, st => by
    rw [DeserializeAssociation_cons]
    exact htrans _ _ _
      (DeserializeAssociation_preserves env R hrefl htrans hhook hparse rest _ _ _ k v _)
      (htrans _ _ _
        (DeserializeTranslator_preserves env R hrefl htrans hhook hparse value _ _ _)
        (DeserializeTranslator_preserves env R hrefl htrans hhook hparse name _ _ st))
end

theorem DeserializeInstance_sameSession (env : Env) (value : Value) (inst : Val)
    (strct : Structure) (st : ReaderState) :
    (DeserializeInstance env value inst strct st).2.sameSession st := by
  have hm : ∀ ms m s, (DeserializeMembers env ms m strct s).2.sameSession s :=
    fun ms m s => DeserializeMembers_preserves env ReaderState.sameSession sameSession_refl
      (fun _ _ _ => sameSession_trans) sameSession_hook (Parse_sameSession env) ms m strct s
  unfold DeserializeInstance
  cases value with
  | object ms =>
    exact sameSession_trans (sameSession_hook _ _)
      (sameSession_trans (hm ms inst _) (sameSession_hook st _))
  | _ => exact sameSession_trans (sameSession_hook _ _) (sameSession_hook st _)

/-! ## The loop over the top-level records -/

/-- What `ReadNext` leaves alone: it advances the read position by one and changes neither
the object list, nor the statuses, nor the abort flag, nor the flags. -/
theorem ReadNext_session (env : Env) (doc : Value) (object : Option Object)
    (st : ReaderState) :
    (ReadNext env doc object st).2.m_Objects = st.m_Objects
    ∧ (ReadNext env doc object st).2.status = st.status
    ∧ (ReadNext env doc object st).2.m_Abort = st.m_Abort
    ∧ (ReadNext env doc object st).2.m_Next = st.m_Next + 1
    ∧ (ReadNext env doc object st).2.m_Flags = st.m_Flags := by
  unfold ReadNext
  dsimp only
  split
  · split
    · rename_i o _
      obtain ⟨h1, h2, h3, h4, h5⟩ := DeserializeInstance_sameSession env _ o.inst o.cls
        { st with m_Next := st.m_Next + 1 }
      exact ⟨h1, h2, h3, h4, h5⟩
    · exact ⟨rfl, rfl, rfl, rfl, rfl⟩
  · exact ⟨rfl, rfl, rfl, rfl, rfl⟩

theorem ReadLoop_succ (env : Env) (doc : Value) (length n i : Nat) (st : ReaderState) :
    ReadLoop env doc length (n + 1) i st =
      if i < length then
        if (ReadBody env doc st).m_Abort then ReadBody env doc st
        else ReadLoop env doc length n (i + 1) (ReadBody env doc st)
      else st := rfl

theorem ReadBody_session (env : Env) (doc : Value) (st : ReaderState) :
    (ReadBody env doc st).m_Objects = st.m_Objects ++ [(ReadNext env doc none st).1]
    ∧ (ReadBody env doc st).status =
        st.status ++ [⟨.ObjectProcessed, env.listener st.status.length .ObjectProcessed⟩]
    ∧ (ReadBody env doc st).m_Abort =
        (st.m_Abort || env.listener st.status.length .ObjectProcessed)
    ∧ (ReadBody env doc st).m_Next = st.m_Next + 1
    ∧ (ReadBody env doc st).m_Flags = st.m_Flags := by
  obtain ⟨h1, h2, h3, h4, h5⟩ := ReadNext_session env doc none st
  simp [ReadBody, ReaderState.Raise, h1, h2, h3, h4, h5]

/-- The loop while no listener sets the abort flag: after `n` iterations the object list
has grown by the `n` objects `ReadNext` produced, record by record, each in the state the
preceding iterations left. -/
theorem ReadLoop_no_abort (env : Env) (doc : Value) (length : Nat) :
    ∀ (n i : Nat) (st : ReaderState), st.m_Abort = false → i + n ≤ length →
      (∀ j, j < n → env.listener (st.status.length + j) .ObjectProcessed = false) →
      (ReadLoop env doc length n i st).m_Abort = false
      ∧ (ReadLoop env doc length n i st).status.length = st.status.length + n
      ∧ (ReadLoop env doc length n i st).m_Next = st.m_Next + n
      ∧ (ReadLoop env doc length n i st).m_Objects =
          st.m_Objects ++ (List.range n).map
            (fun j => (ReadNext env doc none (ReadLoop env doc length j i st)).1) := by
  intro n
  induction n with
  | zero =>
    intro i st ha _ _
    exact ⟨ha, rfl, rfl, by simp [ReadLoop]⟩
  | succ n ih =>
    intro i st ha hi hl
    obtain ⟨b1, b2, b3, b4, _⟩ := ReadBody_session env doc st
    have hl0 : env.listener st.status.length .ObjectProcessed = false := by
      simpa using hl 0 (Nat.succ_pos n)
    have hab : (ReadBody env doc st).m_Abort = false := by rw [b3, ha, hl0]; rfl
    have hlt : i < length := by omega
    have hstep : ∀ m, ReadLoop env doc length (m + 1) i st =
        ReadLoop env doc length m (i + 1) (ReadBody env doc st) := by
      intro m
      rw [ReadLoop_succ, if_pos hlt, hab]
      rfl
    have hlen : (ReadBody env doc st).status.length = st.status.length + 1 := by
      rw [b2]; simp
    obtain ⟨r1, r2, r3, r4⟩ := ih (i + 1) (ReadBody env doc st) hab (by omega) (by
      intro j hj
      rw [hlen]
      have := hl (j + 1) (by omega)
      rwa [show st.status.length + (j + 1) = st.status.length + 1 + j by omega] at this)
    rw [hstep n]
    refine ⟨r1, by rw [r2, hlen]; omega, by rw [r3, b4]; omega, ?_⟩
    rw [r4, b1, List.range_succ_eq_map, List.map_cons, List.map_map, List.append_assoc]
    congr 1
    simp only [List.singleton_append, List.cons.injEq]
    refine ⟨rfl, ?_⟩
    apply List.map_congr_left
    intro j _
    simp only [Function.comp, hstep j]

/-- The loop when a listener sets the abort flag in the status raised after `m` quiet
iterations: the loop ends with the iteration that raised that status. -/
theorem ReadLoop_abort (env : Env) (doc : Value) (length : Nat) :
    ∀ (m n i : Nat) (st : ReaderState), st.m_Abort = false → i + m < length → m < n →
      (∀ j, j < m → env.listener (st.status.length + j) .ObjectProcessed = false) →
      env.listener (st.status.length + m) .ObjectProcessed = true →
      ReadLoop env doc length n i st =
        ReadBody env doc (ReadLoop env doc length m i st) := by
  intro m
  induction m with
  | zero =>
    intro n i st ha hi hn _ ht
    obtain ⟨n, rfl⟩ : ∃ k, n = k + 1 := ⟨n - 1, by omega⟩
    obtain ⟨_, _, b3, _, _⟩ := ReadBody_session env doc st
    have hab : (ReadBody env doc st).m_Abort = true := by
      rw [b3, ha]
      simpa using ht
    rw [ReadLoop_succ, if_pos (by omega), hab]
    rfl
  | succ m ih =>
    intro n i st ha hi hn hl ht
    obtain ⟨n, rfl⟩ : ∃ k, n = k + 1 := ⟨n - 1, by omega⟩
    obtain ⟨_, b2, b3, _, _⟩ := ReadBody_session env doc st
    have hl0 : env.listener st.status.length .ObjectProcessed = false := by
      simpa using hl 0 (Nat.succ_pos m)
    have hab : (ReadBody env doc st).m_Abort = false := by rw [b3, ha, hl0]; rfl
    have hlen : (ReadBody env doc st).status.length = st.status.length + 1 := by
      rw [b2]; simp
    have hstep : ∀ k, ReadLoop env doc length (k + 1) i st =
        ReadLoop env doc length k (i + 1) (ReadBody env doc st) := by
      intro k
      rw [ReadLoop_succ, if_pos (by omega), hab]
      rfl
    rw [hstep n, hstep m]
    apply ih n (i + 1) (ReadBody env doc st) hab (by omega) (by omega)
    · intro j hj
      rw [hlen]
      have := hl (j + 1) (by omega)
      rwa [show st.status.length + (j + 1) = st.status.length + 1 + j by omega] at this
    · rw [hlen]
      rwa [show st.status.length + (m + 1) = st.status.length + 1 + m by omega] at ht

/-! ## The resolution pass -/

theorem Resolve_eq (env : Env) (st : ReaderState) :
    Resolve env st =
      (resolveFixups env st.m_Fixups (st.Raise env .ObjectProcessed)).RaiseAgain env
        .Complete :=
  rfl

theorem ArchiveReader_Resolve_session (env : Env) (f : Fixup) (st : ReaderState) :
    (ArchiveReader.Resolve env f.m_Identity f.m_Pointer f.m_PointerClass st).2.m_Objects =
        st.m_Objects
    ∧ (ArchiveReader.Resolve env f.m_Identity f.m_Pointer f.m_PointerClass st).2.m_Fixups =
        st.m_Fixups
    ∧ (ArchiveReader.Resolve env f.m_Identity f.m_Pointer f.m_PointerClass st).2.m_Abort =
        st.m_Abort
    ∧ (ArchiveReader.Resolve env f.m_Identity f.m_Pointer f.m_PointerClass st).2.resolved =
        st.resolved ++ [f] := by
  unfold ArchiveReader.Resolve
  split <;> exact ⟨rfl, rfl, rfl, rfl⟩

/-- A slot that is bound stays bound when another reference is resolved. -/
theorem ArchiveReader_Resolve_keeps (env : Env) (f : Fixup) (st : ReaderState) (cell : Nat)
    (h : st.target cell ≠ none) :
    (ArchiveReader.Resolve env f.m_Identity f.m_Pointer f.m_PointerClass st).2.target cell
      ≠ none := by
  unfold ArchiveReader.Resolve
  split
  · simp only [ReaderState.target, List.find?]
    split
    · simp
    · exact h
  · exact h

/-- A reference the resolver knows is bound by `ArchiveReader::Resolve`. -/
theorem ArchiveReader_Resolve_binds (env : Env) (f : Fixup) (st : ReaderState) (t : Nat)
    (h : env.Resolver f.m_Identity f.m_PointerClass st.m_Objects = some t) :
    (ArchiveReader.Resolve env f.m_Identity f.m_Pointer f.m_PointerClass st).2.target
      f.m_Pointer = some t := by
  unfold ArchiveReader.Resolve
  simp [h, ReaderState.target, List.find?]

theorem resolveFixups_session (env : Env) (fs : List Fixup) :
    ∀ st : ReaderState,
      (resolveFixups env fs st).m_Objects = st.m_Objects
      ∧ (resolveFixups env fs st).m_Fixups = st.m_Fixups
      ∧ (resolveFixups env fs st).m_Abort = st.m_Abort
      ∧ (resolveFixups env fs st).resolved = st.resolved ++ fs := by
  induction fs with
  | nil => intro st; simp [resolveFixups]
  | cons f fs ih =>
    intro st
    obtain ⟨a1, a2, a3, a4⟩ := ArchiveReader_Resolve_session env f st
    obtain ⟨i1, i2, i3, i4⟩ :=
      ih (ArchiveReader.Resolve env f.m_Identity f.m_Pointer f.m_PointerClass st).2
    have hc : resolveFixups env (f :: fs) st = resolveFixups env fs
        (ArchiveReader.Resolve env f.m_Identity f.m_Pointer f.m_PointerClass st).2 := rfl
    rw [hc]
    exact ⟨i1.trans a1, i2.trans a2, i3.trans a3, by rw [i4, a4]; simp⟩

theorem resolveFixups_keeps (env : Env) (fs : List Fixup) :
    ∀ (st : ReaderState) (cell : Nat), st.target cell ≠ none →
      (resolveFixups env fs st).target cell ≠ none := by
  induction fs with
  | nil => intro st cell h; exact h
  | cons f fs ih =>
    intro st cell h
    exact ih _ cell (ArchiveReader_Resolve_keeps env f st cell h)

theorem resolveFixups_binds (env : Env) (fs : List Fixup) :
    ∀ (st : ReaderState) (f : Fixup), f ∈ fs →
      (∃ t, env.Resolver f.m_Identity f.m_PointerClass st.m_Objects = some t) →
      (resolveFixups env fs st).target f.m_Pointer ≠ none := by
  induction fs with
  | nil => intro st f hf; cases hf
  | cons g fs ih =>
    intro st f hf ht
    have hc : resolveFixups env (g :: fs) st = resolveFixups env fs
        (ArchiveReader.Resolve env g.m_Identity g.m_Pointer g.m_PointerClass st).2 := rfl
    rw [hc]
    rcases List.mem_cons.1 hf with rfl | hf
    · obtain ⟨t, ht⟩ := ht
      apply resolveFixups_keeps
      rw [ArchiveReader_Resolve_binds env f st t ht]
      simp
    · apply ih _ f hf
      rw [(ArchiveReader_Resolve_session env g st).1]
      exact ht

/-- What the resolution pass changes and what it leaves alone. -/
theorem Resolve_session (env : Env) (st : ReaderState) :
    (Resolve env st).m_Objects = st.m_Objects
    ∧ (Resolve env st).m_Fixups = st.m_Fixups
    ∧ (Resolve env st).m_Abort = st.m_Abort
    ∧ (Resolve env st).resolved = st.resolved ++ st.m_Fixups := by
  rw [Resolve_eq]
  obtain ⟨h1, h2, h3, h4⟩ :=
    resolveFixups_session env st.m_Fixups (st.Raise env .ObjectProcessed)
  exact ⟨h1, h2, h3, h4⟩

theorem Read_finish (env : Env) (S : ReaderState) :
    (match (Resolve env S).m_Objects with
      | [] => (Resolve env S,
          (Except.error (Failure.Fault "GetFirst on an empty array") :
            Except Failure (Option Object)))
      | first :: _ => (Resolve env S, Except.ok first)) =
    (Resolve env S,
      match S.m_Objects with
      | [] => Except.error (Failure.Fault "GetFirst on an empty array")
      | first :: _ => Except.ok first) := by
  rw [(Resolve_session env S).1]
  cases S.m_Objects <;> rfl

/-- After `Start` succeeded, `Read` is the loop over the records, then the resolution pass,
then the access to the first element of the object list. -/
theorem Read_of_parsed (env : Env) (path : String) (stream : Stream)
    (object : Option Object) (st : ReaderState) (doc : Value)
    (hs : stream.size ≠ 0) (hp : stream.parse = .ok doc) :
    Read env path stream object st =
      (Resolve env (ReadRecords env doc { st.Raise env .Starting with m_Abort := false }),
        match (ReadRecords env doc
          { st.Raise env .Starting with m_Abort := false }).m_Objects with
        | [] => .error (.Fault "GetFirst on an empty array")
        | first :: _ => .ok first) := by
  simp only [Read, Start, beq_iff_eq, hs, if_false, hp]
  exact Read_finish env _

/-! ## Cancellation on read -/

/-- C7. Objects are counted from 1, as in "object i of N": the status raised after the
i-th record is the i-th `ObjectProcessed` status of the session. If the listeners set the
abort flag in that status and in none before, `Read` on a fresh reader stops its loop there:
the object list holds exactly i entries (not i+1, and not N when i < N), namely the objects
`ReadNext` produced for the first i records, the session is marked aborted, and `Read`
hands back the first object without raising a failure. -/
theorem C7_cancellation_on_read (env : Env) (path : String) (stream : Stream)
    (object : Option Object) (flags : Nat) (xs : List Value) (i : Nat)
    (hs : stream.size ≠ 0) (hp : stream.parse = .ok (.array xs))
    (h1 : 1 ≤ i) (hN : i ≤ xs.length)
    (hquiet : ∀ j, 1 ≤ j → j < i → env.listener j .ObjectProcessed = false)
    (habort : env.listener i .ObjectProcessed = true) :
    (Read env path stream object (ReaderState.init flags)).1.m_Objects.length = i
    ∧ (Read env path stream object (ReaderState.init flags)).1.m_Objects.length ≠ i + 1
    ∧ (i < xs.length →
        (Read env path stream object (ReaderState.init flags)).1.m_Objects.length ≠ xs.length)
    ∧ (Read env path stream object (ReaderState.init flags)).1.m_Abort = true
    ∧ (Read env path stream object (ReaderState.init flags)).1.m_Objects =
        (List.range i).map (fun j => (ReadNext env (.array xs) none
          (ReadLoop env (.array xs) xs.length j 0 (startedReader env flags))).1)
    ∧ ∃ first, (Read env path stream object (ReaderState.init flags)).2 = .ok first := by
  obtain ⟨m, rfl⟩ : ∃ m, i = m + 1 := ⟨i - 1, by omega⟩
  have hlen0 : (startedReader env flags).status.length = 1 := rfl
  have hq : ∀ j, j < m →
      env.listener ((startedReader env flags).status.length + j) .ObjectProcessed = false := by
    intro j hj
    rw [hlen0, Nat.add_comm]
    exact hquiet (j + 1) (by omega) (by omega)
  have hloop : ReadRecords env (.array xs) (startedReader env flags) =
      ReadBody env (.array xs)
        (ReadLoop env (.array xs) xs.length m 0 (startedReader env flags)) :=
    ReadLoop_abort env (.array xs) xs.length m xs.length 0 (startedReader env flags) rfl
      (by omega) (by omega) hq (by rw [hlen0, Nat.add_comm]; exact habort)
  obtain ⟨q1, q2, _, q4⟩ := ReadLoop_no_abort env (.array xs) xs.length m 0
    (startedReader env flags) rfl (by omega) hq
  obtain ⟨b1, _, b3, _, _⟩ := ReadBody_session env (.array xs)
    (ReadLoop env (.array xs) xs.length m 0 (startedReader env flags))
  have hobjs : (ReadRecords env (.array xs) (startedReader env flags)).m_Objects =
      (List.range (m + 1)).map (fun j => (ReadNext env (.array xs) none
        (ReadLoop env (.array xs) xs.length j 0 (startedReader env flags))).1) := by
    rw [hloop, b1, q4, List.range_succ, List.map_append]
    rfl
  have hab : (ReadRecords env (.array xs) (startedReader env flags)).m_Abort = true := by
    rw [hloop, b3, q1, q2, hlen0, Nat.add_comm]
    simpa using habort
  have hread := Read_of_parsed env path stream object (ReaderState.init flags) (.array xs) hs hp
  have hfin := Resolve_session env (ReadRecords env (.array xs) (startedReader env flags))
  have hO : (Read env path stream object (ReaderState.init flags)).1.m_Objects =
      (List.range (m + 1)).map (fun j => (ReadNext env (.array xs) none
        (ReadLoop env (.array xs) xs.length j 0 (startedReader env flags))).1) := by
    rw [hread]
    exact hfin.1.trans hobjs
  have hL : (Read env path stream object (ReaderState.init flags)).1.m_Objects.length =
      m + 1 := by
    rw [hO]; simp
  refine ⟨hL, by omega, fun h => by omega, ?_, hO, ?_⟩
  · rw [hread]
    exact hfin.2.2.1.trans hab
  · rw [hread]
    have hne : (ReadRecords env (.array xs) (startedReader env flags)).m_Objects ≠ [] := by
      rw [hobjs]
      simp
    change ∃ first, (match (ReadRecords env (.array xs) (startedReader env flags)).m_Objects
      with
      | [] => (Except.error (Failure.Fault "GetFirst on an empty array") :
          Except Failure (Option Object))
      | first :: _ => Except.ok first) = Except.ok first
    cases hc : (ReadRecords env (.array xs) (startedReader env flags)).m_Objects with
    | nil => exact absurd hc hne
    | cons a l => exact ⟨a, rfl⟩

/-- C7 at a concrete input: three records of an unregistered type, the listeners set the
abort flag in the second `ObjectProcessed` status; the object list holds two entries. -/
theorem C7_cancellation_on_read_witness :
    (Read (demoEnv [] (fun _ => none) (fun n _ => n == 2)) "a.json"
        { size := 1, parse := .ok (.array [.object [(.string "T", .object [])],
            .object [(.string "T", .object [])], .object [(.string "T", .object [])]]) }
        none (ReaderState.init 0)).1.m_Objects.length = 2 :=
  (C7_cancellation_on_read (demoEnv [] (fun _ => none) (fun n _ => n == 2)) "a.json"
    { size := 1, parse := .ok (.array [.object [(.string "T", .object [])],
        .object [(.string "T", .object [])], .object [(.string "T", .object [])]]) }
    none 0 _ 2 (by decide) rfl (by decide) (by decide)
    (fun j h1 h2 => by
      have hj : j = 1 := by omega
      subst hj
      rfl)
    rfl).1

/-! ## Unknown type on read -/

/-- A record whose type the registry does not know: `ReadNext` leaves the `ObjectPtr` null
and does nothing but advance the read position. -/
theorem ReadNext_unknown (env : Env) (doc : Value) (st : ReaderState) (name mv : Value)
    (rest : List (Value × Value))
    (hrec : doc.at st.m_Next = .object ((name, mv) :: rest))
    (hcls : env.GetClass (nameCrc env name) = none) :
    ReadNext env doc none st = (none, { st with m_Next := st.m_Next + 1 }) := by
  unfold ReadNext
  simp only [hrec, hcls, ite_self]

/-- A record whose type is registered: `ReadNext` constructs an instance of the class and
populates it with `DeserializeInstance` from the value of the record's first member. -/
theorem ReadNext_registered (env : Env) (doc : Value) (st : ReaderState) (name mv : Value)
    (rest : List (Value × Value)) (c : Structure)
    (hrec : doc.at st.m_Next = .object ((name, mv) :: rest))
    (hcrc : nameCrc env name ≠ 0)
    (hcls : env.GetClass (nameCrc env name) = some c) :
    ReadNext env doc none st =
      (some { env.CreateInstance c with
          inst := (DeserializeInstance env mv (env.CreateInstance c).inst
            (env.CreateInstance c).cls { st with m_Next := st.m_Next + 1 }).1 },
        (DeserializeInstance env mv (env.CreateInstance c).inst
          (env.CreateInstance c).cls { st with m_Next := st.m_Next + 1 }).2) := by
  unfold ReadNext
  simp only [hrec, hcls, bne_iff_ne, ne_eq, hcrc, not_false_eq_true, if_true]

/-- C5. When no listener aborts, `Read` on a fresh reader pushes one entry per record of
the input array. For a record whose first member names a type the registry does not know
the entry is null: no object was constructed, `ReadNext` did nothing but advance the read
position, and no failure is raised. For every record whose type is registered, before or
after an unknown one, the entry is an instance constructed by the registry and populated
by `DeserializeInstance` from the record. `Read` hands back the first entry. -/
theorem C5_unknown_type_is_skipped (env : Env) (path : String) (stream : Stream)
    (object : Option Object) (flags : Nat) (xs : List Value)
    (hs : stream.size ≠ 0) (hp : stream.parse = .ok (.array xs))
    (hquiet : ∀ j, env.listener j .ObjectProcessed = false) :
    (Read env path stream object (ReaderState.init flags)).1.m_Objects.length = xs.length
    ∧ (∀ k name mv rest, xs.get? k = some (.object ((name, mv) :: rest)) →
        (env.GetClass (nameCrc env name) = none →
          (Read env path stream object (ReaderState.init flags)).1.m_Objects.get? k = some none
          ∧ ReadNext env (.array xs) none
              (ReadLoop env (.array xs) xs.length k 0 (startedReader env flags)) =
            (none, { ReadLoop env (.array xs) xs.length k 0 (startedReader env flags) with
              m_Next := k + 1 }))
        ∧ (∀ c, nameCrc env name ≠ 0 → env.GetClass (nameCrc env name) = some c →
          (Read env path stream object (ReaderState.init flags)).1.m_Objects.get? k =
            some (some { env.CreateInstance c with
              inst := (DeserializeInstance env mv (env.CreateInstance c).inst
                (env.CreateInstance c).cls
                { ReadLoop env (.array xs) xs.length k 0 (startedReader env flags) with
                  m_Next := k + 1 }).1 })))
    ∧ (∀ first rest, xs = first :: rest →
        ∃ o, (Read env path stream object (ReaderState.init flags)).2 = .ok o) := by
  have hread := Read_of_parsed env path stream object (ReaderState.init flags) (.array xs) hs hp
  have hfin := Resolve_session env (ReadRecords env (.array xs) (startedReader env flags))
  obtain ⟨_, _, _, q4⟩ := ReadLoop_no_abort env (.array xs) xs.length xs.length 0
    (startedReader env flags) rfl (by omega) (fun j _ => hquiet _)
  have hobjs : (ReadRecords env (.array xs) (startedReader env flags)).m_Objects =
      (List.range xs.length).map (fun j => (ReadNext env (.array xs) none
        (ReadLoop env (.array xs) xs.length j 0 (startedReader env flags))).1) := by
    rw [show ReadRecords env (.array xs) (startedReader env flags) =
      ReadLoop env (.array xs) xs.length xs.length 0 (startedReader env flags) from rfl, q4]
    rfl
  have hO : (Read env path stream object (ReaderState.init flags)).1.m_Objects =
      (List.range xs.length).map (fun j => (ReadNext env (.array xs) none
        (ReadLoop env (.array xs) xs.length j 0 (startedReader env flags))).1) := by
    rw [hread]
    exact hfin.1.trans hobjs
  have hget : ∀ k, k < xs.length →
      (Read env path stream object (ReaderState.init flags)).1.m_Objects.get? k =
        some (ReadNext env (.array xs) none
          (ReadLoop env (.array xs) xs.length k 0 (startedReader env flags))).1 := by
    intro k hk
    rw [hO]
    simp [List.getElem?_range hk, hk]
  refine ⟨by rw [hO]; simp, ?_, ?_⟩
  · intro k name mv rest hk
    have hlt : k < xs.length := by
      rcases Nat.lt_or_ge k xs.length with h | h
      · exact h
      · rw [List.get?_eq_none.2 h] at hk
        cases hk
    obtain ⟨_, _, r3, _⟩ := ReadLoop_no_abort env (.array xs) xs.length k 0
      (startedReader env flags) rfl (by omega) (fun j _ => hquiet _)
    have hnext : (ReadLoop env (.array xs) xs.length k 0 (startedReader env flags)).m_Next =
        k := by
      rw [r3]
      exact Nat.zero_add k
    have hrec : (Value.array xs).at
        (ReadLoop env (.array xs) xs.length k 0 (startedReader env flags)).m_Next =
        .object ((name, mv) :: rest) := by
      rw [hnext]
      simp only [Value.at, List.getD_eq_getElem?_getD]
      rw [List.get?_eq_getElem?] at hk
      rw [hk]
      rfl
    refine ⟨fun hcls => ?_, fun c hcrc hcls => ?_⟩
    · have hn := ReadNext_unknown env (.array xs) _ name mv rest hrec hcls
      rw [hnext] at hn
      exact ⟨by rw [hget k hlt, hn], hn⟩
    · have hn := ReadNext_registered env (.array xs) _ name mv rest c hrec hcrc hcls
      rw [hnext] at hn
      rw [hget k hlt, hn]
  · intro first rest hx
    rw [hread]
    have hne : (ReadRecords env (.array xs) (startedReader env flags)).m_Objects ≠ [] := by
      rw [hobjs, hx]
      simp [List.range_succ]
    change ∃ o, (match (ReadRecords env (.array xs) (startedReader env flags)).m_Objects
      with
      | [] => (Except.error (Failure.Fault "GetFirst on an empty array") :
          Except Failure (Option Object))
      | first :: _ => Except.ok first) = Except.ok o
    cases hc : (ReadRecords env (.array xs) (startedReader env flags)).m_Objects with
    | nil => exact absurd hc hne
    | cons a l => exact ⟨a, rfl⟩

/-- C5 at a concrete input: a record of the unregistered type "Zed" followed by a record of
the registered class "A"; two entries are pushed and the first one is null. -/
theorem C5_unknown_type_is_skipped_witness :
    (Read (demoEnv [.mk "A" none [.mk "x" 1 (.scalar .ScalarTranslator .Unsigned8)
          (fun _ => true)]] (fun _ => none) (fun _ _ => false)) "a.json"
        { size := 1, parse := .ok (.array [.object [(.string "Zed", .object [])],
            .object [(.string "A", .object [(.string "x", .number (.int 7))])]]) }
        none (ReaderState.init 0)).1.m_Objects.length = 2
    ∧ (Read (demoEnv [.mk "A" none [.mk "x" 1 (.scalar .ScalarTranslator .Unsigned8)
          (fun _ => true)]] (fun _ => none) (fun _ _ => false)) "a.json"
        { size := 1, parse := .ok (.array [.object [(.string "Zed", .object [])],
            .object [(.string "A", .object [(.string "x", .number (.int 7))])]]) }
        none (ReaderState.init 0)).1.m_Objects.get? 0 = some none :=
  ⟨(C5_unknown_type_is_skipped _ "a.json"
      { size := 1, parse := .ok (.array [.object [(.string "Zed", .object [])],
          .object [(.string "A", .object [(.string "x", .number (.int 7))])]]) }
      none 0 _ (by decide) rfl (fun _ => rfl)).1,
    (((C5_unknown_type_is_skipped _ "a.json"
      { size := 1, parse := .ok (.array [.object [(.string "Zed", .object [])],
          .object [(.string "A", .object [(.string "x", .number (.int 7))])]]) }
      none 0 _ (by decide) rfl (fun _ => rfl)).2.1 0 (.string "Zed") (.object []) [] rfl).1
      rfl).1⟩

/-! ## Deferred reference resolution -/

/-- C10. Once `Start` has succeeded, the session `Read` leaves is the resolution pass
applied to the session the loop over the top-level records left: the pass starts after the
loop has ended. The pass hands every recorded fixup to `ArchiveReader::Resolve` exactly once,
in the order of recording, with the fixup's own identity token, destination slot and
expected class (the calls logged during the pass are the list of fixups), and it changes
neither the fixups nor the object list. Hence the slot of every fixup whose reference the
resolver knows, given the objects of all the records, is bound after `Read`, also when the
target's record came after the referring one. -/
theorem C10_deferred_resolution (env : Env) (path : String) (stream : Stream)
    (object : Option Object) (st : ReaderState) (doc : Value)
    (hs : stream.size ≠ 0) (hp : stream.parse = .ok doc) :
    (Read env path stream object st).1 =
        Resolve env (ReadRecords env doc { st.Raise env .Starting with m_Abort := false })
    ∧ (Read env path stream object st).1.resolved =
        (ReadRecords env doc { st.Raise env .Starting with m_Abort := false }).resolved ++
          (ReadRecords env doc { st.Raise env .Starting with m_Abort := false }).m_Fixups
    ∧ (Read env path stream object st).1.m_Fixups =
        (ReadRecords env doc { st.Raise env .Starting with m_Abort := false }).m_Fixups
    ∧ (Read env path stream object st).1.m_Objects =
        (ReadRecords env doc { st.Raise env .Starting with m_Abort := false }).m_Objects
    ∧ ∀ f, f ∈ (ReadRecords env doc
          { st.Raise env .Starting with m_Abort := false }).m_Fixups →
        (∃ t, env.Resolver f.m_Identity f.m_PointerClass
          (ReadRecords env doc
            { st.Raise env .Starting with m_Abort := false }).m_Objects = some t) →
        (Read env path stream object st).1.target f.m_Pointer ≠ none := by
  have hread := Read_of_parsed env path stream object st doc hs hp
  obtain ⟨r1, r2, _, r4⟩ := Resolve_session env
    (ReadRecords env doc { st.Raise env .Starting with m_Abort := false })
  rw [hread]
  refine ⟨rfl, r4, r2, r1, ?_⟩
  intro f hf ht
  exact resolveFixups_binds env _ _ f hf ht

/-- C10 at a concrete input: the record of an object of class "A", whose field "b" refers
to the object with identity "B", comes before the record of that object. After the loop
over the records one fixup is recorded and the slot is still null; after `Read` the slot
is bound. -/
theorem C10_deferred_resolution_witness :
    (ReadRecords
        (demoEnv [.mk "A" none [.mk "b" 1 (.scalar .PointerTranslator .String) (fun _ => true)],
          .mk "B" none [.mk "x" 1 (.scalar .ScalarTranslator .Unsigned8) (fun _ => true)]]
          (fun _ => none) (fun _ _ => false))
        (.array [.object [(.string "A", .object [(.string "b", .string "B")])],
          .object [(.string "B", .object [(.string "x", .number (.int 5))])]])
        (startedReader (demoEnv [] (fun _ => none) (fun _ _ => false)) 0)).target 0 = none
    ∧ (Read
        (demoEnv [.mk "A" none [.mk "b" 1 (.scalar .PointerTranslator .String) (fun _ => true)],
          .mk "B" none [.mk "x" 1 (.scalar .ScalarTranslator .Unsigned8) (fun _ => true)]]
          (fun _ => none) (fun _ _ => false)) "a.json"
        { size := 1, parse := .ok (.array [
            .object [(.string "A", .object [(.string "b", .string "B")])],
            .object [(.string "B", .object [(.string "x", .number (.int 5))])]]) }
        none (ReaderState.init 0)).1.target 0 ≠ none :=
  ⟨by decide,
    (C10_deferred_resolution
      (demoEnv [.mk "A" none [.mk "b" 1 (.scalar .PointerTranslator .String) (fun _ => true)],
        .mk "B" none [.mk "x" 1 (.scalar .ScalarTranslator .Unsigned8) (fun _ => true)]]
        (fun _ => none) (fun _ _ => false)) "a.json"
      { size := 1, parse := .ok (.array [
          .object [(.string "A", .object [(.string "b", .string "B")])],
          .object [(.string "B", .object [(.string "x", .number (.int 5))])]]) }
      none (ReaderState.init 0) _ (by decide) rfl).2.2.2.2 ⟨"B", 0, ""⟩ (by decide)
      ⟨_, rfl⟩⟩

/-! ## Field order on write -/

mutual
theorem pushBases_eq : ∀ (s : Structure) (bases : List Structure),
    pushBases s bases = bases ++ (baseChain s).reverse
  | .mk n b fs, bases => by
    have h := pushBasesFrom_eq b (bases ++ [.mk n b fs])
    have h1 : pushBases (.mk n b fs) bases = pushBasesFrom b (bases ++ [.mk n b fs]) := rfl
    have h2 : baseChain (.mk n b fs) = baseChainFrom b ++ [.mk n b fs] := rfl
    rw [h1, h, h2]
    simp
theorem pushBasesFrom_eq : ∀ (b : Option Structure) (bases : List Structure),
    pushBasesFrom b bases = bases ++ (baseChainFrom b).reverse
  | none, bases => by
    have h1 : pushBasesFrom none bases = bases := rfl
    have h2 : baseChainFrom none = [] := rfl
    rw [h1, h2]
    simp
  | some s, bases => pushBases_eq s bases
end

theorem pushFields_eq (inst : Val) (fs : List Field) :
    ∀ fields : List Field,
      pushFields inst fs fields = fields ++ fs.filter (fun f => f.ShouldSerialize inst) := by
  induction fs with
  | nil => intro fields; simp [pushFields]
  | cons f fs ih =>
    intro fields
    rw [pushFields, ih]
    by_cases h : f.ShouldSerialize inst <;> simp [h]

theorem popBases_eq (inst : Val) (rb : List Structure) :
    ∀ fields : List Field,
      popBases inst rb.length rb.reverse fields =
        fields ++ (rb.flatMap Structure.m_Fields).filter (fun f => f.ShouldSerialize inst) := by
  induction rb with
  | nil => intro fields; simp [popBases]
  | cons c rb ih =>
    intro fields
    have h : popBases inst (c :: rb).length (c :: rb).reverse fields =
        popBases inst rb.length rb.reverse (pushFields inst c.m_Fields fields) := by
      simp [popBases]
    rw [h, ih, pushFields_eq]
    simp

/-- The array of fields `SerializeInstance` builds is the flattened field list of the
specification restricted to the fields whose predicate holds for the instance. -/
theorem collectFields_eq (inst : Val) (strct : Structure) :
    collectFields inst strct =
      (flattenedFields strct).filter (fun f => f.ShouldSerialize inst) := by
  unfold collectFields flattenedFields
  simp only [pushBases_eq, List.nil_append]
  have h := popBases_eq inst (baseChain strct) []
  rw [List.length_reverse]
  simpa using h

/-! ## What the writer emits -/

theorem Ext_refl (env : Env) (st : WriterState) : st.Ext env st [] :=
  ⟨by simp, fun _ _ h => h, rfl, rfl⟩

theorem Ext_trans (env : Env) {a b c : WriterState} {t1 t2 : List Token}
    (h1 : a.Ext env b t1) (h2 : b.Ext env c t2) : a.Ext env c (t1 ++ t2) :=
  ⟨by rw [h2.1, h1.1, List.append_assoc], fun P hP h => h2.2.1 P hP (h1.2.1 P hP h),
    h2.2.2.1.trans h1.2.2.1, h2.2.2.2.trans h1.2.2.2⟩

theorem Ext_emit (env : Env) (st : WriterState) (t : Token) : st.Ext env (st.emit t) [t] :=
  ⟨rfl, fun _ _ h => h, rfl, rfl⟩

theorem Ext_hook (env : Env) (st : WriterState) (h : Hook) : st.Ext env (st.hook h) [] :=
  ⟨by simp [WriterState.hook], fun _ _ h => h, rfl, rfl⟩

theorem SerializeScalar_spec (env : Env) (cls : ScalarClass) (type : ScalarType)
    (pointer : Val) (st : WriterState) :
    ∃ toks, st.Ext env (SerializeScalar env cls type pointer st) toks ∧ IsValue toks := by
  cases type
  case String =>
    exact ⟨[.String (env.Print cls pointer st.m_Objects).1],
      ⟨rfl, fun P hP h => hP cls pointer _ h, rfl, rfl⟩, IsValue.String _⟩
  all_goals exact ⟨_, Ext_emit env st _, by constructor⟩

/-- A loop whose body always succeeds and emits a chunk of events satisfying `Q` succeeds
and emits the chunks one after the other. -/
theorem forEach_chunks {α : Type} (env : Env) (body : WriterState → α → Option WriterState)
    (Q : α → List Token → Prop) (xs : List α)
    (hbody : ∀ x, x ∈ xs → ∀ st, ∃ st1 toks, body st x = some st1 ∧ st.Ext env st1 toks
      ∧ Q x toks) :
    ∀ st, ∃ st1 chunks, forEach body xs st = some st1 ∧ st.Ext env st1 chunks.flatten
      ∧ List.Forall₂ Q xs chunks := by
  induction xs with
  | nil =>
    intro st
    exact ⟨st, [], rfl, Ext_refl env st, List.Forall₂.nil⟩
  | cons x xs ih =>
    intro st
    obtain ⟨st1, toks, h1, e1, q1⟩ := hbody x (List.mem_cons_self x xs) st
    obtain ⟨st2, chunks, h2, e2, q2⟩ :=
      ih (fun y hy => hbody y (List.mem_cons_of_mem x hy)) st1
    refine ⟨st2, toks :: chunks, ?_, ?_, List.Forall₂.cons q1 q2⟩
    · simp only [forEach, h1, h2]
    · simpa using Ext_trans env e1 e2

theorem IsValues_nil : IsValues [] := ⟨[], rfl, fun _ h => by cases h⟩

theorem IsValues_of_value {v : List Token} (h : IsValue v) : IsValues v :=
  ⟨[v], by simp, fun w hw => by rw [List.mem_singleton.1 hw]; exact h⟩

theorem IsValues_append {a b : List Token} (ha : IsValues a) (hb : IsValues b) :
    IsValues (a ++ b) := by
  obtain ⟨va, rfl, h1⟩ := ha
  obtain ⟨vb, rfl, h2⟩ := hb
  exact ⟨va ++ vb, by simp, fun v hv => (List.mem_append.1 hv).elim (h1 v) (h2 v)⟩

theorem IsValues_flatten (chunks : List (List Token))
    (h : ∀ c, c ∈ chunks → IsValues c) : IsValues chunks.flatten := by
  induction chunks with
  | nil => exact IsValues_nil
  | cons c cs ih =>
    rw [List.flatten_cons]
    exact IsValues_append (h c (List.mem_cons_self c cs))
      (ih (fun d hd => h d (List.mem_cons_of_mem c hd)))

theorem IsValue_object {body : List Token} (h : IsValues body) :
    IsValue (.StartObject :: (body ++ [.EndObject])) := by
  obtain ⟨vs, rfl, hv⟩ := h
  exact IsValue.object vs hv

theorem IsValue_array {body : List Token} (h : IsValues body) :
    IsValue (.StartArray :: (body ++ [.EndArray])) := by
  obtain ⟨vs, rfl, hv⟩ := h
  exact IsValue.array vs hv

theorem Forall2_right {α β : Type} {Q : α → β → Prop} {R : β → Prop} {xs : List α}
    {ys : List β} (h : List.Forall₂ Q xs ys) (hQ : ∀ x y, Q x y → R y) :
    ∀ y, y ∈ ys → R y := by
  induction h with
  | nil => intro y hy; cases hy
  | cons hq _ ih =>
    intro y hy
    rcases List.mem_cons.1 hy with rfl | hy
    · exact hQ _ _ hq
    · exact ih y hy

/-! ### Depth of the metadata -/

theorem Translator_depth_pos (t : Translator) : 1 ≤ t.depth := by
  cases t <;> simp [Translator.depth]

theorem Field_depth_eq (f : Field) : f.depth = f.m_Translator.depth + 1 := by
  cases f
  rfl

theorem Structure_depth_pos : ∀ s : Structure, 1 ≤ s.depth
  | .mk n b fs => by
    have h : (Structure.mk n b fs).depth =
      max (Structure.depthBase b) (Field.depthList fs + 1) := rfl
    rw [h]
    omega

theorem Field.depth_le_depthList (fs : List Field) :
    ∀ f, f ∈ fs → f.depth ≤ Field.depthList fs := by
  induction fs with
  | nil => intro f hf; cases hf
  | cons g fs ih =>
    intro f hf
    have h : Field.depthList (g :: fs) = max g.depth (Field.depthList fs) := rfl
    rw [h]
    rcases List.mem_cons.1 hf with rfl | hf
    · omega
    · have := ih f hf
      omega

mutual
theorem flattenedFields_depth : ∀ (s : Structure) (f : Field),
    f ∈ flattenedFields s → f.depth + 1 ≤ s.depth
  | .mk n b fs, f, hf => by
    have h : (Structure.mk n b fs).depth =
      max (Structure.depthBase b) (Field.depthList fs + 1) := rfl
    have h2 : flattenedFields (.mk n b fs) =
        (baseChainFrom b).flatMap Structure.m_Fields ++ fs := by
      simp [flattenedFields, baseChain, Structure.m_Fields]
    rw [h2] at hf
    rw [h]
    rcases List.mem_append.1 hf with hf | hf
    · have := flattenedFieldsFrom_depth b f hf
      omega
    · have := Field.depth_le_depthList fs f hf
      omega
theorem flattenedFieldsFrom_depth : ∀ (b : Option Structure) (f : Field),
    f ∈ (baseChainFrom b).flatMap Structure.m_Fields → f.depth + 1 ≤ Structure.depthBase b
  | none, f, hf => by
    have h : baseChainFrom none = [] := rfl
    rw [h] at hf
    cases hf
  | some s, f, hf => flattenedFields_depth s f hf
end

theorem collectFields_depth (inst : Val) (strct : Structure) (f : Field)
    (hf : f ∈ collectFields inst strct) : f.depth + 1 ≤ strct.depth := by
  rw [collectFields_eq] at hf
  exact flattenedFields_depth strct f (List.mem_filter.1 hf).1

/-! ### Unfolding the writer -/

theorem SerializeInstance_succ (env : Env) (fuel : Nat) (inst : Val) (strct : Structure)
    (st : WriterState) :
    SerializeInstance env (fuel + 1) inst strct st =
      match forEach (fun s field =>
          match SerializeField env fuel inst field
            (s.hook (.PreSerialize (some field.m_Name))) with
          | none => none
          | some s1 => some (s1.hook (.PostSerialize (some field.m_Name))))
          (collectFields inst strct) ((st.emit .StartObject).hook (.PreSerialize none)) with
      | none => none
      | some st2 => some ((st2.hook (.PostSerialize none)).emit .EndObject) := rfl

theorem SerializeField_succ (env : Env) (fuel : Nat) (inst : Val) (field : Field)
    (st : WriterState) :
    SerializeField env (fuel + 1) inst field st =
      if field.m_Count > 1 then
        match forEach (fun s i => SerializeTranslator env fuel (Pointer field inst i)
            field.m_Translator s) (List.range field.m_Count)
            ((st.emit (.String field.m_Name)).emit .StartArray) with
        | none => none
        | some st2 => some (st2.emit .EndArray)
      else
        SerializeTranslator env fuel (Pointer field inst 0) field.m_Translator
          (st.emit (.String field.m_Name)) := rfl

theorem SerializeTranslator_succ (env : Env) (fuel : Nat) (pointer : Val)
    (translator : Translator) (st : WriterState) :
    SerializeTranslator env (fuel + 1) pointer translator st =
      match translator with
      | .scalar cls type => some (SerializeScalar env cls type pointer st)
      | .structure s => SerializeInstance env fuel pointer s st
      | .set itemTranslator =>
        match forEach (fun s item => SerializeTranslator env fuel item itemTranslator s)
            (GetItems pointer) (st.emit .StartArray) with
        | none => none
        | some st2 => some (st2.emit .EndArray)
      | .sequence itemTranslator =>
        match forEach (fun s item => SerializeTranslator env fuel item itemTranslator s)
            (GetItems pointer) (st.emit .StartArray) with
        | none => none
        | some st2 => some (st2.emit .EndArray)
      | .association keyTranslator valueTranslator =>
        match forEach (fun s kv =>
            match SerializeTranslator env fuel kv.1 keyTranslator s with
            | none => none
            | some s1 => SerializeTranslator env fuel kv.2 valueTranslator s1)
            (GetEntries pointer) (st.emit .StartObject) with
        | none => none
        | some st2 => some (st2.emit .EndObject) := rfl

theorem IsFieldChunk_values {f : Field} {c : List Token} (h : IsFieldChunk f c) :
    IsValues c := by
  obtain ⟨v, rfl, hv⟩ := h
  exact IsValues_append (IsValues_of_value (IsValue.String f.m_Name)) (IsValues_of_value hv)

/-- With fuel for the depth of the metadata the three mutually recursive routines of the
writer return, and what they emit is: for `SerializeInstance` an object holding the chunks
of the collected fields in order, for `SerializeField` the name and one value, for
`SerializeTranslator` one value. -/
theorem Serialize_total (env : Env) : ∀ fuel : Nat,
    (∀ inst strct st, strct.depth ≤ fuel →
      ∃ st1 chunks, SerializeInstance env fuel inst strct st = some st1
        ∧ st.Ext env st1 (.StartObject :: (chunks.flatten ++ [.EndObject]))
        ∧ List.Forall₂ IsFieldChunk (collectFields inst strct) chunks)
    ∧ (∀ inst (field : Field) st, field.depth ≤ fuel →
      ∃ st1 v, SerializeField env fuel inst field st = some st1
        ∧ st.Ext env st1 (.String field.m_Name :: v) ∧ IsValue v)
    ∧ (∀ pointer (translator : Translator) st, translator.depth ≤ fuel →
      ∃ st1 v, SerializeTranslator env fuel pointer translator st = some st1
        ∧ st.Ext env st1 v ∧ IsValue v) := by
  intro fuel
  induction fuel with
  | zero =>
    refine ⟨fun _ s _ h => ?_, fun _ f _ h => ?_, fun _ t _ h => ?_⟩
    · have := Structure_depth_pos s
      omega
    · rw [Field_depth_eq f] at h
      omega
    · have := Translator_depth_pos t
      omega
  | succ fuel ih =>
    obtain ⟨ihI, ihF, ihT⟩ := ih
    refine ⟨?_, ?_, ?_⟩
    · intro inst strct st hd
      obtain ⟨st2, chunks, h2, e2, q2⟩ := forEach_chunks env
        (fun s field =>
          match SerializeField env fuel inst field
            (s.hook (.PreSerialize (some field.m_Name))) with
          | none => none
          | some s1 => some (s1.hook (.PostSerialize (some field.m_Name))))
        IsFieldChunk (collectFields inst strct)
        (fun f hf s => by
          have hfd := collectFields_depth inst strct f hf
          obtain ⟨s1, v, h1, e1, hv⟩ :=
            ihF inst f (s.hook (.PreSerialize (some f.m_Name))) (by omega)
          refine ⟨s1.hook (.PostSerialize (some f.m_Name)), .String f.m_Name :: v, ?_, ?_,
            ⟨v, rfl, hv⟩⟩
          · simp only [h1]
          · simpa using Ext_trans env (Ext_trans env (Ext_hook env s _) e1) (Ext_hook env s1 _))
        ((st.emit .StartObject).hook (.PreSerialize none))
      refine ⟨(st2.hook (.PostSerialize none)).emit .EndObject, chunks, ?_, ?_, q2⟩
      · rw [SerializeInstance_succ, h2]
      · simpa using Ext_trans env
          (Ext_trans env (Ext_trans env (Ext_emit env st .StartObject) (Ext_hook env _ _)) e2)
          (Ext_trans env (Ext_hook env st2 _) (Ext_emit env _ .EndObject))
    · intro inst field st hd
      rw [Field_depth_eq field] at hd
      rw [SerializeField_succ]
      by_cases hc : field.m_Count > 1
      · rw [if_pos hc]
        obtain ⟨st2, chunks, h2, e2, q2⟩ := forEach_chunks env
          (fun s i => SerializeTranslator env fuel (Pointer field inst i) field.m_Translator s)
          (fun _ c => IsValue c) (List.range field.m_Count)
          (fun i _ s => ihT (Pointer field inst i) field.m_Translator s (by omega))
          ((st.emit (.String field.m_Name)).emit .StartArray)
        refine ⟨st2.emit .EndArray, .StartArray :: (chunks.flatten ++ [.EndArray]), ?_, ?_,
          IsValue_array (IsValues_flatten chunks
            (Forall2_right q2 (fun _ _ h => IsValues_of_value h)))⟩
        · rw [h2]
        · simpa using Ext_trans env
            (Ext_trans env (Ext_trans env (Ext_emit env st (.String field.m_Name))
              (Ext_emit env _ .StartArray)) e2) (Ext_emit env st2 .EndArray)
      · rw [if_neg hc]
        obtain ⟨st1, v, h1, e1, hv⟩ := ihT (Pointer field inst 0) field.m_Translator
          (st.emit (.String field.m_Name)) (by omega)
        exact ⟨st1, v, h1, by simpa using Ext_trans env (Ext_emit env st _) e1, hv⟩
    · intro pointer translator st hd
      rw [SerializeTranslator_succ]
      cases translator
      · rename_i cls type
        obtain ⟨toks, e, hv⟩ := SerializeScalar_spec env cls type pointer st
        exact ⟨_, toks, rfl, e, hv⟩
      · rename_i s
        have hs : s.depth ≤ fuel := by
          simp only [Translator.depth] at hd
          omega
        obtain ⟨st1, chunks, h1, e1, q1⟩ := ihI pointer s st hs
        exact ⟨st1, _, h1, e1, IsValue_object (IsValues_flatten chunks
          (Forall2_right q1 (fun _ _ h => IsFieldChunk_values h)))⟩
      · rename_i item
        have hs : item.depth ≤ fuel := by
          simp only [Translator.depth] at hd
          omega
        obtain ⟨st2, chunks, h2, e2, q2⟩ := forEach_chunks env
          (fun s x => SerializeTranslator env fuel x item s)
          (fun _ c => IsValue c) (GetItems pointer)
          (fun x _ s => ihT x item s hs) (st.emit .StartArray)
        refine ⟨st2.emit .EndArray, .StartArray :: (chunks.flatten ++ [.EndArray]), ?_, ?_,
          IsValue_array (IsValues_flatten chunks
            (Forall2_right q2 (fun _ _ h => IsValues_of_value h)))⟩
        · simp only [h2]
        · simpa using Ext_trans env (Ext_trans env (Ext_emit env st .StartArray) e2)
            (Ext_emit env st2 .EndArray)
      · rename_i item
        have hs : item.depth ≤ fuel := by
          simp only [Translator.depth] at hd
          omega
        obtain ⟨st2, chunks, h2, e2, q2⟩ := forEach_chunks env
          (fun s x => SerializeTranslator env fuel x item s)
          (fun _ c => IsValue c) (GetItems pointer)
          (fun x _ s => ihT x item s hs) (st.emit .StartArray)
        refine ⟨st2.emit .EndArray, .StartArray :: (chunks.flatten ++ [.EndArray]), ?_, ?_,
          IsValue_array (IsValues_flatten chunks
            (Forall2_right q2 (fun _ _ h => IsValues_of_value h)))⟩
        · simp only [h2]
        · simpa using Ext_trans env (Ext_trans env (Ext_emit env st .StartArray) e2)
            (Ext_emit env st2 .EndArray)
      · rename_i k v
        have hk : k.depth ≤ fuel := by
          simp only [Translator.depth] at hd
          omega
        have hv : v.depth ≤ fuel := by
          simp only [Translator.depth] at hd
          omega
        obtain ⟨st2, chunks, h2, e2, q2⟩ := forEach_chunks env
          (fun s kv =>
            match SerializeTranslator env fuel kv.1 k s with
            | none => none
            | some s1 => SerializeTranslator env fuel kv.2 v s1)
          (fun _ c => IsValues c) (GetEntries pointer)
          (fun kv _ s => by
            obtain ⟨s1, t1, h1, e1, v1⟩ := ihT kv.1 k s hk
            obtain ⟨s2, t2, h2, e2, v2⟩ := ihT kv.2 v s1 hv
            refine ⟨s2, t1 ++ t2, ?_, Ext_trans env e1 e2,
              IsValues_append (IsValues_of_value v1) (IsValues_of_value v2)⟩
            simp only [h1, h2])
          (st.emit .StartObject)
        refine ⟨st2.emit .EndObject, .StartObject :: (chunks.flatten ++ [.EndObject]), ?_, ?_,
          IsValue_object (IsValues_flatten chunks (Forall2_right q2 (fun _ _ h => h)))⟩
        · simp only [h2]
        · simpa using Ext_trans env (Ext_trans env (Ext_emit env st .StartObject) e2)
            (Ext_emit env st2 .EndObject)

theorem IsFieldChunk_heads {fields : List Field} {chunks : List (List Token)}
    (h : List.Forall₂ IsFieldChunk fields chunks) :
    chunks.map List.head? = fields.map (fun f => some (Token.String f.m_Name)) := by
  induction h with
  | nil => rfl
  | cons hq _ ih =>
    obtain ⟨v, rfl, _⟩ := hq
    simp [ih]

/-- C3. The array of fields `SerializeInstance` serializes is the concatenation of the
field lists of the inheritance chain, from the base-most type to the most-derived one, each
in declaration order, restricted to the fields whose `ShouldSerialize` holds for the
instance; it is a sublist of the flattened list, so a declared field is emitted at most
once and the filter changes no relative order. With fuel for the depth of the
structure, `SerializeInstance` returns, and what it emits is `StartObject`, then for each of
these fields in this order the field name followed by exactly one value, then
`EndObject`. -/
theorem C3_field_order (env : Env) (fuel : Nat) (inst : Val) (strct : Structure)
    (st : WriterState) (hfuel : strct.depth ≤ fuel) :
    collectFields inst strct =
        ((baseChain strct).flatMap Structure.m_Fields).filter (fun f => f.ShouldSerialize inst)
    ∧ List.Sublist (collectFields inst strct) ((baseChain strct).flatMap Structure.m_Fields)
    ∧ ∃ st1 chunks, SerializeInstance env fuel inst strct st = some st1
        ∧ st1.out = st.out ++ .StartObject :: (chunks.flatten ++ [.EndObject])
        ∧ List.Forall₂ IsFieldChunk
            (((baseChain strct).flatMap Structure.m_Fields).filter
              (fun f => f.ShouldSerialize inst)) chunks
        ∧ chunks.map List.head? =
            (((baseChain strct).flatMap Structure.m_Fields).filter
              (fun f => f.ShouldSerialize inst)).map (fun f => some (Token.String f.m_Name)) := by
  have hc := collectFields_eq inst strct
  unfold flattenedFields at hc
  obtain ⟨st1, chunks, h1, e1, q1⟩ := (Serialize_total env fuel).1 inst strct st hfuel
  refine ⟨hc, ?_, st1, chunks, h1, e1.1, ?_, ?_⟩
  · rw [hc]
    exact List.filter_sublist _
  · rw [← hc]
    exact q1
  · rw [← hc]
    exact IsFieldChunk_heads q1

/-- C3 at a concrete class: the derived class with base fields "a" and "b" (never
serialized) and own field "c" emits "a" and then "c". -/
theorem C3_field_order_witness :
    (collectFields demoDerivedInst demoDerived).map Field.m_Name = ["a", "c"]
    ∧ ∃ (st1 : WriterState) (chunks : List (List Token)),
        SerializeInstance (demoEnv [] (fun _ => none) (fun _ _ => false)) 3
          demoDerivedInst demoDerived WriterState.init = some st1
        ∧ st1.out = WriterState.init.out ++ .StartObject :: (chunks.flatten ++ [.EndObject])
        ∧ chunks.map List.head? = [some (.String "a"), some (.String "c")] :=
  ⟨(C3_field_order (demoEnv [] (fun _ => none) (fun _ _ => false)) 3 demoDerivedInst
      demoDerived WriterState.init (by decide)).1 ▸ rfl,
    (C3_field_order (demoEnv [] (fun _ => none) (fun _ _ => false)) 3 demoDerivedInst
      demoDerived WriterState.init (by decide)).2.2.elim
      (fun st1 h => h.elim (fun chunks h => ⟨st1, chunks, h.1, h.2.1, h.2.2.2⟩))⟩

/-! ## The writer's work queue -/

/-- Having a given list as its beginning is a property every `Print` keeps. -/
theorem PrintClosed_extends (env : Env) (base : List Object) :
    PrintClosed env (fun objects => ∃ more, objects = base ++ more) := by
  intro cls v objects h
  obtain ⟨m, rfl⟩ := h
  exact ⟨m ++ (env.Print cls v (base ++ m)).2, by rw [List.append_assoc]⟩

theorem WriteLoop_succ (env : Env) (depth steps index : Nat) (st : WriterState) :
    WriteLoop env depth (steps + 1) index st =
      match st.m_Objects.get? index with
      | none => some st
      | some object =>
        match SerializeInstance env depth object.inst object.cls
          ((st.emit .StartObject).emit (.String object.cls.m_Name)) with
        | none => none
        | some st2 =>
          WriteLoop env depth steps (index + 1)
            ((st2.emit .EndObject).Raise env .ObjectProcessed) := rfl

/-- The loop of `Write` from `index` on, for a session list that stays within `bound`
entries whose classes stay within `depth`: the loop returns when it has at least
`bound - index` iterations at its disposal, the list has only grown by appends of `Print`,
and the output has grown by one record per entry from `index` on, in list order. -/
theorem WriteLoop_spec (env : Env) (depth bound : Nat) (Inv : List Object → Prop)
    (hclosed : PrintClosed env Inv)
    (hbound : ∀ objects, Inv objects →
      objects.length ≤ bound ∧ ∀ o, o ∈ objects → o.cls.depth ≤ depth) :
    ∀ (steps index : Nat) (st : WriterState), Inv st.m_Objects →
      index ≤ st.m_Objects.length → bound ≤ index + steps →
      ∃ st1 recs, WriteLoop env depth steps index st = some st1
        ∧ st1.out = st.out ++ recs.flatten
        ∧ List.Forall₂ IsRecord (st1.m_Objects.drop index) recs
        ∧ (∀ P, PrintClosed env P → P st.m_Objects → P st1.m_Objects)
        ∧ st1.flushed = st.flushed := by
  intro steps
  induction steps with
  | zero =>
    intro index st hI hi hb
    have hlen := (hbound _ hI).1
    have heq : index = st.m_Objects.length := by omega
    refine ⟨st, [], ?_, by simp, ?_, fun _ _ h => h, rfl⟩
    · simp [WriteLoop, heq]
    · rw [heq, List.drop_length]
      exact List.Forall₂.nil
  | succ steps ih =>
    intro index st hI hi hb
    rw [WriteLoop_succ]
    cases hg : st.m_Objects.get? index with
    | none =>
      have hge : st.m_Objects.length ≤ index := List.get?_eq_none.1 hg
      have heq : index = st.m_Objects.length := by omega
      refine ⟨st, [], rfl, by simp, ?_, fun _ _ h => h, rfl⟩
      rw [heq, List.drop_length]
      exact List.Forall₂.nil
    | some object =>
      have hmem : object ∈ st.m_Objects := List.get?_mem hg
      have hlt : index < st.m_Objects.length := by
        rcases Nat.lt_or_ge index st.m_Objects.length with h | h
        · exact h
        · rw [List.get?_eq_none.2 h] at hg
          cases hg
      obtain ⟨st2, chunks, h2, e2, q2⟩ := (Serialize_total env depth).1 object.inst object.cls
        ((st.emit .StartObject).emit (.String object.cls.m_Name)) ((hbound _ hI).2 _ hmem)
      have hP : ∀ P, PrintClosed env P → P st.m_Objects →
          P ((st2.emit .EndObject).Raise env .ObjectProcessed).m_Objects :=
        fun P hPc h => e2.2.1 P hPc h
      obtain ⟨more, hmore⟩ : ∃ more,
          ((st2.emit .EndObject).Raise env .ObjectProcessed).m_Objects =
            st.m_Objects ++ more :=
        hP (fun objects => ∃ more, objects = st.m_Objects ++ more)
          (PrintClosed_extends env st.m_Objects)
          ⟨[], by simp⟩
      obtain ⟨st3, recs, h3, o3, q3, p3, f3⟩ := ih (index + 1)
        ((st2.emit .EndObject).Raise env .ObjectProcessed) (hP Inv hclosed hI)
        (by rw [hmore, List.length_append]; omega) (by omega)
      obtain ⟨more3, hmore3⟩ : ∃ more, st3.m_Objects = st.m_Objects ++ more :=
        p3 (fun objects => ∃ more, objects = st.m_Objects ++ more)
          (PrintClosed_extends env st.m_Objects)
          ⟨more, hmore⟩
      have hget3 : st3.m_Objects.get? index = some object := by
        rw [hmore3, List.get?_eq_getElem?, List.getElem?_append_left hlt,
          ← List.get?_eq_getElem?]
        exact hg
      have hdrop : st3.m_Objects.drop index = object :: st3.m_Objects.drop (index + 1) := by
        rw [List.get?_eq_getElem?] at hget3
        obtain ⟨hlt3, hval⟩ := List.getElem?_eq_some_iff.1 hget3
        rw [List.drop_eq_getElem_cons hlt3, hval]
      refine ⟨st3, (.StartObject :: .String object.cls.m_Name :: .StartObject ::
          (chunks.flatten ++ [.EndObject, .EndObject])) :: recs, ?_, ?_, ?_, ?_, ?_⟩
      · simp only [h2]
        exact h3
      · rw [o3]
        have : ((st2.emit .EndObject).Raise env .ObjectProcessed).out =
            st2.out ++ [.EndObject] := rfl
        rw [this, e2.1]
        simp [WriterState.emit]
      · rw [hdrop]
        exact List.Forall₂.cons ⟨chunks, rfl, q2⟩ q3
      · exact fun P hPc h => p3 P hPc (hP P hPc h)
      · rw [f3]
        exact e2.2.2.2

theorem identifyAll_append (env : Env) (a b : List (ScalarClass × Val))
    (objects : List Object) :
    identifyAll env (a ++ b) objects = identifyAll env b (identifyAll env a objects) := by
  simp [identifyAll, List.foldl_append]

theorem identifyAll_begins (env : Env) (refs : List (ScalarClass × Val)) :
    ∀ objects : List Object, objects <+: identifyAll env refs objects := by
  induction refs with
  | nil => intro objects; exact List.prefix_refl _
  | cons r rs ih =>
    intro objects
    exact List.IsPrefix.trans (List.prefix_append _ _) (ih _)

theorem specWorkQueue_succ (env : Env) (depth steps index : Nat) (objects : List Object) :
    specWorkQueue env depth (steps + 1) index objects =
      match objects.get? index with
      | none => objects
      | some object =>
        specWorkQueue env depth steps (index + 1)
          (identifyAll env (referencesOfInstance depth object.inst object.cls) objects) := rfl

theorem specWorkQueue_begins (env : Env) (depth : Nat) :
    ∀ (steps index : Nat) (objects : List Object),
      objects <+: specWorkQueue env depth steps index objects := by
  intro steps
  induction steps with
  | zero => intro index objects; exact List.prefix_refl _
  | succ steps ih =>
    intro index objects
    rw [specWorkQueue_succ]
    cases objects.get? index with
    | none => exact List.prefix_refl _
    | some object => exact List.IsPrefix.trans (identifyAll_begins env _ _) (ih _ _)

/-- The queue after fewer steps is a beginning of the queue after more steps. -/
theorem specWorkQueue_mono (env : Env) (depth : Nat) :
    ∀ (k index : Nat) (objects : List Object),
      specWorkQueue env depth k index objects <+:
        specWorkQueue env depth (k + 1) index objects := by
  intro k
  induction k with
  | zero => intro index objects; exact specWorkQueue_begins env depth 1 index objects
  | succ k ih =>
    intro index objects
    rw [specWorkQueue_succ env depth k, specWorkQueue_succ env depth (k + 1)]
    cases objects.get? index with
    | none => exact List.prefix_refl _
    | some object => exact ih _ _

theorem specWorkQueue_mono_le (env : Env) (depth index : Nat) (objects : List Object) :
    ∀ (n k : Nat), k ≤ n →
      specWorkQueue env depth k index objects <+: specWorkQueue env depth n index objects := by
  intro n
  induction n with
  | zero =>
    intro k hk
    rw [Nat.le_zero.1 hk]
  | succ n ih =>
    intro k hk
    rcases Nat.lt_or_ge k (n + 1) with h | h
    · exact List.IsPrefix.trans (ih k (by omega)) (specWorkQueue_mono env depth n index objects)
    · rw [show k = n + 1 by omega]

/-- A loop of the writer whose body changes the session list as the identification of the
references of the element does changes it as the identification of all of them does. -/
theorem forEach_objects {α : Type} (env : Env) (body : WriterState → α → Option WriterState)
    (g : α → List (ScalarClass × Val)) (xs : List α)
    (hbody : ∀ x, x ∈ xs → ∀ st st1, body st x = some st1 →
      st1.m_Objects = identifyAll env (g x) st.m_Objects) :
    ∀ st st1, forEach body xs st = some st1 →
      st1.m_Objects = identifyAll env (xs.flatMap g) st.m_Objects := by
  induction xs with
  | nil =>
    intro st st1 h
    cases h
    rfl
  | cons x xs ih =>
    intro st st1 h
    simp only [forEach] at h
    cases hb : body st x with
    | none => rw [hb] at h; cases h
    | some s1 =>
      rw [hb] at h
      rw [List.flatMap_cons, identifyAll_append,
        ← hbody x (List.mem_cons_self x xs) st s1 hb]
      exact ih (fun y hy => hbody y (List.mem_cons_of_mem x hy)) s1 st1 h

theorem SerializeScalar_objects (env : Env) (cls : ScalarClass) (type : ScalarType)
    (pointer : Val) (st : WriterState) :
    (SerializeScalar env cls type pointer st).m_Objects =
      identifyAll env (referencesOfTranslator 1 pointer (.scalar cls type)) st.m_Objects := by
  cases type <;> rfl

/-- What the three routines of the writer do to the session list: they change it as the
identification, in traversal order, of the references reached does. -/
theorem Serialize_objects (env : Env) : ∀ fuel : Nat,
    (∀ inst strct st st1, SerializeInstance env fuel inst strct st = some st1 →
      st1.m_Objects = identifyAll env (referencesOfInstance fuel inst strct) st.m_Objects)
    ∧ (∀ inst (field : Field) st st1, SerializeField env fuel inst field st = some st1 →
      st1.m_Objects = identifyAll env (referencesOfField fuel inst field) st.m_Objects)
    ∧ (∀ pointer (translator : Translator) st st1,
      SerializeTranslator env fuel pointer translator st = some st1 →
      st1.m_Objects =
        identifyAll env (referencesOfTranslator fuel pointer translator) st.m_Objects) := by
  intro fuel
  induction fuel with
  | zero =>
    refine ⟨fun _ _ _ _ h => ?_, fun _ _ _ _ h => ?_, fun _ _ _ _ h => ?_⟩
    · cases h
    · cases h
    · cases h
  | succ fuel ih =>
    obtain ⟨ihI, ihF, ihT⟩ := ih
    refine ⟨?_, ?_, ?_⟩
    · intro inst strct st st1 h
      rw [SerializeInstance_succ] at h
      cases h2 : forEach (fun s field =>
          match SerializeField env fuel inst field
            (s.hook (.PreSerialize (some field.m_Name))) with
          | none => none
          | some s1 => some (s1.hook (.PostSerialize (some field.m_Name))))
          (collectFields inst strct) ((st.emit .StartObject).hook (.PreSerialize none)) with
      | none => rw [h2] at h; cases h
      | some st2 =>
        rw [h2] at h
        cases h
        exact forEach_objects env _ (fun field => referencesOfField fuel inst field)
          (collectFields inst strct)
          (fun f _ s s1 hb => by
            have hb2 : (match SerializeField env fuel inst f
                (s.hook (.PreSerialize (some f.m_Name))) with
              | none => none
              | some s1 => some (s1.hook (.PostSerialize (some f.m_Name)))) = some s1 := hb
            cases hf : SerializeField env fuel inst f
                (s.hook (.PreSerialize (some f.m_Name))) with
            | none => rw [hf] at hb2; cases hb2
            | some s2 =>
              rw [hf] at hb2
              cases hb2
              exact ihF inst f (s.hook (.PreSerialize (some f.m_Name))) s2 hf)
          ((st.emit .StartObject).hook (.PreSerialize none)) st2 h2
    · intro inst field st st1 h
      rw [SerializeField_succ] at h
      by_cases hc : field.m_Count > 1
      · rw [if_pos hc] at h
        cases h2 : forEach (fun s i => SerializeTranslator env fuel (Pointer field inst i)
            field.m_Translator s) (List.range field.m_Count)
            ((st.emit (.String field.m_Name)).emit .StartArray) with
        | none => rw [h2] at h; cases h
        | some st2 =>
          rw [h2] at h
          cases h
          have := forEach_objects env _
            (fun i => referencesOfTranslator fuel (Pointer field inst i) field.m_Translator)
            (List.range field.m_Count)
            (fun i _ s s1 hb => ihT _ _ s s1 hb)
            ((st.emit (.String field.m_Name)).emit .StartArray) st2 h2
          simpa [referencesOfField, hc] using this
      · rw [if_neg hc] at h
        have := ihT _ _ _ st1 h
        simpa [referencesOfField, hc] using this
    · intro pointer translator st st1 h
      rw [SerializeTranslator_succ] at h
      cases translator
      · rename_i cls type
        cases h
        have := SerializeScalar_objects env cls type pointer st
        cases type <;> exact this
      · rename_i s
        exact ihI pointer s st st1 h
      · rename_i item
        cases h2 : forEach (fun s x => SerializeTranslator env fuel x item s)
            (GetItems pointer) (st.emit .StartArray) with
        | none => simp only [h2] at h; cases h
        | some st2 =>
          simp only [h2] at h
          cases h
          exact forEach_objects env _ (fun x => referencesOfTranslator fuel x item)
            (GetItems pointer) (fun x _ s s1 hb => ihT x item s s1 hb)
            (st.emit .StartArray) st2 h2
      · rename_i item
        cases h2 : forEach (fun s x => SerializeTranslator env fuel x item s)
            (GetItems pointer) (st.emit .StartArray) with
        | none => simp only [h2] at h; cases h
        | some st2 =>
          simp only [h2] at h
          cases h
          exact forEach_objects env _ (fun x => referencesOfTranslator fuel x item)
            (GetItems pointer) (fun x _ s s1 hb => ihT x item s s1 hb)
            (st.emit .StartArray) st2 h2
      · rename_i k v
        cases h2 : forEach (fun s (kv : Val × Val) =>
            match SerializeTranslator env fuel kv.1 k s with
            | none => none
            | some s1 => SerializeTranslator env fuel kv.2 v s1)
            (GetEntries pointer) (st.emit .StartObject) with
        | none => simp only [h2] at h; cases h
        | some st2 =>
          simp only [h2] at h
          cases h
          exact forEach_objects env _
            (fun kv => referencesOfTranslator fuel kv.1 k ++ referencesOfTranslator fuel kv.2 v)
            (GetEntries pointer)
            (fun x _ s s1 hb => by
              have hb2 : (match SerializeTranslator env fuel x.1 k s with
                | none => none
                | some s1 => SerializeTranslator env fuel x.2 v s1) = some s1 := hb
              cases hk : SerializeTranslator env fuel x.1 k s with
              | none => rw [hk] at hb2; cases hb2
              | some s2 =>
                rw [hk] at hb2
                rw [identifyAll_append, ← ihT x.1 k s s2 hk]
                exact ihT x.2 v s2 s1 hb2)
            (st.emit .StartObject) st2 h2

/-- The loop of `Write` leaves the session list the work queue of the specification gives. -/
theorem WriteLoop_objects (env : Env) (depth : Nat) :
    ∀ (steps index : Nat) (st st1 : WriterState),
      WriteLoop env depth steps index st = some st1 →
      st1.m_Objects = specWorkQueue env depth steps index st.m_Objects := by
  intro steps
  induction steps with
  | zero =>
    intro index st st1 h
    simp only [WriteLoop] at h
    split at h
    · cases h
    · cases h
      rfl
  | succ steps ih =>
    intro index st st1 h
    rw [WriteLoop_succ] at h
    rw [specWorkQueue_succ]
    cases hg : st.m_Objects.get? index with
    | none =>
      rw [hg] at h
      cases h
      rfl
    | some object =>
      rw [hg] at h
      cases h2 : SerializeInstance env depth object.inst object.cls
          ((st.emit .StartObject).emit (.String object.cls.m_Name)) with
      | none => simp only [h2] at h; cases h
      | some st2 =>
        simp only [h2] at h
        have h3 := ih (index + 1) _ st1 h
        rw [h3]
        have h4 := (Serialize_objects env depth).1 object.inst object.cls _ st2 h2
        show specWorkQueue env depth steps (index + 1) st2.m_Objects = _
        rw [h4]
        rfl

/-- The session list `Write` ends with is the work queue of the specification, started
with the root alone. -/
theorem Write_objects (env : Env) (steps depth : Nat) (root : Object) (st : WriterState)
    (h : Write env steps depth root = some st) :
    st.m_Objects = specWorkQueue env depth steps 0 [root] := by
  unfold Write at h
  dsimp only at h
  cases h2 : WriteLoop env depth steps 0
      (({ WriterState.init.Raise env .Starting with
        m_Objects := (WriterState.init.Raise env .Starting).m_Objects ++ [root] }).emit
          .StartArray) with
  | none => rw [h2] at h; cases h
  | some st2 =>
    rw [h2] at h
    cases h
    exact WriteLoop_objects env depth steps 0 _ st2 h2

theorem Forall2_left {α β : Type} {Q : α → β → Prop} {xs : List α} {ys : List β}
    (h : List.Forall₂ Q xs ys) : ∀ x, x ∈ xs → ∃ y, y ∈ ys ∧ Q x y := by
  induction h with
  | nil => intro x hx; cases hx
  | @cons a b as bs hq _ ih =>
    intro x hx
    rcases List.mem_cons.1 hx with rfl | hx
    · exact ⟨b, List.mem_cons_self b bs, hq⟩
    · obtain ⟨y, hy, q⟩ := ih x hx
      exact ⟨y, List.mem_cons_of_mem b hy, q⟩

/-- C2. Let the identify behaviour (`Print`, through which `Identify` appends to the session
list) keep the list within `steps` entries of classes within `depth`, in the sense that
some property `Inv` of the list holds for the list holding the root alone, is kept by every
append of `Print`, and implies these bounds. Then `Write` returns; the final list starts
with the root and arises from it by appends of `Print` only; and the output is
`StartArray`, then exactly one record per entry of the final list, in list order, then
`EndArray`. The final list is exactly the work queue of the specification started with the
root alone: every object the identify behaviour appends while an entry is serialized is in
it. The queue as it stands after any number of entries walked is a beginning of the final
list, so no entry is ever removed, and every entry of the queue at any stage, the ones
appended during the traversal included, has its record in the output. -/
theorem C2_writer_work_queue (env : Env) (steps depth : Nat) (root : Object)
    (Inv : List Object → Prop) (hroot : Inv [root]) (hclosed : PrintClosed env Inv)
    (hbound : ∀ objects, Inv objects →
      objects.length ≤ steps ∧ ∀ o, o ∈ objects → o.cls.depth ≤ depth) :
    ∃ st recs more, Write env steps depth root = some st
      ∧ st.m_Objects = root :: more
      ∧ (∀ P, PrintClosed env P → P [root] → P st.m_Objects)
      ∧ st.out = .StartArray :: (recs.flatten ++ [.EndArray])
      ∧ List.Forall₂ IsRecord st.m_Objects recs
      ∧ recs.length = st.m_Objects.length
      ∧ st.m_Objects = specWorkQueue env depth steps 0 [root]
      ∧ (∀ k, k ≤ steps → specWorkQueue env depth k 0 [root] <+: st.m_Objects)
      ∧ (∀ k, k ≤ steps → ∀ o, o ∈ specWorkQueue env depth k 0 [root] →
          ∃ r, r ∈ recs ∧ IsRecord o r) := by
  obtain ⟨st1, recs, h1, o1, q1, p1, _⟩ := WriteLoop_spec env depth steps Inv hclosed hbound
    steps 0 (({ WriterState.init.Raise env .Starting with
      m_Objects := (WriterState.init.Raise env .Starting).m_Objects ++ [root] }).emit
        .StartArray)
    hroot (Nat.zero_le _) (by omega)
  obtain ⟨more, hmore⟩ : ∃ more, st1.m_Objects = [root] ++ more :=
    p1 (fun objects => ∃ more, objects = [root] ++ more)
      (PrintClosed_extends env [root])
      ⟨[], rfl⟩
  have hw : Write env steps depth root =
      some ({ (st1.emit .EndArray).Raise env .ObjectProcessed with flushed := true }.Raise env
        .Complete) := by
    simp only [Write, h1]
  have hq : st1.m_Objects = specWorkQueue env depth steps 0 [root] :=
    Write_objects env steps depth root
      ({ (st1.emit .EndArray).Raise env .ObjectProcessed with flushed := true }.Raise env
        .Complete) hw
  have hpre : ∀ k, k ≤ steps → specWorkQueue env depth k 0 [root] <+: st1.m_Objects := by
    intro k hk
    rw [hq]
    exact specWorkQueue_mono_le env depth 0 [root] steps k hk
  refine ⟨{ (st1.emit .EndArray).Raise env .ObjectProcessed with flushed := true }.Raise env
    .Complete, recs, more, hw, hmore, ?_, ?_, q1, (List.Forall₂.length_eq q1).symm, hq, hpre,
    ?_⟩
  · exact fun P hP h => p1 P hP h
  · change st1.out ++ [.EndArray] = _
    rw [o1]
    simp [WriterState.emit, WriterState.Raise, WriterState.init]
  · intro k hk o ho
    exact Forall2_left q1 o ((hpre k hk).subset ho)

/-- C2 at a concrete graph: the root `demoA` refers to `demoB`, which `Print` appends to the
session list while the root is serialized; `Write` emits the record of the root and then the
record of the appended object, and the final list holds both, as the work queue of the
specification does. -/
theorem C2_writer_work_queue_witness :
    (Write (demoEnv [] demoHeap (fun _ _ => false)) 2 3 demoA).map (fun st => st.out) =
      some [.StartArray,
        .StartObject, .String "A", .StartObject, .String "b", .String "0", .EndObject,
        .EndObject,
        .StartObject, .String "B", .StartObject, .String "x", .Uint 5, .EndObject,
        .EndObject,
        .EndArray]
    ∧ (Write (demoEnv [] demoHeap (fun _ _ => false)) 2 3 demoA).map
        (fun st => st.m_Objects.map (fun o => o.addr)) = some [1, 2]
    ∧ (specWorkQueue (demoEnv [] demoHeap (fun _ _ => false)) 3 2 0 [demoA]).map
        (fun o => o.addr) = [demoA.addr, demoB.addr]
    ∧ ∃ st recs more, Write (demoEnv [] demoHeap (fun _ _ => false)) 2 3 demoA = some st
      ∧ st.m_Objects = demoA :: more
      ∧ (∀ P, PrintClosed (demoEnv [] demoHeap (fun _ _ => false)) P → P [demoA] →
          P st.m_Objects)
      ∧ st.out = .StartArray :: (recs.flatten ++ [.EndArray])
      ∧ List.Forall₂ IsRecord st.m_Objects recs
      ∧ recs.length = st.m_Objects.length
      ∧ st.m_Objects = specWorkQueue (demoEnv [] demoHeap (fun _ _ => false)) 3 2 0 [demoA]
      ∧ (∀ k, k ≤ 2 → specWorkQueue (demoEnv [] demoHeap (fun _ _ => false)) 3 k 0 [demoA]
          <+: st.m_Objects)
      ∧ (∀ k, k ≤ 2 → ∀ o,
          o ∈ specWorkQueue (demoEnv [] demoHeap (fun _ _ => false)) 3 k 0 [demoA] →
          ∃ r, r ∈ recs ∧ IsRecord o r) :=
  ⟨by decide, by decide, by decide,
    C2_writer_work_queue (demoEnv [] demoHeap (fun _ _ => false)) 2 3 demoA
      (fun objects => objects = [demoA] ∨ objects = [demoA, demoB]) (Or.inl rfl)
      (by
        intro cls v objects h
        rcases h with rfl | rfl
        · cases v
          case ref cell c =>
            by_cases hc : cell = 0
            · subst hc
              right
              rfl
            · left
              simp [demoEnv, demoPrint, demoHeap, hc]
          all_goals
            left
            rfl
        · cases v
          case ref cell c =>
            by_cases hc : cell = 0
            · subst hc
              right
              rfl
            · right
              simp [demoEnv, demoPrint, demoHeap, hc]
          all_goals
            right
            rfl)
      (by
        intro objects h
        rcases h with rfl | rfl
        · exact ⟨by decide, fun o ho => by
            rw [List.mem_singleton.1 ho]
            decide⟩
        · exact ⟨by decide, fun o ho => by
            rcases List.mem_cons.1 ho with rfl | ho
            · decide
            · rw [List.mem_singleton.1 ho]
              decide⟩)⟩

/-! ## Cancellation on write -/

/-- C8, the code at the failing input: the listeners set the abort flag in the
`ObjectProcessed` status raised after the object at index 0 (the root `demoA`), and `Write`
goes on to serialize the object at index 1 (`demoB`). `Write` raises one status object
throughout, so the flag stays set in every status raised afterwards; it is never read,
and the output is the one of a session in which no listener sets the flag. -/
theorem C8_write_ignores_abort :
    (Write (demoEnv [] demoHeap (fun n _ => n == 1)) 2 3 demoA).map
        (fun st => (st.status, st.out)) =
      some ([⟨.Starting, false⟩, ⟨.ObjectProcessed, true⟩, ⟨.ObjectProcessed, true⟩,
          ⟨.ObjectProcessed, true⟩, ⟨.Complete, true⟩],
        [.StartArray,
          .StartObject, .String "A", .StartObject, .String "b", .String "0", .EndObject,
          .EndObject,
          .StartObject, .String "B", .StartObject, .String "x", .Uint 5, .EndObject,
          .EndObject,
          .EndArray])
    ∧ (Write (demoEnv [] demoHeap (fun n _ => n == 1)) 2 3 demoA).map (fun st => st.out) =
      (Write (demoEnv [] demoHeap (fun _ _ => false)) 2 3 demoA).map (fun st => st.out) :=
  ⟨by decide, by decide⟩

/-! ## Round trip -/

/-- C1, the code at the failing input: for an object with an Association field whose key
translator is numeric, `Write` emits the key 1 as a number in the place of a member name;
the text is not JSON, and `Read` of what `Write` produced fails with the parse failure and
hands back no object. The reader misses the case as well: given the member name "1" as the
string JSON requires, it leaves the key variable at its default 0, because a string value
is stored only through a String translator. -/
theorem C1_numeric_keys_do_not_round_trip :
    (Write (demoEnv [demoMapClass] (fun _ => none) (fun _ _ => false)) 1 4 demoMap).map
        (fun st => st.out) =
      some [.StartArray, .StartObject, .String "M", .StartObject, .String "m",
        .StartObject, .Uint 1, .Uint 2, .EndObject, .EndObject, .EndObject, .EndArray]
    ∧ (Read (demoEnv [demoMapClass] (fun _ => none) (fun _ _ => false)) "a.json"
        (streamOf [.StartArray, .StartObject, .String "M", .StartObject, .String "m",
          .StartObject, .Uint 1, .Uint 2, .EndObject, .EndObject, .EndObject, .EndArray])
        none (ReaderState.init 0)).2 =
      .error (.Exception "Error parsing JSON: not a JSON text")
    ∧ (DeserializeTranslator (demoEnv [demoMapClass] (fun _ => none) (fun _ _ => false))
        (.object [(.string "1", .number (.int 2))]) (.assoc [])
        (.association (.scalar .ScalarTranslator .Unsigned32)
          (.scalar .ScalarTranslator .Unsigned32)) (ReaderState.init 0)).1 =
      .assoc [(.int 0, .int 2)] :=
  ⟨by decide, rfl, rfl⟩

/-! ## Category mismatch on read -/

/-- C17. For a wire value and a translator whose kinds do not match, `DeserializeTranslator`
returns the contents of the location and the session state it was given: the location is
unchanged, no fixup is recorded (nor any hook called or string parsed), and the routine
returns normally. -/
theorem C17_category_mismatch_is_a_no_op (env : Env) (value : Value) (pointer : Val)
    (translator : Translator) (st : ReaderState)
    (h : kindsMismatch value translator = true) :
    DeserializeTranslator env value pointer translator st = (pointer, st) := by
  cases value with
  | null => rfl
  | bool b =>
    cases translator
    · rename_i cls type
      cases cls <;> cases type <;> first | rfl | exact absurd (show false = true from h) (by decide)
    all_goals rfl
  | number n =>
    cases translator
    · rename_i cls type
      cases cls <;> cases type <;> first | rfl | exact absurd (show false = true from h) (by decide)
    all_goals rfl
  | string str =>
    cases translator
    · rename_i cls type
      cases cls <;> cases type <;> first | rfl | exact absurd (show false = true from h) (by decide)
    all_goals rfl
  | array xs =>
    cases translator
    case set => exact absurd (show false = true from h) (by decide)
    case sequence => exact absurd (show false = true from h) (by decide)
    all_goals rfl
  | object ms =>
    cases translator
    · rfl
    · exact absurd (show false = true from h) (by decide)
    · rfl
    · rfl
    · exact absurd (show false = true from h) (by decide)

/-- C17 at concrete inputs: a string for an unsigned 8-bit scalar, and an object for a
Set, leave location and session as they were. -/
theorem C17_category_mismatch_is_a_no_op_witness :
    DeserializeTranslator (demoEnv [] (fun _ => none) (fun _ _ => false)) (.string "7")
        (.int 3) (.scalar .ScalarTranslator .Unsigned8) (ReaderState.init 0) =
      (.int 3, ReaderState.init 0)
    ∧ DeserializeTranslator (demoEnv [] (fun _ => none) (fun _ _ => false))
        (.object [(.string "a", .number (.int 1))])
        (.set [.int 3]) (.set (.scalar .ScalarTranslator .Unsigned8)) (ReaderState.init 0) =
      (.set [.int 3], ReaderState.init 0) :=
  ⟨C17_category_mismatch_is_a_no_op _ (.string "7") (.int 3)
      (.scalar .ScalarTranslator .Unsigned8) (ReaderState.init 0) rfl,
    C17_category_mismatch_is_a_no_op _ (.object [(.string "a", .number (.int 1))])
      (.set [.int 3]) (.set (.scalar .ScalarTranslator .Unsigned8)) (ReaderState.init 0) rfl⟩

/-! ## The notify flag -/

theorem lor_Notify_ne_zero (flags : Nat) : ((flags ||| ArchiveFlags.Notify) != 0) = true := by
  have h : (flags ||| 1) ≠ 0 := by
    intro h
    have h2 := congrArg (fun x => Nat.testBit x 0) h
    simp [Nat.testBit_or] at h2
  simpa [ArchiveFlags.Notify] using h

theorem Parse_parses (env : Env) (cls : ScalarClass) (str : String) (pointer : Val)
    (notify : Bool) (st : ReaderState) :
    (Parse env cls str pointer notify st).2.parses = st.parses ++ [(str, notify)] := by
  unfold Parse ArchiveReader.Resolve
  split
  · dsimp only
    split <;> (split <;> rfl)
  · rfl

/-- C16, the code at the failing inputs: the notify argument is computed as
`m_Flags | ArchiveFlags::Notify ? true : false`, which is true whatever the flags are. A
string parsed into a string-typed scalar is handed to `Parse` with notify true for every
session, in particular with the flags 0, with `StringCrc` alone and with `SparseArray`
alone, where the Notify bit is not set. -/
theorem C16_notify_is_requested_whatever_the_flags (env : Env) (cls : ScalarClass)
    (str : String) (pointer : Val) (st : ReaderState) :
    (DeserializeTranslator env (.string str) pointer (.scalar cls .String) st).2.parses =
        st.parses ++ [(str, true)]
    ∧ (DeserializeTranslator env (.string str) pointer (.scalar cls .String)
        (ReaderState.init 0)).2.parses = [(str, true)]
    ∧ (DeserializeTranslator env (.string str) pointer (.scalar cls .String)
        (ReaderState.init ArchiveFlags.StringCrc)).2.parses = [(str, true)]
    ∧ (DeserializeTranslator env (.string str) pointer (.scalar cls .String)
        (ReaderState.init ArchiveFlags.SparseArray)).2.parses = [(str, true)]
    ∧ 0 &&& ArchiveFlags.Notify = 0
    ∧ ArchiveFlags.StringCrc &&& ArchiveFlags.Notify = 0
    ∧ ArchiveFlags.SparseArray &&& ArchiveFlags.Notify = 0 := by
  have h : ∀ s : ReaderState,
      (DeserializeTranslator env (.string str) pointer (.scalar cls .String) s).2.parses =
        s.parses ++ [(str, true)] := by
    intro s
    have hd : DeserializeTranslator env (.string str) pointer (.scalar cls .String) s =
        Parse env cls str pointer ((s.m_Flags ||| ArchiveFlags.Notify) != 0) s := by
      cases cls <;> rfl
    rw [hd, Parse_parses, lor_Notify_ne_zero]
  exact ⟨h st, h _, h _, h _, by decide, by decide, by decide⟩

/-! ## Access to the result -/

/-- C18, the code at the failing inputs: for a text that parses to an empty array, and for
a text that parses to a value that is no array (here an empty object), the loop over the
records pushes nothing, and `Read` takes the first element of an empty object list: the
access is outside the array. -/
theorem C18_GetFirst_on_an_empty_list (env : Env) (path : String) (object : Option Object)
    (flags : Nat) :
    (Read env path { size := 2, parse := .ok (.array []) } object
        (ReaderState.init flags)).1.m_Objects = []
    ∧ (Read env path { size := 2, parse := .ok (.array []) } object
        (ReaderState.init flags)).2 = .error (.Fault "GetFirst on an empty array")
    ∧ (Read env path { size := 2, parse := .ok (.object []) } object
        (ReaderState.init flags)).1.m_Objects = []
    ∧ (Read env path { size := 2, parse := .ok (.object []) } object
        (ReaderState.init flags)).2 = .error (.Fault "GetFirst on an empty array") := by
  have h1 := Read_of_parsed env path { size := 2, parse := .ok (.array []) } object
    (ReaderState.init flags) (.array []) (by decide) rfl
  have h2 := Read_of_parsed env path { size := 2, parse := .ok (.object []) } object
    (ReaderState.init flags) (.object []) (by decide) rfl
  rw [h1, h2]
  refine ⟨?_, rfl, ?_, rfl⟩
  · exact (Resolve_session env _).1
  · exact (Resolve_session env _).1

/-! ## Pre-supplied destination -/

set_option maxRecDepth 100000 in
theorem tagClasses_table : ∀ b, b < 256 →
    (TagClass.FixNumPositive.has b = true ↔ b ≤ 0x7F)
    ∧ (TagClass.FixNumNegative.has b = true ↔ 0xE0 ≤ b)
    ∧ (TagClass.FixRaw.has b = true ↔ 0xA0 ≤ b ∧ b ≤ 0xBF)
    ∧ (TagClass.FixArray.has b = true ↔ 0x90 ≤ b ∧ b ≤ 0x9F)
    ∧ (TagClass.FixMap.has b = true ↔ 0x80 ≤ b ∧ b ≤ 0x8F)
    ∧ (tagClasses b).length ≤ 1
    ∧ (b ∈ singleTags → tagClasses b = []) := by
  decide

set_option maxRecDepth 100000 in
theorem tagClasses_compose : ∀ c : TagClass, ∀ v, v < 128 → v ≤ c.valueMask →
    (c.tag ||| v) &&& c.valueMask = v ∧ tagClasses (c.tag ||| v) = [c] := by
  intro c
  cases c <;> decide

theorem valueMask_lt (c : TagClass) : c.valueMask < 128 := by
  cases c <;> decide

/-- C15: over the tag and mask constants of the header, the masks classify a byte b into
the ranges 0x00-0x7F (positive fixint), 0xE0-0xFF (negative fixint), 0xA0-0xBF (short
string), 0x90-0x9F (short array) and 0x80-0x8F (short map); a byte is in at most one class
and a single-valued tag is in none, and the single-valued tags differ from one another;
composing the tag of a class with an inline value v
that fits the value mask gives a byte of that class only, from which the value mask gives
v back. The integer 100 is the byte 0x64, -1 is the byte 0xFF, a length of 17 gives the
short-string tag 0xB1, and a count of 20 does not fit the short-array count mask, so it
takes the tag 0xDC with the two bytes 0x00 0x14. -/
theorem C15_binary_tag_grammar (b v : Nat) (c : TagClass) (hb : b < 256)
    (hv : v ≤ c.valueMask) :
    ((TagClass.FixNumPositive.has b = true ↔ b ≤ 0x7F)
      ∧ (TagClass.FixNumNegative.has b = true ↔ 0xE0 ≤ b)
      ∧ (TagClass.FixRaw.has b = true ↔ 0xA0 ≤ b ∧ b ≤ 0xBF)
      ∧ (TagClass.FixArray.has b = true ↔ 0x90 ≤ b ∧ b ≤ 0x9F)
      ∧ (TagClass.FixMap.has b = true ↔ 0x80 ≤ b ∧ b ≤ 0x8F)
      ∧ (tagClasses b).length ≤ 1
      ∧ (b ∈ singleTags → tagClasses b = []))
    ∧ ((c.tag ||| v) &&& c.valueMask = v ∧ tagClasses (c.tag ||| v) = [c])
    ∧ (singleTags = [0xC0, 0xC2, 0xC3, 0xCA, 0xCB, 0xCC, 0xCD, 0xCE, 0xCF, 0xD0, 0xD1, 0xD2,
        0xD3, 0xDA, 0xDB, 0xDC, 0xDD, 0xDE, 0xDF] ∧ singleTags.Nodup)
    ∧ (byteOfInt8 100 = 0x64 ∧ MessagePackTypes.FixNumPositive ||| 100 = 0x64
        ∧ tagClasses 0x64 = [.FixNumPositive])
    ∧ (byteOfInt8 (-1) = 0xFF ∧ MessagePackTypes.FixNumNegative ||| 0x1F = 0xFF
        ∧ tagClasses 0xFF = [.FixNumNegative])
    ∧ (17 ≤ MessagePackMasks.FixRawCount ∧ MessagePackTypes.FixRaw ||| 17 = 0xB1)
    ∧ (¬ 20 ≤ MessagePackMasks.FixArrayCount ∧ MessagePackTypes.Array16 = 0xDC
        ∧ bigEndian16 20 = [0x00, 0x14]) :=
  ⟨tagClasses_table b hb,
   tagClasses_compose c v (Nat.lt_of_le_of_lt hv (valueMask_lt c)) hv,
   by decide, by decide, by decide, by decide, by decide⟩

theorem C15_binary_tag_grammar_witness :
    0xB1 < 256 ∧ 17 ≤ TagClass.FixRaw.valueMask
    ∧ (TagClass.FixRaw.has 0xB1 = true ↔ 0xA0 ≤ 0xB1 ∧ 0xB1 ≤ 0xBF)
    ∧ (TagClass.FixRaw.tag ||| 17) &&& TagClass.FixRaw.valueMask = 17
    ∧ tagClasses (TagClass.FixRaw.tag ||| 17) = [.FixRaw] :=
  ⟨by decide, by decide,
   (C15_binary_tag_grammar 0xB1 17 .FixRaw (by decide) (by decide)).1.2.2.1,
   (C15_binary_tag_grammar 0xB1 17 .FixRaw (by decide) (by decide)).2.1.1,
   (C15_binary_tag_grammar 0xB1 17 .FixRaw (by decide) (by decide)).2.1.2⟩

/-! ## Fixed-count fields on write -/

theorem forEach_emits {α : Type} (body : WriterState → α → Option WriterState)
    (xs : List α)
    (hbody : ∀ x, x ∈ xs → ∀ st, ∃ st1 v, body st x = some st1 ∧ st1.out = st.out ++ v
      ∧ IsValue v) :
    ∀ st, ∃ st1 chunks, forEach body xs st = some st1 ∧ Emits body xs st st1 chunks
      ∧ st1.out = st.out ++ chunks.flatten ∧ chunks.length = xs.length := by
  induction xs with
  | nil =>
    intro st
    exact ⟨st, [], rfl, Emits.nil st, by simp, rfl⟩
  | cons x xs ih =>
    intro st
    obtain ⟨s1, v, h1, o1, v1⟩ := hbody x (List.mem_cons_self x xs) st
    obtain ⟨st1, chunks, h2, e2, o2, l2⟩ :=
      ih (fun y hy => hbody y (List.mem_cons_of_mem x hy)) s1
    refine ⟨st1, v :: chunks, ?_, Emits.cons h1 o1 v1 e2, ?_, by simp [l2]⟩
    · simp only [forEach, h1, h2]
    · rw [o2, o1]
      simp

/-- C14: with fuel for the depth of the field, `SerializeField` returns. For a field with
element count n > 1 it emits the field name, `StartArray`, n chunks and `EndArray`, where
the chunks are what `SerializeTranslator` emits for the locations at the indices
0, 1, .., n-1 in this order, each run starting in the state the run before it left, and
each chunk is exactly one value. For a field with count 1 it emits the field name and then
what `SerializeTranslator` emits for the location at index 0, exactly one value, with no
array around it. -/
theorem C14_fixed_count_fields (env : Env) (fuel : Nat) (inst : Val) (field : Field)
    (st : WriterState) (hfuel : field.depth ≤ fuel + 1) :
    (1 < field.m_Count →
      ∃ st2 chunks,
        SerializeField env (fuel + 1) inst field st = some (st2.emit .EndArray)
        ∧ Emits (fun s i => SerializeTranslator env fuel (Pointer field inst i)
            field.m_Translator s) (List.range field.m_Count)
            ((st.emit (.String field.m_Name)).emit .StartArray) st2 chunks
        ∧ chunks.length = field.m_Count
        ∧ (st2.emit .EndArray).out = st.out ++ .String field.m_Name :: .StartArray ::
            (chunks.flatten ++ [.EndArray]))
    ∧ (field.m_Count = 1 →
      ∃ st1 v,
        SerializeField env (fuel + 1) inst field st = some st1
        ∧ SerializeTranslator env fuel (Pointer field inst 0) field.m_Translator
            (st.emit (.String field.m_Name)) = some st1
        ∧ IsValue v
        ∧ st1.out = st.out ++ .String field.m_Name :: v) := by
  rw [Field_depth_eq field] at hfuel
  have hT := (Serialize_total env fuel).2.2
  refine ⟨fun hc => ?_, fun hc => ?_⟩
  · obtain ⟨st2, chunks, h2, e2, o2, l2⟩ := forEach_emits
      (fun s i => SerializeTranslator env fuel (Pointer field inst i) field.m_Translator s)
      (List.range field.m_Count)
      (fun i _ s => by
        obtain ⟨s1, v, h1, e1, hv⟩ :=
          hT (Pointer field inst i) field.m_Translator s (by omega)
        exact ⟨s1, v, h1, e1.1, hv⟩)
      ((st.emit (.String field.m_Name)).emit .StartArray)
    refine ⟨st2, chunks, ?_, e2, by simpa using l2, ?_⟩
    · rw [SerializeField_succ, if_pos hc, h2]
    · change st2.out ++ [.EndArray] = _
      rw [o2]
      simp [WriterState.emit]
  · obtain ⟨st1, v, h1, e1, hv⟩ :=
      hT (Pointer field inst 0) field.m_Translator (st.emit (.String field.m_Name)) (by omega)
    refine ⟨st1, v, ?_, h1, hv, ?_⟩
    · rw [SerializeField_succ, if_neg (by omega), h1]
    · rw [e1.1]
      simp [WriterState.emit]

/-- C14 at a concrete field: the field "v" with three elements 10, 20, 30 is emitted as
the name and one array of the three values in index order. -/
theorem C14_fixed_count_fields_witness :
    demoTriple.depth ≤ 1 + 1
    ∧ (SerializeField (demoEnv [] (fun _ => none) (fun _ _ => false)) (1 + 1)
        demoTripleInst demoTriple WriterState.init).map (fun st => st.out) =
      some [.String "v", .StartArray, .Uint 10, .Uint 20, .Uint 30, .EndArray]
    ∧ ∃ (st2 : WriterState) (chunks : List (List Token)),
        SerializeField (demoEnv [] (fun _ => none) (fun _ _ => false)) (1 + 1)
          demoTripleInst demoTriple WriterState.init = some (st2.emit .EndArray)
        ∧ Emits (fun s i => SerializeTranslator (demoEnv [] (fun _ => none)
            (fun _ _ => false)) 1 (Pointer demoTriple demoTripleInst i)
            demoTriple.m_Translator s) (List.range demoTriple.m_Count)
            ((WriterState.init.emit (.String demoTriple.m_Name)).emit .StartArray) st2 chunks
        ∧ chunks.length = demoTriple.m_Count
        ∧ (st2.emit .EndArray).out = WriterState.init.out ++ .String demoTriple.m_Name ::
            .StartArray :: (chunks.flatten ++ [.EndArray]) :=
  ⟨by decide, by decide,
    (C14_fixed_count_fields (demoEnv [] (fun _ => none) (fun _ _ => false)) 1
      demoTripleInst demoTriple WriterState.init (by decide)).1 (by decide)⟩

/-! ## Shape of the records -/

theorem matchedFrom_flatten (vs : List (List Token))
    (h : ∀ v, v ∈ vs → ∀ rest stack, matchedFrom (v ++ rest) stack = matchedFrom rest stack) :
    ∀ rest stack, matchedFrom (vs.flatten ++ rest) stack = matchedFrom rest stack := by
  induction vs with
  | nil => intro rest stack; rfl
  | cons v vs ih =>
    intro rest stack
    rw [List.flatten_cons, List.append_assoc, h v (List.mem_cons_self v vs)]
    exact ih (fun w hw => h w (List.mem_cons_of_mem v hw)) rest stack

theorem matchedFrom_value {v : List Token} (h : IsValue v) :
    ∀ rest stack, matchedFrom (v ++ rest) stack = matchedFrom rest stack := by
  induction h with
  | array vs _ ih =>
    intro rest stack
    have h1 : (Token.StartArray :: (vs.flatten ++ [.EndArray])) ++ rest =
        .StartArray :: (vs.flatten ++ (.EndArray :: rest)) := by simp
    rw [h1]
    show matchedFrom (vs.flatten ++ (.EndArray :: rest)) (.StartArray :: stack) = _
    rw [matchedFrom_flatten vs ih]
    rfl
  | object vs _ ih =>
    intro rest stack
    have h1 : (Token.StartObject :: (vs.flatten ++ [.EndObject])) ++ rest =
        .StartObject :: (vs.flatten ++ (.EndObject :: rest)) := by simp
    rw [h1]
    show matchedFrom (vs.flatten ++ (.EndObject :: rest)) (.StartObject :: stack) = _
    rw [matchedFrom_flatten vs ih]
    rfl
  | _ => intro rest stack; rfl

theorem IsValue_matched {v : List Token} (h : IsValue v) : matchedFrom v [] = true := by
  have := matchedFrom_value h [] []
  rw [List.append_nil] at this
  rw [this]
  rfl

theorem IsRecord_value {o : Object} {r : List Token} (h : IsRecord o r) : IsValue r := by
  obtain ⟨chunks, rfl, q⟩ := h
  have hin : IsValue (.StartObject :: (chunks.flatten ++ [.EndObject])) :=
    IsValue_object (IsValues_flatten chunks (Forall2_right q (fun _ _ => IsFieldChunk_values)))
  have := IsValue.object [[.String o.cls.m_Name], .StartObject :: (chunks.flatten ++ [.EndObject])]
    (fun v hv => by
      rcases List.mem_cons.1 hv with rfl | hv
      · exact IsValue.String _
      · rw [List.mem_singleton.1 hv]
        exact hin)
  simpa using this

theorem Write_records (env : Env) (steps depth : Nat) (root : Object)
    (Inv : List Object → Prop) (hroot : Inv [root]) (hclosed : PrintClosed env Inv)
    (hbound : ∀ objects, Inv objects →
      objects.length ≤ steps ∧ ∀ o, o ∈ objects → o.cls.depth ≤ depth) :
    ∃ st recs, Write env steps depth root = some st
      ∧ st.out = .StartArray :: (recs.flatten ++ [.EndArray])
      ∧ List.Forall₂ IsRecord st.m_Objects recs := by
  obtain ⟨st1, recs, h1, o1, q1, _, _⟩ := WriteLoop_spec env depth steps Inv hclosed hbound
    steps 0 (({ WriterState.init.Raise env .Starting with
      m_Objects := (WriterState.init.Raise env .Starting).m_Objects ++ [root] }).emit
        .StartArray)
    hroot (Nat.zero_le _) (by omega)
  refine ⟨{ (st1.emit .EndArray).Raise env .ObjectProcessed with flushed := true }.Raise env
    .Complete, recs, ?_, ?_, q1⟩
  · simp only [Write, h1]
  · change st1.out ++ [.EndArray] = _
    rw [o1]
    simp [WriterState.emit, WriterState.Raise, WriterState.init]

/-- C13. Under the bounds on the identify behaviour under which `Write` returns (see C2),
the output of `Write` is `StartArray`, one record per object of the final list, in list
order, and `EndArray`. The record of an object is `StartObject`, the name of the class of
the object as the only key, and as its value `StartObject`, for each collected field the
field name followed by exactly one value, `EndObject`; then `EndObject`. Every record is
one value, the whole output is one value, and in the whole output every start event is
closed by the end event of its kind, innermost first. -/
theorem C13_record_shape (env : Env) (steps depth : Nat) (root : Object)
    (Inv : List Object → Prop) (hroot : Inv [root]) (hclosed : PrintClosed env Inv)
    (hbound : ∀ objects, Inv objects →
      objects.length ≤ steps ∧ ∀ o, o ∈ objects → o.cls.depth ≤ depth) :
    ∃ st recs, Write env steps depth root = some st
      ∧ st.out = .StartArray :: (recs.flatten ++ [.EndArray])
      ∧ List.Forall₂ (fun (o : Object) (r : List Token) =>
          ∃ chunks : List (List Token),
            r = .StartObject :: .String o.cls.m_Name :: .StartObject ::
              (chunks.flatten ++ [.EndObject, .EndObject])
            ∧ List.Forall₂ (fun (f : Field) (c : List Token) =>
                ∃ v, c = .String f.m_Name :: v ∧ IsValue v)
              (collectFields o.inst o.cls) chunks) st.m_Objects recs
      ∧ (∀ r, r ∈ recs → IsValue r)
      ∧ IsValue st.out
      ∧ matchedFrom st.out [] = true := by
  obtain ⟨st, recs, h1, o1, q1⟩ := Write_records env steps depth root Inv hroot hclosed hbound
  have hv : ∀ r, r ∈ recs → IsValue r := Forall2_right q1 (fun _ _ => IsRecord_value)
  have hout : IsValue st.out := by
    rw [o1]
    exact IsValue.array recs hv
  exact ⟨st, recs, h1, o1, q1, hv, hout, IsValue_matched hout⟩

/-- C13 at a concrete object: the record of `demoB`, of class "B" with the field "x". -/
theorem C13_record_shape_witness :
    (Write (demoEnv [] (fun _ => none) (fun _ _ => false)) 1 3 demoB).map
        (fun st => st.out) =
      some [.StartArray,
        .StartObject, .String "B", .StartObject, .String "x", .Uint 5, .EndObject,
        .EndObject,
        .EndArray]
    ∧ ∃ (st : WriterState) (recs : List (List Token)),
      Write (demoEnv [] (fun _ => none) (fun _ _ => false)) 1 3 demoB = some st
      ∧ st.out = .StartArray :: (recs.flatten ++ [.EndArray])
      ∧ (∀ r, r ∈ recs → IsValue r)
      ∧ IsValue st.out
      ∧ matchedFrom st.out [] = true :=
  ⟨by decide,
    (C13_record_shape (demoEnv [] (fun _ => none) (fun _ _ => false)) 1 3 demoB
      (fun objects => objects = [demoB]) rfl
      (by
        intro cls v objects h
        subst h
        cases v <;> rfl)
      (by
        intro objects h
        subst h
        exact ⟨by decide, fun o ho => by
          rw [List.mem_singleton.1 ho]
          decide⟩)).elim
      (fun st h => h.elim (fun recs h => ⟨st, recs, h.1, h.2.1, h.2.2.2⟩))⟩

/-! ## Lifecycle hooks -/

theorem IsTraces_nil (pre post : Option String → Hook) : IsTraces pre post [] :=
  ⟨[], rfl, fun _ h => by cases h⟩

theorem IsTraces_append {pre post : Option String → Hook} {a b : List Hook}
    (ha : IsTraces pre post a) (hb : IsTraces pre post b) : IsTraces pre post (a ++ b) := by
  obtain ⟨va, rfl, h1⟩ := ha
  obtain ⟨vb, rfl, h2⟩ := hb
  exact ⟨va ++ vb, by simp, fun v hv => (List.mem_append.1 hv).elim (h1 v) (h2 v)⟩

theorem StepHooks_nil (pre post : Option String → Hook) (t : Translator) :
    StepHooks pre post t [] :=
  ⟨IsTraces_nil pre post, fun _ => rfl⟩

theorem StepHooks_append {pre post : Option String → Hook} {t : Translator}
    {a b : List Hook} (ha : StepHooks pre post t a) (hb : StepHooks pre post t b) :
    StepHooks pre post t (a ++ b) :=
  ⟨IsTraces_append ha.1 hb.1, fun h => by rw [ha.2 h, hb.2 h]; rfl⟩

theorem StepHooks_flatten {pre post : Option String → Hook} {t : Translator} {α : Type}
    {xs : List α} {chunks : List (List Hook)}
    (h : List.Forall₂ (fun _ c => StepHooks pre post t c) xs chunks) :
    StepHooks pre post t chunks.flatten := by
  induction h with
  | nil => exact StepHooks_nil pre post t
  | cons hc _ ih =>
    rw [List.flatten_cons]
    exact StepHooks_append hc ih

theorem FieldHooks_trace {pre post : Option String → Hook} {f : Field} {c : List Hook}
    (h : FieldHooks pre post f c) : IsFieldTrace pre post c := by
  obtain ⟨hs, rfl, ⟨inner, rfl, hin⟩, _⟩ := h
  exact IsFieldTrace.mk f.m_Name inner hin

/-- The hook calls of one run of the instance routine are those of a step of the Structure
category. -/
theorem StepHooks_instance {pre post : Option String → Hook} {fs : List Field}
    {chunks : List (List Hook)} (s : Structure)
    (h : List.Forall₂ (FieldHooks pre post) fs chunks) :
    StepHooks pre post (.structure s) (pre none :: (chunks.flatten ++ [post none])) := by
  refine ⟨⟨[pre none :: (chunks.flatten ++ [post none])], by simp, fun t ht => ?_⟩,
    fun h => by cases h⟩
  rw [List.mem_singleton.1 ht]
  exact IsInstanceTrace.mk chunks (Forall2_right h (fun _ _ => FieldHooks_trace))

/-- With no Structure among the translators of the fields, the hook calls of the fields
are the field pre-hook and the field post-hook of each field, in order. -/
theorem FieldHooks_flat {pre post : Option String → Hook} {fs : List Field}
    {chunks : List (List Hook)} (h : List.Forall₂ (FieldHooks pre post) fs chunks)
    (hno : ∀ f, f ∈ fs → f.m_Translator.hasStructure = false) :
    chunks.flatten = fs.flatMap (fun f => [pre (some f.m_Name), post (some f.m_Name)]) := by
  induction h with
  | nil => rfl
  | @cons f c fs cs hc _ ih =>
    obtain ⟨hs, rfl, hstep⟩ := hc
    rw [List.flatten_cons, List.flatMap_cons,
      ih (fun g hg => hno g (List.mem_cons_of_mem f hg)),
      hstep.2 (hno f (List.mem_cons_self f fs))]
    rfl

/-- A loop of the writer whose body always returns and calls the hooks in a chunk
satisfying `Q` returns and calls the hooks of the chunks one after the other. -/
theorem forEach_hooks {α : Type} (body : WriterState → α → Option WriterState)
    (Q : α → List Hook → Prop) (xs : List α)
    (hbody : ∀ x, x ∈ xs → ∀ st, ∃ st1 c, body st x = some st1 ∧ st1.hooks = st.hooks ++ c
      ∧ Q x c) :
    ∀ st, ∃ st1 chunks, forEach body xs st = some st1
      ∧ st1.hooks = st.hooks ++ chunks.flatten ∧ List.Forall₂ Q xs chunks := by
  induction xs with
  | nil =>
    intro st
    exact ⟨st, [], rfl, by simp, List.Forall₂.nil⟩
  | cons x xs ih =>
    intro st
    obtain ⟨s1, c, h1, o1, q1⟩ := hbody x (List.mem_cons_self x xs) st
    obtain ⟨st1, chunks, h2, o2, q2⟩ :=
      ih (fun y hy => hbody y (List.mem_cons_of_mem x hy)) s1
    refine ⟨st1, c :: chunks, ?_, ?_, List.Forall₂.cons q1 q2⟩
    · simp only [forEach, h1, h2]
    · rw [o2, o1]
      simp

theorem SerializeScalar_hooks (env : Env) (cls : ScalarClass) (type : ScalarType)
    (pointer : Val) (st : WriterState) :
    (SerializeScalar env cls type pointer st).hooks = st.hooks := by
  cases type <;> rfl

theorem StepHooks_of {pre post : Option String → Hook} {t u : Translator} {hs : List Hook}
    (h : StepHooks pre post t hs) (htu : u.hasStructure = false → t.hasStructure = false) :
    StepHooks pre post u hs :=
  ⟨h.1, fun hu => h.2 (htu hu)⟩

theorem hasStructure_key {k v : Translator}
    (h : (Translator.association k v).hasStructure = false) : k.hasStructure = false := by
  simp only [Translator.hasStructure, Bool.or_eq_false_iff] at h
  exact h.1

theorem hasStructure_value {k v : Translator}
    (h : (Translator.association k v).hasStructure = false) : v.hasStructure = false := by
  simp only [Translator.hasStructure, Bool.or_eq_false_iff] at h
  exact h.2

theorem WriterStepHooks_flatten {t : Translator} {α : Type} {xs : List α}
    {chunks : List (List Hook)}
    (h : List.Forall₂ (fun _ c => WriterStepHooks t c) xs chunks) (hne : xs ≠ []) :
    WriterStepHooks t chunks.flatten := by
  refine ⟨StepHooks_flatten (List.Forall₂.imp (fun _ _ h => h.1) h), fun s hs => ?_⟩
  cases h with
  | nil => exact absurd rfl hne
  | cons hc _ =>
    rw [List.flatten_cons]
    exact List.mem_append_left _ (hc.2 s hs)

/-- With fuel for the depth of the metadata the three mutually recursive routines of the
writer return, and the hook calls they make are: for `SerializeInstance` the
whole-instance pre-hook, the hook calls around the collected fields in order, the
whole-instance post-hook; for `SerializeField` and `SerializeTranslator` the hook calls of
the step of the translator. -/
theorem Serialize_hooks (env : Env) : ∀ fuel : Nat,
    (∀ inst strct st, strct.depth ≤ fuel →
      ∃ st1 chunks, SerializeInstance env fuel inst strct st = some st1
        ∧ st1.hooks = st.hooks ++
            Hook.PreSerialize none :: (chunks.flatten ++ [Hook.PostSerialize none])
        ∧ List.Forall₂ (fun f c => FieldHooks Hook.PreSerialize Hook.PostSerialize f c
            ∧ ∀ s, f.m_Translator = .structure s → Hook.PreSerialize none ∈ c)
            (collectFields inst strct) chunks)
    ∧ (∀ inst (field : Field) st, field.depth ≤ fuel →
      ∃ st1 hs, SerializeField env fuel inst field st = some st1
        ∧ st1.hooks = st.hooks ++ hs
        ∧ WriterStepHooks field.m_Translator hs)
    ∧ (∀ pointer (translator : Translator) st, translator.depth ≤ fuel →
      ∃ st1 hs, SerializeTranslator env fuel pointer translator st = some st1
        ∧ st1.hooks = st.hooks ++ hs
        ∧ WriterStepHooks translator hs) := by
  intro fuel
  induction fuel with
  | zero =>
    refine ⟨fun _ s _ h => ?_, fun _ f _ h => ?_, fun _ t _ h => ?_⟩
    · have := Structure_depth_pos s
      omega
    · rw [Field_depth_eq f] at h
      omega
    · have := Translator_depth_pos t
      omega
  | succ fuel ih =>
    obtain ⟨ihI, ihF, ihT⟩ := ih
    refine ⟨?_, ?_, ?_⟩
    · intro inst strct st hd
      obtain ⟨st2, chunks, h2, e2, q2⟩ := forEach_hooks
        (fun s field =>
          match SerializeField env fuel inst field
            (s.hook (.PreSerialize (some field.m_Name))) with
          | none => none
          | some s1 => some (s1.hook (.PostSerialize (some field.m_Name))))
        (fun f c => FieldHooks Hook.PreSerialize Hook.PostSerialize f c
          ∧ ∀ s, f.m_Translator = .structure s → Hook.PreSerialize none ∈ c)
        (collectFields inst strct)
        (fun f hf s => by
          have hfd := collectFields_depth inst strct f hf
          obtain ⟨s1, hs, h1, e1, hv⟩ :=
            ihF inst f (s.hook (.PreSerialize (some f.m_Name))) (by omega)
          refine ⟨s1.hook (.PostSerialize (some f.m_Name)),
            .PreSerialize (some f.m_Name) :: (hs ++ [.PostSerialize (some f.m_Name)]), ?_, ?_,
            ⟨hs, rfl, hv.1⟩, fun t ht =>
              List.mem_cons_of_mem _ (List.mem_append_left _ (hv.2 t ht))⟩
          · simp only [h1]
          · change s1.hooks ++ [_] = _
            rw [e1]
            simp [WriterState.hook])
        ((st.emit .StartObject).hook (.PreSerialize none))
      refine ⟨(st2.hook (.PostSerialize none)).emit .EndObject, chunks, ?_, ?_, q2⟩
      · rw [SerializeInstance_succ, h2]
      · change st2.hooks ++ [_] = _
        rw [e2]
        simp [WriterState.hook, WriterState.emit]
    · intro inst field st hd
      rw [Field_depth_eq field] at hd
      rw [SerializeField_succ]
      by_cases hc : field.m_Count > 1
      · rw [if_pos hc]
        obtain ⟨st2, chunks, h2, e2, q2⟩ := forEach_hooks
          (fun s i => SerializeTranslator env fuel (Pointer field inst i) field.m_Translator s)
          (fun _ c => WriterStepHooks field.m_Translator c)
          (List.range field.m_Count)
          (fun i _ s => ihT (Pointer field inst i) field.m_Translator s (by omega))
          ((st.emit (.String field.m_Name)).emit .StartArray)
        refine ⟨st2.emit .EndArray, chunks.flatten, ?_, ?_, WriterStepHooks_flatten q2 ?_⟩
        · rw [h2]
        · exact e2
        · intro h
          have := congrArg List.length h
          simp at this
          omega
      · rw [if_neg hc]
        exact ihT (Pointer field inst 0) field.m_Translator
          (st.emit (.String field.m_Name)) (by omega)
    · intro pointer translator st hd
      rw [SerializeTranslator_succ]
      cases translator
      · rename_i cls type
        exact ⟨_, [], rfl, by rw [SerializeScalar_hooks]; simp,
          StepHooks_nil _ _ _, fun s h => by cases h⟩
      · rename_i s
        have hs : s.depth ≤ fuel := by
          simp only [Translator.depth] at hd
          omega
        obtain ⟨st1, chunks, h1, e1, q1⟩ := ihI pointer s st hs
        exact ⟨st1, _, h1, e1,
          StepHooks_instance s (List.Forall₂.imp (fun _ _ h => h.1) q1),
          fun _ _ => List.mem_cons_self _ _⟩
      · rename_i item
        have hs : item.depth ≤ fuel := by
          simp only [Translator.depth] at hd
          omega
        obtain ⟨st2, chunks, h2, e2, q2⟩ := forEach_hooks
          (fun s x => SerializeTranslator env fuel x item s)
          (fun _ c => StepHooks Hook.PreSerialize Hook.PostSerialize item c) (GetItems pointer)
          (fun x _ s => by
            obtain ⟨s1, c, h1, e1, q1⟩ := ihT x item s hs
            exact ⟨s1, c, h1, e1, q1.1⟩) (st.emit .StartArray)
        refine ⟨st2.emit .EndArray, chunks.flatten, ?_, e2,
          StepHooks_of (StepHooks_flatten q2) (fun h => h), fun s h => by cases h⟩
        simp only [h2]
      · rename_i item
        have hs : item.depth ≤ fuel := by
          simp only [Translator.depth] at hd
          omega
        obtain ⟨st2, chunks, h2, e2, q2⟩ := forEach_hooks
          (fun s x => SerializeTranslator env fuel x item s)
          (fun _ c => StepHooks Hook.PreSerialize Hook.PostSerialize item c) (GetItems pointer)
          (fun x _ s => by
            obtain ⟨s1, c, h1, e1, q1⟩ := ihT x item s hs
            exact ⟨s1, c, h1, e1, q1.1⟩) (st.emit .StartArray)
        refine ⟨st2.emit .EndArray, chunks.flatten, ?_, e2,
          StepHooks_of (StepHooks_flatten q2) (fun h => h), fun s h => by cases h⟩
        simp only [h2]
      · rename_i k v
        have hk : k.depth ≤ fuel := by
          simp only [Translator.depth] at hd
          omega
        have hv : v.depth ≤ fuel := by
          simp only [Translator.depth] at hd
          omega
        obtain ⟨st2, chunks, h2, e2, q2⟩ := forEach_hooks
          (fun s (kv : Val × Val) =>
            match SerializeTranslator env fuel kv.1 k s with
            | none => none
            | some s1 => SerializeTranslator env fuel kv.2 v s1)
          (fun _ c => StepHooks Hook.PreSerialize Hook.PostSerialize (.association k v) c)
          (GetEntries pointer)
          (fun x _ s => by
            obtain ⟨s1, c1, h1, e1, q1⟩ := ihT x.1 k s hk
            obtain ⟨s2, c2, h2, e2, q2⟩ := ihT x.2 v s1 hv
            refine ⟨s2, c1 ++ c2, ?_, ?_, StepHooks_append
              (StepHooks_of q1.1 hasStructure_key) (StepHooks_of q2.1 hasStructure_value)⟩
            · simp only [h1, h2]
            · rw [e2, e1, List.append_assoc])
          (st.emit .StartObject)
        refine ⟨st2.emit .EndObject, chunks.flatten, ?_, e2, StepHooks_flatten q2,
          fun s h => by cases h⟩
        simp only [h2]

theorem Parse_hooks (env : Env) (cls : ScalarClass) (str : String) (pointer : Val)
    (notify : Bool) (st : ReaderState) :
    (Parse env cls str pointer notify st).2.hooks = st.hooks := by
  unfold Parse ArchiveReader.Resolve
  split
  · dsimp only
    split <;> (split <;> rfl)
  · rfl

/-- A value that is no array and no object makes `DeserializeTranslator` call no hook. -/
theorem DeserializeTranslator_leaf_hooks (env : Env) (value : Value) (pointer : Val)
    (translator : Translator) (st : ReaderState)
    (harr : ∀ xs, value ≠ .array xs) (hobj : ∀ ms, value ≠ .object ms) :
    ∃ hs, (DeserializeTranslator env value pointer translator st).2.hooks = st.hooks ++ hs
      ∧ StepHooks Hook.PreDeserialize Hook.PostDeserialize translator hs := by
  refine ⟨[], ?_, StepHooks_nil _ _ _⟩
  rcases DeserializeTranslator_leaf_state env value pointer translator st harr hobj with
    h | ⟨cls, str, n, h⟩
  · rw [h, List.append_nil]
  · rw [h, Parse_hooks, List.append_nil]

/-- The hook calls of `DeserializeField` are those of the step of the translator of the
field as soon as those of the translator dispatch and of the element loop are, for its
value. -/
theorem DeserializeField_hooks_of (env : Env) (value : Value) (inst : Val) (field : Field)
    (st : ReaderState)
    (hT : ∀ p s, ∃ hs,
      (DeserializeTranslator env value p field.m_Translator s).2.hooks = s.hooks ++ hs
      ∧ StepHooks Hook.PreDeserialize Hook.PostDeserialize field.m_Translator hs)
    (hE : ∀ xs, value = .array xs → ∀ i m s, ∃ hs,
      (DeserializeElements env xs i m field s).2.hooks = s.hooks ++ hs
      ∧ StepHooks Hook.PreDeserialize Hook.PostDeserialize field.m_Translator hs) :
    ∃ hs, (DeserializeField env value inst field st).2.hooks = st.hooks ++ hs
      ∧ StepHooks Hook.PreDeserialize Hook.PostDeserialize field.m_Translator hs := by
  unfold DeserializeField
  split
  · split
    · exact hE _ rfl _ _ _
    · exact hT _ _
  · exact hT _ _

/-- One iteration of the member loop: the hook calls around the field the member name
resolves to, if it resolves to one, and then those of the rest of the members. -/
theorem DeserializeMembers_hooks_cons (env : Env) (name value : Value)
    (rest : List (Value × Value)) (inst : Val) (strct : Structure) (st : ReaderState)
    (hF : ∀ (field : Field) m s, ∃ hs,
      (DeserializeField env value m field s).2.hooks = s.hooks ++ hs
      ∧ StepHooks Hook.PreDeserialize Hook.PostDeserialize field.m_Translator hs)
    (hR : ∀ m s, ∃ chunks,
      (DeserializeMembers env rest m strct s).2.hooks = s.hooks ++ chunks.flatten
      ∧ List.Forall₂ (FieldHooks Hook.PreDeserialize Hook.PostDeserialize)
          (knownFields env strct (.object rest)) chunks) :
    ∃ chunks,
      (DeserializeMembers env ((name, value) :: rest) inst strct st).2.hooks =
        st.hooks ++ chunks.flatten
      ∧ List.Forall₂ (FieldHooks Hook.PreDeserialize Hook.PostDeserialize)
          (knownFields env strct (.object ((name, value) :: rest))) chunks := by
  cases hfind : FindFieldByName env strct (nameCrc env name) with
  | none =>
    rw [DeserializeMembers_unknown env name value rest inst strct st hfind]
    obtain ⟨chunks, h, q⟩ := hR inst st
    refine ⟨chunks, h, ?_⟩
    have hk : knownFields env strct (.object ((name, value) :: rest)) =
        knownFields env strct (.object rest) := by
      simp [knownFields, List.filterMap_cons, hfind]
    rw [hk]
    exact q
  | some field =>
    rw [DeserializeMembers_known env name value rest inst strct st field hfind]
    obtain ⟨hs, h1, q1⟩ := hF field inst (st.hook (.PreDeserialize (some field.m_Name)))
    obtain ⟨chunks, h2, q2⟩ := hR
      (DeserializeField env value inst field
        (st.hook (.PreDeserialize (some field.m_Name)))).1
      ((DeserializeField env value inst field
        (st.hook (.PreDeserialize (some field.m_Name)))).2.hook
          (.PostDeserialize (some field.m_Name)))
    refine ⟨(.PreDeserialize (some field.m_Name) ::
      (hs ++ [.PostDeserialize (some field.m_Name)])) :: chunks, ?_, ?_⟩
    · rw [h2]
      change (_ ++ [_]) ++ _ = _
      rw [h1]
      simp [ReaderState.hook]
    · have hk : knownFields env strct (.object ((name, value) :: rest)) =
          field :: knownFields env strct (.object rest) := by
        simp [knownFields, List.filterMap_cons, hfind]
      rw [hk]
      exact List.Forall₂.cons ⟨hs, rfl, q1⟩ q2

mutual
/-- The hook calls of `DeserializeTranslator` are those of the step of the translator: a
run of the instance routine for every nested instance, none without a Structure. -/
theorem DeserializeTranslator_hooks (env : Env) :
    ∀ (value : Value) (pointer : Val) (translator : Translator) (st : ReaderState),
      ∃ hs, (DeserializeTranslator env value pointer translator st).2.hooks = st.hooks ++ hs
        ∧ StepHooks Hook.PreDeserialize Hook.PostDeserialize translator hs
  | .null, p, t, st =>
    DeserializeTranslator_leaf_hooks env .null p t st (by intro xs h; cases h)
      (by intro ms h; cases h)
  | .bool b, p, t, st =>
    DeserializeTranslator_leaf_hooks env (.bool b) p t st (by intro xs h; cases h)
      (by intro ms h; cases h)
  | .number n, p, t, st =>
    DeserializeTranslator_leaf_hooks env (.number n) p t st (by intro xs h; cases h)
      (by intro ms h; cases h)
  | .string str, p, t, st =>
    DeserializeTranslator_leaf_hooks env (.string str) p t st (by intro xs h; cases h)
      (by intro ms h; cases h)
  | .array xs, p, .set item, st => by
    obtain ⟨hs, h, q⟩ := DeserializeSetItems_hooks env xs p item st
    exact ⟨hs, h, StepHooks_of q (fun h => h)⟩
  | .array xs, p, .sequence item, st => by
    obtain ⟨hs, h, q⟩ := DeserializeSequenceItems_hooks env xs 0
      (SetLength env item p xs.length) item st
    exact ⟨hs, h, StepHooks_of q (fun h => h)⟩
  | .array _, _, .scalar _ _, st => ⟨[], (List.append_nil _).symm, StepHooks_nil _ _ _⟩
  | .array _, _, .structure _, st => ⟨[], (List.append_nil _).symm, StepHooks_nil _ _ _⟩
  | .array _, _, .association _ _, st => ⟨[], (List.append_nil _).symm, StepHooks_nil _ _ _⟩
  | .object ms, p, .structure s, st => by
    obtain ⟨chunks, h, q⟩ := DeserializeMembers_hooks env ms p s
      (st.hook (.PreDeserialize none))
    refine ⟨_, ?_, StepHooks_instance s q⟩
    change (DeserializeMembers env ms p s (st.hook (.PreDeserialize none))).2.hooks ++ [_] = _
    rw [h]
    simp [ReaderState.hook]
  | .object ms, p, .association k v, st =>
    DeserializeAssociation_hooks env ms _ _ p k v st
  | .object _, _, .scalar _ _, st => ⟨[], (List.append_nil _).symm, StepHooks_nil _ _ _⟩
  | .object _, _, .set _, st => ⟨[], (List.append_nil _).symm, StepHooks_nil _ _ _⟩
  | .object _, _, .sequence _, st => ⟨[], (List.append_nil _).symm, StepHooks_nil _ _ _⟩
/-- The hook calls of the member loop of `DeserializeInstance`: the hook calls around the
fields the member names resolve to, in member order. -/
theorem DeserializeMembers_hooks (env : Env) :
    ∀ (ms : List (Value × Value)) (inst : Val) (strct : Structure) (st : ReaderState),
      ∃ chunks, (DeserializeMembers env ms inst strct st).2.hooks = st.hooks ++ chunks.flatten
        ∧ List.Forall₂ (FieldHooks Hook.PreDeserialize Hook.PostDeserialize)
            (knownFields env strct (.object ms)) chunks
  | [], _, _, st => ⟨[], (List.append_nil _).symm, List.Forall₂.nil⟩
  | (name, .array xs) :: rest, inst, strct, st =>
    DeserializeMembers_hooks_cons env name (.array xs) rest inst strct st
      (fun field m s => DeserializeField_hooks_of env (.array xs) m field s
        (fun p s1 => DeserializeTranslator_hooks env (.array xs) p field.m_Translator s1)
        (fun ys h i m1 s1 => by
          cases h
          exact DeserializeElements_hooks env xs i m1 field s1))
      (fun m s => DeserializeMembers_hooks env rest m strct s)
  | (name, .null) :: rest, inst, strct, st =>
    DeserializeMembers_hooks_cons env name .null rest inst strct st
      (fun field m s => DeserializeField_hooks_of env .null m field s
        (fun p s1 => DeserializeTranslator_hooks env .null p field.m_Translator s1)
        (fun ys h => by cases h))
      (fun m s => DeserializeMembers_hooks env rest m strct s)
  | (name, .bool b) :: rest, inst, strct, st =>
    DeserializeMembers_hooks_cons env name (.bool b) rest inst strct st
      (fun field m s => DeserializeField_hooks_of env (.bool b) m field s
        (fun p s1 => DeserializeTranslator_hooks env (.bool b) p field.m_Translator s1)
        (fun ys h => by cases h))
      (fun m s => DeserializeMembers_hooks env rest m strct s)
  | (name, .number n) :: rest, inst, strct, st =>
    DeserializeMembers_hooks_cons env name (.number n) rest inst strct st
      (fun field m s => DeserializeField_hooks_of env (.number n) m field s
        (fun p s1 => DeserializeTranslator_hooks env (.number n) p field.m_Translator s1)
        (fun ys h => by cases h))
      (fun m s => DeserializeMembers_hooks env rest m strct s)
  | (name, .string str) :: rest, inst, strct, st =>
    DeserializeMembers_hooks_cons env name (.string str) rest inst strct st
      (fun field m s => DeserializeField_hooks_of env (.string str) m field s
        (fun p s1 => DeserializeTranslator_hooks env (.string str) p field.m_Translator s1)
        (fun ys h => by cases h))
      (fun m s => DeserializeMembers_hooks env rest m strct s)
  | (name, .object ms) :: rest, inst, strct, st =>
    DeserializeMembers_hooks_cons env name (.object ms) rest inst strct st
      (fun field m s => DeserializeField_hooks_of env (.object ms) m field s
        (fun p s1 => DeserializeTranslator_hooks env (.object ms) p field.m_Translator s1)
        (fun ys h => by cases h))
      (fun m s => DeserializeMembers_hooks env rest m strct s)
/-- The hook calls of the element loop of `DeserializeField`. -/
theorem DeserializeElements_hooks (env : Env) :
    ∀ (xs : List Value) (i : Nat) (inst : Val) (field : Field) (st : ReaderState),
      ∃ hs, (DeserializeElements env xs i inst field st).2.hooks = st.hooks ++ hs
        ∧ StepHooks Hook.PreDeserialize Hook.PostDeserialize field.m_Translator hs
  | [], _, _, _, st => ⟨[], (List.append_nil _).symm, StepHooks_nil _ _ _⟩
  | x :: xs, i, inst, field, st => by
    rw [DeserializeElements_cons]
    split
    · obtain ⟨h1, e1, q1⟩ :=
        DeserializeTranslator_hooks env x (Pointer field inst i) field.m_Translator st
      obtain ⟨h2, e2, q2⟩ := DeserializeElements_hooks env xs (i + 1)
        (storeField field inst i
          (DeserializeTranslator env x (Pointer field inst i) field.m_Translator st).1)
        field (DeserializeTranslator env x (Pointer field inst i) field.m_Translator st).2
      exact ⟨h1 ++ h2, by rw [e2, e1, List.append_assoc], StepHooks_append q1 q2⟩
    · exact DeserializeElements_hooks env xs (i + 1) inst field st
/-- The hook calls of the item loop of the Set case. -/
theorem DeserializeSetItems_hooks (env : Env) :
    ∀ (xs : List Value) (pointer : Val) (item : Translator) (st : ReaderState),
      ∃ hs, (DeserializeSetItems env xs pointer item st).2.hooks = st.hooks ++ hs
        ∧ StepHooks Hook.PreDeserialize Hook.PostDeserialize item hs
  | [], _, _, st => ⟨[], (List.append_nil _).symm, StepHooks_nil _ _ _⟩
  | x :: xs, pointer, item, st => by
    rw [DeserializeSetItems_cons]
    obtain ⟨h1, e1, q1⟩ := DeserializeTranslator_hooks env x (env.Variable item) item st
    obtain ⟨h2, e2, q2⟩ := DeserializeSetItems_hooks env xs
      (env.InsertItem pointer (DeserializeTranslator env x (env.Variable item) item st).1)
      item (DeserializeTranslator env x (env.Variable item) item st).2
    exact ⟨h1 ++ h2, by rw [e2, e1, List.append_assoc], StepHooks_append q1 q2⟩
/-- The hook calls of the item loop of the Sequence case. -/
theorem DeserializeSequenceItems_hooks (env : Env) :
    ∀ (xs : List Value) (i : Nat) (pointer : Val) (item : Translator) (st : ReaderState),
      ∃ hs, (DeserializeSequenceItems env xs i pointer item st).2.hooks = st.hooks ++ hs
        ∧ StepHooks Hook.PreDeserialize Hook.PostDeserialize item hs
  | [], _, _, _, st => ⟨[], (List.append_nil _).symm, StepHooks_nil _ _ _⟩
  | x :: xs, i, pointer, item, st => by
    rw [DeserializeSequenceItems_cons]
    obtain ⟨h1, e1, q1⟩ := DeserializeTranslator_hooks env x (GetItem pointer i) item st
    obtain ⟨h2, e2, q2⟩ := DeserializeSequenceItems_hooks env xs (i + 1)
      (storeItem pointer i (DeserializeTranslator env x (GetItem pointer i) item st).1)
      item (DeserializeTranslator env x (GetItem pointer i) item st).2
    exact ⟨h1 ++ h2, by rw [e2, e1, List.append_assoc], StepHooks_append q1 q2⟩
/-- The hook calls of the member loop of the Association case. -/
theorem DeserializeAssociation_hooks (env : Env) :
    ∀ (ms : List (Value × Value)) (kv vv pointer : Val) (k v : Translator)
      (st : ReaderState),
      ∃ hs, (DeserializeAssociation env ms kv vv pointer k v st).2.hooks = st.hooks ++ hs
        ∧ StepHooks Hook.PreDeserialize Hook.PostDeserialize (.association k v) hs
  | [], _, _, _, _, _, st => ⟨[], (List.append_nil _).symm, StepHooks_nil _ _ _⟩
  | (name, value) :: rest, kv, vv, pointer, k, v, st => by
    rw [DeserializeAssociation_cons]
    obtain ⟨h1, e1, q1⟩ := DeserializeTranslator_hooks env name kv k st
    obtain ⟨h2, e2, q2⟩ := DeserializeTranslator_hooks env value vv v
      (DeserializeTranslator env name kv k st).2
    obtain ⟨h3, e3, q3⟩ := DeserializeAssociation_hooks env rest
      (DeserializeTranslator env name kv k st).1
      (DeserializeTranslator env value vv v (DeserializeTranslator env name kv k st).2).1
      (env.SetItem pointer (DeserializeTranslator env name kv k st).1
        (DeserializeTranslator env value vv v (DeserializeTranslator env name kv k st).2).1)
      k v
      (DeserializeTranslator env value vv v (DeserializeTranslator env name kv k st).2).2
    exact ⟨h1 ++ (h2 ++ h3), by rw [e3, e2, e1, List.append_assoc, List.append_assoc],
      StepHooks_append (StepHooks_of q1 hasStructure_key)
        (StepHooks_append (StepHooks_of q2 hasStructure_value) q3)⟩
end

/-- C11, what the code does where the claim says otherwise: the object `demoOuterObject` has
the field "s" of the Structure category. Writing it, the only object of the session,
calls the whole-instance pre-hook twice on it, once for the object and once more for the
nested instance inside the field step of "s"; reading its record back does the same. -/
theorem C11_whole_instance_hooks_run_per_nested_instance :
    (Write (demoEnv [] (fun _ => none) (fun _ _ => false)) 1 6 demoOuterObject).map
        (fun st => (st.m_Objects.length, st.hooks)) =
      some (1, [.PreSerialize none,
        .PreSerialize (some "s"),
        .PreSerialize none, .PreSerialize (some "x"), .PostSerialize (some "x"),
        .PostSerialize none,
        .PostSerialize (some "s"),
        .PreSerialize (some "y"), .PostSerialize (some "y"),
        .PostSerialize none])
    ∧ (Write (demoEnv [] (fun _ => none) (fun _ _ => false)) 1 6 demoOuterObject).map
        (fun st => (st.hooks.count (.PreSerialize none),
          st.hooks.count (.PostSerialize none))) = some (2, 2)
    ∧ (ReadNext (demoEnv [demoOuter] (fun _ => none) (fun _ _ => false)) demoOuterDocument
        none (ReaderState.init 0)).2.hooks =
      [.PreDeserialize none,
        .PreDeserialize (some "s"),
        .PreDeserialize none, .PreDeserialize (some "x"), .PostDeserialize (some "x"),
        .PostDeserialize none,
        .PostDeserialize (some "s"),
        .PreDeserialize (some "y"), .PostDeserialize (some "y"),
        .PostDeserialize none]
    ∧ ((ReadNext (demoEnv [demoOuter] (fun _ => none) (fun _ _ => false)) demoOuterDocument
        none (ReaderState.init 0)).2.hooks.count (.PreDeserialize none),
       (ReadNext (demoEnv [demoOuter] (fun _ => none) (fun _ _ => false)) demoOuterDocument
        none (ReaderState.init 0)).2.hooks.count (.PostDeserialize none)) = (2, 2) :=
  ⟨by decide, by decide, by decide, by decide⟩

/-- C11 as the code has it: the whole-instance pair is invoked once per run of the instance
routine, not once per object. With fuel for the depth of the structure `SerializeInstance`
returns and has called, on the owning object, the whole-instance pre-hook, then for each
collected field in order the field pre-hook, the hooks of the field step and the field
post-hook, then the whole-instance post-hook; `DeserializeInstance` does the same with the
fields the member names of the wire value resolve to, in member order. The Structure case
of the translator dispatch is a call of the same instance routine, and the hooks of a
field step are complete runs of the instance routine one after the other (possibly none),
and none at all for a translator that neither is nor holds a Structure. So with no
Structure among the translators of the processed fields the pair is invoked exactly once;
and on write an object with a collected field whose translator is a Structure gets the
whole-instance pre-hook at least twice. -/
theorem C11_hooks_once_per_instance (env : Env) (fuel : Nat) (inst : Val)
    (strct : Structure) (st : WriterState) (value : Value) (rst : ReaderState)
    (hfuel : strct.depth ≤ fuel) :
    (∃ st1 chunks, SerializeInstance env fuel inst strct st = some st1
      ∧ st1.hooks = st.hooks ++
          Hook.PreSerialize none :: (chunks.flatten ++ [Hook.PostSerialize none])
      ∧ List.Forall₂ (FieldHooks Hook.PreSerialize Hook.PostSerialize)
          (collectFields inst strct) chunks
      ∧ ((∀ f, f ∈ collectFields inst strct → f.m_Translator.hasStructure = false) →
          st1.hooks = st.hooks ++ Hook.PreSerialize none ::
            ((collectFields inst strct).flatMap (fun f =>
              [Hook.PreSerialize (some f.m_Name), Hook.PostSerialize (some f.m_Name)])
              ++ [Hook.PostSerialize none]))
      ∧ ((∃ f s, f ∈ collectFields inst strct ∧ f.m_Translator = .structure s) →
          2 ≤ (Hook.PreSerialize none :: (chunks.flatten ++ [Hook.PostSerialize none])).count
            (Hook.PreSerialize none)))
    ∧ (∃ chunks, (DeserializeInstance env value inst strct rst).2.hooks = rst.hooks ++
          Hook.PreDeserialize none :: (chunks.flatten ++ [Hook.PostDeserialize none])
      ∧ List.Forall₂ (FieldHooks Hook.PreDeserialize Hook.PostDeserialize)
          (knownFields env strct value) chunks
      ∧ ((∀ f, f ∈ knownFields env strct value → f.m_Translator.hasStructure = false) →
          (DeserializeInstance env value inst strct rst).2.hooks = rst.hooks ++
            Hook.PreDeserialize none ::
              ((knownFields env strct value).flatMap (fun f =>
                [Hook.PreDeserialize (some f.m_Name), Hook.PostDeserialize (some f.m_Name)])
                ++ [Hook.PostDeserialize none])))
    ∧ (∀ pointer s wst, SerializeTranslator env (fuel + 1) pointer (.structure s) wst =
        SerializeInstance env fuel pointer s wst)
    ∧ (∀ ms pointer s st2, DeserializeTranslator env (.object ms) pointer (.structure s) st2 =
        DeserializeInstance env (.object ms) pointer s st2) := by
  refine ⟨?_, ?_, fun _ _ _ => rfl, fun _ _ _ _ => rfl⟩
  · obtain ⟨st1, chunks, h1, e1, q0⟩ := (Serialize_hooks env fuel).1 inst strct st hfuel
    have q1 : List.Forall₂ (FieldHooks Hook.PreSerialize Hook.PostSerialize)
        (collectFields inst strct) chunks := List.Forall₂.imp (fun _ _ h => h.1) q0
    refine ⟨st1, chunks, h1, e1, q1, fun hno => by rw [e1, FieldHooks_flat q1 hno], ?_⟩
    rintro ⟨f, s, hf, hs⟩
    obtain ⟨c, hc, hq⟩ := Forall2_left q0 f hf
    have hmem : Hook.PreSerialize none ∈ chunks.flatten ++ [Hook.PostSerialize none] :=
      List.mem_append_left _ (List.mem_flatten.2 ⟨c, hc, hq.2 s hs⟩)
    rw [List.count_cons_self]
    have := List.count_pos_iff.2 hmem
    omega
  · have hkey : ∃ chunks, (DeserializeInstance env value inst strct rst).2.hooks =
          rst.hooks ++
            Hook.PreDeserialize none :: (chunks.flatten ++ [Hook.PostDeserialize none])
        ∧ List.Forall₂ (FieldHooks Hook.PreDeserialize Hook.PostDeserialize)
            (knownFields env strct value) chunks := by
      cases value with
      | object ms =>
        obtain ⟨chunks, h, q⟩ := DeserializeMembers_hooks env ms inst strct
          (rst.hook (.PreDeserialize none))
        refine ⟨chunks, ?_, q⟩
        change (DeserializeMembers env ms inst strct
          (rst.hook (.PreDeserialize none))).2.hooks ++ [_] = _
        rw [h]
        simp [ReaderState.hook]
      | _ => exact ⟨[], by simp [DeserializeInstance, ReaderState.hook], List.Forall₂.nil⟩
    obtain ⟨chunks, h, q⟩ := hkey
    exact ⟨chunks, h, q, fun hno => by rw [h, FieldHooks_flat q hno]⟩

/-- C11 at a concrete class: for `demoOuter`, whose field "s" holds a nested instance, the
hooks of `SerializeInstance` are the whole-instance pair around the hooks of the fields
"s" and "y", and the whole-instance pre-hook is among them at least twice. -/
theorem C11_hooks_once_per_instance_witness :
    demoOuter.depth ≤ 6
    ∧ (collectFields demoOuterObject.inst demoOuter).map Field.m_Name = ["s", "y"]
    ∧ ∃ (st1 : WriterState) (chunks : List (List Hook)),
      SerializeInstance (demoEnv [] (fun _ => none) (fun _ _ => false)) 6
        demoOuterObject.inst demoOuter WriterState.init = some st1
      ∧ st1.hooks = WriterState.init.hooks ++
          Hook.PreSerialize none :: (chunks.flatten ++ [Hook.PostSerialize none])
      ∧ List.Forall₂ (FieldHooks Hook.PreSerialize Hook.PostSerialize)
          (collectFields demoOuterObject.inst demoOuter) chunks
      ∧ 2 ≤ (Hook.PreSerialize none :: (chunks.flatten ++ [Hook.PostSerialize none])).count
          (Hook.PreSerialize none) :=
  ⟨by decide, by decide,
    (C11_hooks_once_per_instance (demoEnv [] (fun _ => none) (fun _ _ => false)) 6
      demoOuterObject.inst demoOuter WriterState.init .null (ReaderState.init 0)
      (by decide)).1.elim
      (fun st1 h => h.elim (fun chunks h => ⟨st1, chunks, h.1, h.2.1, h.2.2.1,
        h.2.2.2.2 ⟨.mk "s" 1 (.structure demoInner) (fun _ => true), demoInner,
          List.Mem.head _, rfl⟩⟩))⟩

end Persist
